import Mathlib

/-! # tsync: the archive encoder and decoder

A shallow embedding of `main.go` (and `main_unix.go`) of karrick/tsync.

* Byte strings are lists of natural numbers, one per byte.
* The `gobsp` scalar encodings, the `gobsp.Composer` and the scanner loop are
  external to the repository; they are modelled here from their interface.
* The content hash (`xxhash.New64`) is a parameter `hash` of every function
  that uses it; `Sum64` reduces it modulo `2^64`.
* The encoder reads the file system through a script: every directory entry
  carries the answers that the system calls made on it give, failures included.
* The decoder acts on a tree-shaped file system with a working directory, in
  which the permission bits of the owner, the limits on names and times, and
  the refusals of the system decide how each call ends.
* `fatalWhenErr` ends the process: the outcome `Outcome.fatal`; so does the
  panic of `bytes.Buffer.Grow` on a negative count, or on a count that the
  buffer cannot grow by. An `int` is 64 bits wide.
* `debug` and `warning` only print; the flag `*optDebug` is the parameter
  `debug` of the encoder.
-/

set_option maxRecDepth 8000

namespace Tsync

/-! ## Bytes, errors, outcomes -/

/-- Byte strings: Go strings and byte slices, one number per byte. -/
abbrev Bytes := List Nat

/-- ASCII text as a byte string. -/
def ascii (s : String) : Bytes := s.data.map Char.toNat

/-- Error numbers of the system calls the program makes. -/
inductive Errno where
  | enoent
  | eexist
  | enotdir
  | eisdir
  | enotempty
  | einval
  | eloop
  | enxio
  | eacces
  | ebusy
  | eio
  | enametoolong
  | enospc
deriving DecidableEq, Repr

/-- Go `error` values the program returns; a nil error is `none : Option Err`. -/
inductive Err where
  | errUnexpectedEOF
  | errShortWrite
  | hashMismatch (hs hd : Nat)
  | sys (e : Errno)
  | notImplemented
  | modeTypeNotSupported
  | composeFailed
  | growNegativeCount
  | errTooLarge
  | unknownMessageType (t : Nat)
deriving DecidableEq, Repr

/-- How a call ends: it returns nil, it returns an error, or the process is
ended with that error, by `fatalWhenErr` or by a run-time panic. -/
inductive Outcome where
  | ok
  | failed (e : Err)
  | fatal (e : Err)
deriving DecidableEq, Repr

/-- A returned Go error as an outcome (`errors.Wrap` of nil is nil). -/
def Outcome.ofError : Option Err → Outcome
  | none => .ok
  | some e => .failed e

/-- The process was ended. -/
def Outcome.isFatal : Outcome → Bool
  | .fatal _ => true
  | _ => false

/-! ## Message types (the `const` block of `main.go`) -/

def v1Syn : Nat := 0
def v1SynAck : Nat := 1
def v1RegularFile : Nat := 2
def v1DirectoryDescend : Nat := 3
def v1DirectoryAscend : Nat := 4
def v1Symlink : Nat := 5
def v1FIFO : Nat := 6
def v1Socket : Nat := 7
def v1Device : Nat := 8

/-! ## Scalar encodings (`gobsp.String`, `Int64`, `Uint32`, `Uint64`, `UVWI`)

The library `gobsp` is not part of the repository; its encodings are modelled
from the spec (section 4.2). Fixed-width integers are taken big-endian, the
variable-width integer in groups of seven bits, low group first, and a string
as its length (variable-width) followed by its bytes. Reading from a payload
that is too short fails with the unexpected-end-of-input error. -/

/-- The `w` low bytes of `n`, most significant first. -/
def beBytes : Nat → Nat → Bytes
  | 0, _ => []
  | w + 1, n => beBytes w (n / 256) ++ [n % 256]

/-- The number a big-endian byte string stands for. -/
def beValue (bs : Bytes) : Nat := bs.foldl (fun a b => a * 256 + b) 0

/-- Reads exactly `k` bytes, or fails when fewer remain. -/
def readN (k : Nat) (r : Bytes) : Except Err (Bytes × Bytes) :=
  if r.length < k then .error .errUnexpectedEOF else .ok (r.take k, r.drop k)

/-- Modelled from the spec: `gobsp.Uint32.MarshalBinaryTo`, a fixed four-byte
unsigned integer. -/
def marshalUint32 (n : Nat) : Bytes := beBytes 4 (n % 2 ^ 32)

/-- Modelled from the spec: `gobsp.Uint32.UnmarshalBinaryFrom`; gives the
value and what is left of the payload. -/
def unmarshalUint32 (r : Bytes) : Except Err (Nat × Bytes) :=
  match readN 4 r with
  | .error e => .error e
  | .ok (b, rest) => .ok (beValue b % 2 ^ 32, rest)

/-- Modelled from the spec: `gobsp.Uint64.MarshalBinaryTo`, a fixed eight-byte
unsigned integer. -/
def marshalUint64 (n : Nat) : Bytes := beBytes 8 (n % 2 ^ 64)

/-- Modelled from the spec: `gobsp.Uint64.UnmarshalBinaryFrom`. -/
def unmarshalUint64 (r : Bytes) : Except Err (Nat × Bytes) :=
  match readN 8 r with
  | .error e => .error e
  | .ok (b, rest) => .ok (beValue b % 2 ^ 64, rest)

/-- An `int64` as the `uint64` with the same bits. -/
def int64Bits (i : Int) : Nat := (i % 2 ^ 64).toNat

/-- The `int64` with the bits of a `uint64`. -/
def int64OfBits (u : Nat) : Int :=
  if u % 2 ^ 64 < 2 ^ 63 then ((u % 2 ^ 64 : Nat) : Int) else ((u % 2 ^ 64 : Nat) : Int) - 2 ^ 64

/-- Modelled from the spec: `gobsp.Int64.MarshalBinaryTo`, a fixed eight-byte
signed integer. -/
def marshalInt64 (i : Int) : Bytes := beBytes 8 (int64Bits i)

/-- Modelled from the spec: `gobsp.Int64.UnmarshalBinaryFrom`. -/
def unmarshalInt64 (r : Bytes) : Except Err (Int × Bytes) :=
  match readN 8 r with
  | .error e => .error e
  | .ok (b, rest) => .ok (int64OfBits (beValue b), rest)

/-- Seven-bit groups of `n`, low group first; every group but the last has
its high bit set. `k` bounds the number of groups after the first. -/
def uvwiBytes : Nat → Nat → Bytes
  | 0, n => [n % 128]
  | k + 1, n => if n < 128 then [n] else (n % 128 + 128) :: uvwiBytes k (n / 128)

/-- Reads seven-bit groups up to the first byte below 128. -/
def uvwiValue : Bytes → Except Err (Nat × Bytes)
  | [] => .error .errUnexpectedEOF
  | b :: rest =>
    if b < 128 then .ok (b, rest)
    else
      match uvwiValue rest with
      | .error e => .error e
      | .ok (v, rest2) => .ok (b - 128 + 128 * v, rest2)

/-- Modelled from the spec: `gobsp.UVWI.MarshalBinaryTo`, the variable-width
encoding of a `uint64`. -/
def marshalUVWI (n : Nat) : Bytes := uvwiBytes 9 (n % 2 ^ 64)

/-- Modelled from the spec: `gobsp.UVWI.UnmarshalBinaryFrom`; the value is a
`uint64`. -/
def unmarshalUVWI (r : Bytes) : Except Err (Nat × Bytes) :=
  match uvwiValue r with
  | .error e => .error e
  | .ok (v, rest) => .ok (v % 2 ^ 64, rest)

/-- Modelled from the spec: `gobsp.String.MarshalBinaryTo`, the length and
then the bytes. -/
def marshalString (s : Bytes) : Bytes := marshalUVWI s.length ++ s

/-- Modelled from the spec: `gobsp.String.UnmarshalBinaryFrom`. -/
def unmarshalString (r : Bytes) : Except Err (Bytes × Bytes) :=
  match unmarshalUVWI r with
  | .error e => .error e
  | .ok (n, rest) => readN n rest

/-- The `Sum64` of the content hash: a `uint64`. -/
def sum64 (hash : Bytes → Nat) (content : Bytes) : Nat := hash content % 2 ^ 64

/-- A stand-in content hash for concrete examples. -/
def sampleHash (bs : Bytes) : Nat := bs.foldl (fun a b => (a * 31 + b + 7) % 2 ^ 64) 5381

/-! ## Frames and the composer -/

/-- One message on the wire: its type tag and its payload. -/
structure Frame where
  messageType : Nat
  payload : Bytes
deriving DecidableEq, Repr

/-- Modelled from the spec: the `gobsp.Composer`, as the frames written so
far, oldest first, and the fate of the coming `Compose` calls (`true`: that
call fails and writes no frame; when the list is used up every call succeeds). -/
structure Composer where
  frames : List Frame
  faults : List Bool
deriving DecidableEq, Repr

/-- Modelled from the spec: one `composer.Compose(messageType, payload)` call. -/
def Composer.compose (c : Composer) (messageType : Nat) (payload : Bytes) :
    Composer × Option Err :=
  match c.faults with
  | [] => ({ frames := c.frames ++ [⟨messageType, payload⟩], faults := [] }, none)
  | false :: rest => ({ frames := c.frames ++ [⟨messageType, payload⟩], faults := rest }, none)
  | true :: rest => ({ frames := c.frames, faults := rest }, some .composeFailed)

/-! ## The encoder -/

/-- What `os.Stat`, `os.Lstat` or `fh.Stat` report of an entry: the size (an
`int64`, not negative), the mode (a `uint32`) and the modification time in
seconds. -/
structure FileInfo where
  size : Nat
  mode : Nat
  modTime : Int
deriving DecidableEq, Repr

/-- The answers of the file system while one regular file is encoded:
`os.Open`, `fh.Stat`, and `fileScratch.ReadFrom(fh)` with `fh.Close`. -/
structure FileScript where
  openErr : Option Err
  stat : Except Err FileInfo
  read : Except Err Bytes

/-- A directory entry as `godirwalk` classifies it, with the answers of the
system calls that the encoder makes on it. A directory carries the result of
`os.Stat`, the failure of `godirwalk.ReadDirents` if any, and its listing. -/
inductive Dirent where
  | regular (name : Bytes) (script : FileScript)
  | directory (name : Bytes) (stat : Except Err FileInfo) (listErr : Option Err)
      (children : List Dirent)
  | symlink (name : Bytes) (lstat : Except Err FileInfo) (readlink : Except Err Bytes)
  | fifo (name : Bytes) (stat : Except Err FileInfo)
  | socket (name : Bytes) (stat : Except Err FileInfo)
  | device (name : Bytes)
  | irregular (name : Bytes)

/-- The `de.Name()` of an entry. -/
def Dirent.name : Dirent → Bytes
  | .regular n _ => n
  | .directory n _ _ _ => n
  | .symlink n _ _ => n
  | .fifo n _ => n
  | .socket n _ => n
  | .device n => n
  | .irregular n => n

/-- Payload of a directory-descend message: name, then mode. -/
def descendPayload (name : Bytes) (fi : FileInfo) : Bytes :=
  marshalString name ++ marshalUint32 fi.mode

/-- Payload of a directory-ascend message: the modification time. -/
def ascendPayload (fi : FileInfo) : Bytes := marshalInt64 fi.modTime

/-- The source's `encodeDirectoryAscend`. -/
def encodeDirectoryAscend (composer : Composer) (fi : FileInfo) : Composer × Option Err :=
  composer.compose v1DirectoryAscend (ascendPayload fi)

/-- The source's `encodeDirectoryDescend`; `fi.Name()` is the base name of the
path that was stat-ed, the entry's name. -/
def encodeDirectoryDescend (composer : Composer) (name : Bytes) (fi : FileInfo) :
    Composer × Option Err :=
  composer.compose v1DirectoryDescend (descendPayload name fi)

/-- Payload of a regular-file message. -/
def filePayload (name : Bytes) (modTime : Int) (mode hashValue size : Nat) (content : Bytes) :
    Bytes :=
  marshalString name ++ marshalInt64 modTime ++ marshalUint32 mode ++ marshalUint64 hashValue
    ++ marshalUVWI size ++ content

/-- The source's `encodeFile`. -/
def encodeFile (hash : Bytes → Nat) (composer : Composer) (targetBase : Bytes)
    (script : FileScript) : Composer × Option Err :=
  match script.openErr with
  | some e => (composer, some e)
  | none =>
    match script.stat with
    | .error e => (composer, some e)
    | .ok fi =>
      match script.read with
      | .error e => (composer, some e)
      | .ok content =>
        if content.length < fi.size then (composer, some .errUnexpectedEOF)
        else
          composer.compose v1RegularFile
            (filePayload targetBase fi.modTime fi.mode (sum64 hash content) fi.size content)

/-- The source's `encodeSymlink`. -/
def encodeSymlink (composer : Composer) (targetBase : Bytes) (lstat : Except Err FileInfo)
    (readlink : Except Err Bytes) : Composer × Option Err :=
  match lstat with
  | .error e => (composer, some e)
  | .ok li =>
    match readlink with
    | .error e => (composer, some e)
    | .ok linkname =>
      composer.compose v1Symlink
        (marshalString targetBase ++ marshalString linkname ++ marshalInt64 li.modTime
          ++ marshalUint32 li.mode)

/-- The source's `encodeFIFO`. -/
def encodeFIFO (composer : Composer) (targetBase : Bytes) (stat : Except Err FileInfo) :
    Composer × Option Err :=
  match stat with
  | .error e => (composer, some e)
  | .ok fi =>
    composer.compose v1FIFO
      (marshalString targetBase ++ marshalInt64 fi.modTime ++ marshalUint32 fi.mode)

/-- The source's `encodeSocket`. -/
def encodeSocket (composer : Composer) (targetBase : Bytes) (stat : Except Err FileInfo) :
    Composer × Option Err :=
  match stat with
  | .error e => (composer, some e)
  | .ok fi =>
    composer.compose v1Socket
      (marshalString targetBase ++ marshalInt64 fi.modTime ++ marshalUint32 fi.mode)

/-- Byte-wise lexicographic `<` of Go strings. -/
def bytesLt : Bytes → Bytes → Bool
  | _, [] => false
  | [], _ :: _ => true
  | a :: as, b :: bs => if a < b then true else if b < a then false else bytesLt as bs

/-- Inserts `x` into a list sorted by `key`, before the first element that is
not below it. -/
def insertBy {α : Type} (key : α → Bytes) (x : α) : List α → List α
  | [] => [x]
  | y :: ys => if bytesLt (key y) (key x) then y :: insertBy key x ys else x :: y :: ys

/-- The list sorted by `key`: the result of `sort.Sort` on a listing (the
names of a listing are distinct, so the order of equal names does not arise). -/
def sortBy {α : Type} (key : α → Bytes) : List α → List α
  | [] => []
  | x :: xs => insertBy key x (sortBy key xs)

/-- The order in which `encodeDirectory` visits a listing: sorted by name when
`*optDebug` is set, as listed otherwise. -/
def visitOrder {α : Type} (debug : Bool) (key : α → Bytes) (l : List α) : List α :=
  if debug then sortBy key l else l

/-- The encoding of one child, waiting for the composer. -/
abbrev Visitor := Composer → Composer × Outcome

/-- The `for _, deChild := range deChildren` loop of `encodeDirectory`: an
error of a child is a warning and the loop goes on; only the end of the
process inside a child stops it. -/
def encodeChildren : List (Bytes × Visitor) → Composer → Composer × Option Err
  | [], c => (c, none)
  | (_, visit) :: rest, c =>
    match visit c with
    | (c1, .fatal e) => (c1, some e)
    | (c1, _) => encodeChildren rest c1

/-- The source's `encodeDirectory`, given the answers of `os.Stat` and
`godirwalk.ReadDirents` and the encoding of each listed child. -/
def encodeDirectory (debug : Bool) (composer : Composer) (targetBase : Bytes)
    (stat : Except Err FileInfo) (listErr : Option Err) (deChildren : List (Bytes × Visitor)) :
    Composer × Outcome :=
  match stat with
  | .error e => (composer, .failed e)
  | .ok fi =>
    match listErr with
    | some e => (composer, .failed e)
    | none =>
      match encodeDirectoryDescend composer targetBase fi with
      | (c1, some e) => (c1, .failed e)
      | (c1, none) =>
        match encodeChildren (visitOrder debug Prod.fst deChildren) c1 with
        | (c2, some e) => (c2, .fatal e)
        | (c2, none) =>
          match encodeDirectoryAscend c2 fi with
          | (c3, some e) => (c3, .fatal e)
          | (c3, none) => (c3, .ok)

mutual
/-- The source's `encodeDirent`: dispatch on the type of the entry. -/
def encodeDirent (hash : Bytes → Nat) (debug : Bool) : Dirent → Composer → Composer × Outcome
  | .regular name script, c =>
    let r := encodeFile hash c name script
    (r.1, Outcome.ofError r.2)
  | .directory name stat listErr children, c =>
    encodeDirectory debug c name stat listErr (visitors hash debug children)
  | .symlink name lstat readlink, c =>
    let r := encodeSymlink c name lstat readlink
    (r.1, Outcome.ofError r.2)
  | .fifo name stat, c =>
    let r := encodeFIFO c name stat
    (r.1, Outcome.ofError r.2)
  | .socket name stat, c =>
    let r := encodeSocket c name stat
    (r.1, Outcome.ofError r.2)
  | .device _, c => (c, .failed .modeTypeNotSupported)
  | .irregular _, c => (c, .failed .modeTypeNotSupported)
/-- The children of a listing, each with its name and its encoding. -/
def visitors (hash : Bytes → Nat) (debug : Bool) : List Dirent → List (Bytes × Visitor)
  | [] => []
  | d :: ds => (d.name, encodeDirent hash debug d) :: visitors hash debug ds
end

/-- The answers to `filepath.Abs` and `godirwalk.NewDirent` on a target. -/
structure TargetScript where
  absErr : Option Err
  dirent : Except Err Dirent

/-- The source's `encodeTarget`. -/
def encodeTarget (hash : Bytes → Nat) (debug : Bool) (composer : Composer)
    (target : TargetScript) : Composer × Outcome :=
  match target.absErr with
  | some e => (composer, .failed e)
  | none =>
    match target.dirent with
    | .error e => (composer, .failed e)
    | .ok de => encodeDirent hash debug de composer

/-- Number of directory-descend frames. -/
def descendCount (l : List Frame) : Nat := l.countP (fun f => f.messageType = v1DirectoryDescend)

/-- Number of directory-ascend frames. -/
def ascendCount (l : List Frame) : Nat := l.countP (fun f => f.messageType = v1DirectoryAscend)

/-- The frames that the listed children emit one after the other, each run on
its own from an empty composer with the emission faults left at its turn. -/
def childrenFrames (hash : Bytes → Nat) (debug : Bool) : List Dirent → List Bool → List Frame
  | [], _ => []
  | d :: ds, faults =>
    (encodeDirent hash debug d ⟨[], faults⟩).1.frames
      ++ childrenFrames hash debug ds (encodeDirent hash debug d ⟨[], faults⟩).1.faults

/-- A readable file of the source tree. -/
def plainFile (name content : Bytes) (mode : Nat) (modTime : Int) : Dirent :=
  .regular name ⟨none, .ok ⟨content.length, mode, modTime⟩, .ok content⟩

/-- A file that cannot be opened. -/
def brokenFile (name : Bytes) : Dirent :=
  .regular name ⟨some (.sys .eacces), .error (.sys .eacces), .error (.sys .eacces)⟩

/-- The tree of the nested-directories scenario: directory `a` holding `b.txt`. -/
def sampleTree : Dirent :=
  .directory (ascii "a") (.ok ⟨4096, 2147484141, 1700000000⟩) none
    [plainFile (ascii "b.txt") (ascii "hello") 420 1600000000]

/-- In no initial segment do the ascends outnumber the descends. -/
def PrefixOK (l : List Frame) : Prop :=
  ∀ k, ascendCount (l.take k) ≤ descendCount (l.take k)

/-- What a visitor emits does not depend on the frames already written. -/
def Local (v : Visitor) : Prop :=
  ∀ c, v c = (⟨c.frames ++ (v ⟨[], c.faults⟩).1.frames, (v ⟨[], c.faults⟩).1.faults⟩,
    (v ⟨[], c.faults⟩).2)

/-- A visitor appends frames that nest, and that balance unless the process ended. -/
def WellNested (v : Visitor) : Prop :=
  ∀ c, ∃ new, (v c).1.frames = c.frames ++ new ∧ PrefixOK new ∧
    ((v c).2.isFatal = false → descendCount new = ascendCount new)

/-- Without emission faults a visitor leaves none and does not end the process. -/
def Faultless (v : Visitor) : Prop :=
  ∀ c, c.faults = [] → (v c).1.faults = [] ∧ (v c).2.isFatal = false

/-- A step that emits at most one frame, neither a descend nor an ascend. -/
def LeafStep (f : Composer → Composer × Option Err) : Prop :=
  (∃ e, ∀ c, f c = (c, some e)) ∨
  (∃ t p, t ≠ v1DirectoryDescend ∧ t ≠ v1DirectoryAscend ∧ ∀ c, f c = c.compose t p)

/-- The three properties of a visitor that the encoder theorems rest on. -/
def Sound (v : Visitor) : Prop := Local v ∧ WellNested v ∧ Faultless v

/-! ## Concrete inputs of the encoder -/

/-- A target that resolves to the sample tree. -/
def sampleTarget : TargetScript := ⟨none, .ok sampleTree⟩

/-- File attributes of a directory with mode `drwxr-xr-x`. -/
def sampleDirInfo : FileInfo := ⟨4096, 2147484141, 1700000000⟩

/-- A listing that is not in name order: `b.txt` before `a.txt`. -/
def unsortedListing : List Dirent :=
  [plainFile (ascii "b.txt") (ascii "hello") 420 1600000000,
   plainFile (ascii "a.txt") (ascii "world") 420 1600000001]

/-- A listing with a child that cannot be opened between two that can, not in
name order. -/
def faultyListing : List Dirent :=
  [plainFile (ascii "z.txt") (ascii "last") 420 1600000000,
   brokenFile (ascii "m.txt"),
   plainFile (ascii "c.txt") (ascii "first") 384 1600000002]

/-- The frames an entry emits when it is encoded on its own, every emission
succeeding. -/
def ownFrames (hash : Bytes → Nat) (debug : Bool) (d : Dirent) : List Frame :=
  (encodeDirent hash debug d ⟨[], []⟩).1.frames

/-- A composer that has written nothing, whose second emission will fail. -/
def sampleComposer : Composer := ⟨[], [false, true, false]⟩

/-! ## The file system of the decoder

A tree of entries with a working directory, as one process sees it.

* The permission bits of the owner decide what the process may do with an
  entry, as for a process that owns what it meets; the superuser is refused
  by no permission bit.
* A call may also be refused for a cause that the permission bits of the
  owner do not show (an entry of another owner, no space left, an I/O error,
  a read-only file system): `FS.refuses` holds the answer of the system to
  each call on each entry.
* A path name with a NUL byte is refused (EINVAL), and so is a path name of
  `pathMax` bytes or more, or a component longer than `nameMax`
  (ENAMETOOLONG).
* A symbolic link that stands inside a path, or before a last slash, is not
  followed (the walk fails there); empty path components are skipped; a path
  name that ends in a slash names a directory only.
* The buffer of `decodeFile` holds the payload it was given and can grow by
  `growLimit` bytes at least.
* A directory gets the time of the clock when an entry is made or removed in
  it, a file when it is written; the clock does not move during a call; times
  are kept in whole seconds, within the range that the file system stores. -/

/-- An entry of the file system. -/
inductive Node where
  | file (content : Bytes) (perm : Nat) (mtime : Int)
  | dir (perm : Nat) (mtime : Int) (entries : List (Bytes × Node))
  | symlink (referent : Bytes)
  | fifo (perm : Nat) (mtime : Int)
  | socket (perm : Nat) (mtime : Int)

/-- The entry is a directory (`fi.IsDir()`). -/
def Node.isDir : Node → Bool
  | .dir _ _ _ => true
  | _ => false

/-- The entry is a regular file (`fi.Mode().IsRegular()`). -/
def Node.isRegular : Node → Bool
  | .file _ _ _ => true
  | _ => false

/-- The entry is a named pipe (`fi.Mode()&os.ModeNamedPipe != 0`). -/
def Node.isFIFO : Node → Bool
  | .fifo _ _ => true
  | _ => false

/-- The entry is a socket (`fi.Mode()&os.ModeSocket != 0`). -/
def Node.isSocket : Node → Bool
  | .socket _ _ => true
  | _ => false

/-- The entry is a symbolic link (`fi.Mode()&os.ModeSymlink != 0`). -/
def Node.isSymlink : Node → Bool
  | .symlink _ => true
  | _ => false

/-- The entry of a directory listing with the given name. -/
def lookupEntry (n : Bytes) : List (Bytes × Node) → Option Node
  | [] => none
  | (k, x) :: rest => if k = n then some x else lookupEntry n rest

/-- The listing without the entries of the given name. -/
def dropEntry (n : Bytes) : List (Bytes × Node) → List (Bytes × Node)
  | [] => []
  | (k, x) :: rest => if k = n then dropEntry n rest else (k, x) :: dropEntry n rest

/-- Replaces what the listing holds under a name (nothing, or an entry) by
what `f` makes of it. -/
def alterEntry (f : Option Node → Option Node) (n : Bytes) :
    List (Bytes × Node) → List (Bytes × Node)
  | [] =>
    match f none with
    | some v => [(n, v)]
    | none => []
  | (k, x) :: rest =>
    if k = n then
      match f (some x) with
      | some v => (n, v) :: dropEntry n rest
      | none => dropEntry n rest
    else (k, x) :: alterEntry f n rest

/-- What stands at a path below an entry. -/
def getAt : List Bytes → Option Node → Option Node
  | [], o => o
  | n :: rest, some (.dir _ _ es) => getAt rest (lookupEntry n es)
  | _ :: _, _ => none

/-- Replaces what stands at a path by what `f` makes of it; nothing changes
when the directories leading there do not exist. With `touch` the directory
that holds the last name gets that modification time. -/
def alterAt (touch : Option Int) (f : Option Node → Option Node) :
    List Bytes → Option Node → Option Node
  | [], o => f o
  | n :: rest, some (.dir p t es) =>
    some (.dir p (if rest = [] then touch.getD t else t) (alterEntry (alterAt touch f rest) n es))
  | _ :: _, o => o

/-- The calls of the system that the decoder makes. -/
inductive Syscall where
  | lstat
  | chdir
  | getwd
  | mkdir
  | remove
  | removeAll
  | openFile
  | write
  | truncate
  | fchmod
  | close
  | chtimes
  | symlink
  | mkfifo
deriving DecidableEq, Repr

/-- The state of the file system: the root directory, the working directory
of the process as the names that lead to it from the root, the clock, the
umask of the process, whether the process is the superuser, the number of
bytes that the buffer of `decodeFile` can grow by, the earliest and the latest
time that the file system stores, and the calls that the system refuses for a
cause outside the tree, each with its error. -/
structure FS where
  root : Node
  cwd : List Bytes
  now : Int
  umask : Nat
  superuser : Bool := false
  growLimit : Nat := 2 ^ 40
  timeMin : Int := -9223372036854775808
  timeMax : Int := 9223372036854775807
  refuses : Syscall → List Bytes → Option Errno := fun _ _ => none

/-- The longest name of an entry (`NAME_MAX`). -/
def nameMax : Nat := 255

/-- The length that no path name reaches (`PATH_MAX`). -/
def pathMax : Nat := 4096

/-- The permission bits let the owner read. -/
def ownerRead (perm : Nat) : Bool := decide (perm / 256 % 2 = 1)

/-- The permission bits let the owner write. -/
def ownerWrite (perm : Nat) : Bool := decide (perm / 128 % 2 = 1)

/-- The permission bits let the owner search a directory or run a file. -/
def ownerSearch (perm : Nat) : Bool := decide (perm / 64 % 2 = 1)

/-- The process may read an entry with these permission bits. -/
def FS.mayRead (fs : FS) (perm : Nat) : Bool := fs.superuser || ownerRead perm

/-- The process may write an entry with these permission bits. -/
def FS.mayWrite (fs : FS) (perm : Nat) : Bool := fs.superuser || ownerWrite perm

/-- The process may search a directory with these permission bits. -/
def FS.maySearch (fs : FS) (perm : Nat) : Bool := fs.superuser || ownerSearch perm

/-- What stands at an absolute path. -/
def FS.get (fs : FS) (p : List Bytes) : Option Node := getAt p (some fs.root)

/-- The file system with the entry at an absolute path replaced. -/
def FS.alter (fs : FS) (touch : Option Int) (f : Option Node → Option Node) (p : List Bytes) :
    FS :=
  match alterAt touch f p (some fs.root) with
  | some r => { fs with root := r }
  | none => fs

/-- The process may make and remove entries in the directory at an absolute
path. -/
def FS.mayWriteDir (fs : FS) (q : List Bytes) : Bool :=
  match fs.get q with
  | some (.dir perm _ _) => fs.mayWrite perm
  | _ => false

/-- The components of a path: the byte strings between slashes. -/
def splitSlash : Bytes → List Bytes
  | [] => [[]]
  | b :: rest =>
    if b = 47 then [] :: splitSlash rest
    else
      match splitSlash rest with
      | [] => [[b]]
      | c :: cs => (b :: c) :: cs

/-- The path name ends in a slash. -/
def endsInSlash (path : Bytes) : Bool := decide (path.getLast? = some 47)

/-- Follows the components of a path from a directory, which the process must
be allowed to search: `.` stays, `..` moves to the parent, a name moves into
that entry, which must be a directory unless the name is the last component.
Gives the absolute path the walk ends at. -/
def walk (su : Bool) (root : Node) : List Bytes → List Bytes → Except Errno (List Bytes)
  | cur, [] => .ok cur
  | cur, comp :: rest =>
    match getAt cur (some root) with
    | some (.dir perm _ _) =>
      if (su || ownerSearch perm) = false then .error .eacces
      else if nameMax < comp.length then .error .enametoolong
      else if comp = [46] then walk su root cur rest
      else if comp = [46, 46] then walk su root cur.dropLast rest
      else walk su root (cur ++ [comp]) rest
    | some (.symlink _) => .error .eloop
    | some _ => .error .enotdir
    | none => .error .enoent

/-- The absolute path that a path name of the process denotes: relative names
start at the working directory, names with a leading slash at the root. -/
def FS.resolve (fs : FS) (path : Bytes) : Except Errno (List Bytes) :=
  if path = [] then .error .enoent
  else if 0 ∈ path then .error .einval
  else if pathMax ≤ path.length then .error .enametoolong
  else
    walk fs.superuser fs.root (if path.head? = some 47 then [] else fs.cwd)
      ((splitSlash path).filter (fun comp => comp ≠ []))

/-- The way from the root to an absolute path given by its names: every
directory on the way must exist and let the process search it. Gives the
error, if any. -/
def reach (su : Bool) (root : Node) : List Bytes → List Bytes → Option Errno
  | _, [] => none
  | cur, n :: rest =>
    match getAt cur (some root) with
    | some (.dir perm _ _) =>
      if (su || ownerSearch perm) = false then some .eacces
      else reach su root (cur ++ [n]) rest
    | some (.symlink _) => some .eloop
    | some _ => some .enotdir
    | none => some .enoent

/-- The last component of a path name. -/
def lastComponent (path : Bytes) : Bytes :=
  (((splitSlash path).filter (fun comp => comp ≠ [])).getLast?).getD []

/-- The permission bits a new entry gets under the umask of the process. -/
def applyUmask (umask perm : Nat) : Nat := (perm % 512) &&& (511 ^^^ (umask % 512))

/-- Go's `os.Lstat`. -/
def FS.lstat (fs : FS) (path : Bytes) : Except Errno Node :=
  match fs.resolve path with
  | .error e => .error e
  | .ok p =>
    match fs.refuses .lstat p with
    | some e => .error e
    | none =>
      match fs.get p with
      | none => .error .enoent
      | some node =>
        if endsInSlash path then
          match node with
          | .dir _ _ _ => .ok node
          | .symlink _ => .error .eloop
          | _ => .error .enotdir
        else .ok node

/-- The `chdir` of the system once the path is resolved: the entry must be a
directory that the process may search. -/
def FS.enter (fs : FS) (p : List Bytes) : Except Errno FS :=
  match fs.refuses .chdir p with
  | some e => .error e
  | none =>
    match fs.get p with
    | some (.dir perm _ _) =>
      if fs.maySearch perm then .ok { fs with cwd := p } else .error .eacces
    | some (.symlink _) => .error .eloop
    | some _ => .error .enotdir
    | none => .error .enoent

/-- Go's `os.Chdir` on an absolute path given by its components. -/
def FS.chdirAbs (fs : FS) (p : List Bytes) : Except Errno FS :=
  match reach fs.superuser fs.root [] p with
  | some e => .error e
  | none => fs.enter p

/-- Go's `os.Chdir` on a path name. -/
def FS.chdir (fs : FS) (path : Bytes) : Except Errno FS :=
  match fs.resolve path with
  | .error e => .error e
  | .ok p => fs.enter p

/-- Go's `os.Getwd`: the working directory, when it still exists. -/
def FS.getwd (fs : FS) : Except Errno (List Bytes) :=
  match fs.refuses .getwd fs.cwd with
  | some e => .error e
  | none =>
    match fs.get fs.cwd with
    | some (.dir _ _ _) => .ok fs.cwd
    | _ => .error .enoent

/-- Go's `os.Mkdir`: the new directory gets the permission bits of
`mode` under the umask; the directory that is to hold it must be writable. -/
def FS.mkdir (fs : FS) (path : Bytes) (mode : Nat) : Except Errno FS :=
  match fs.resolve path with
  | .error e => .error e
  | .ok p =>
    match fs.refuses .mkdir p with
    | some e => .error e
    | none =>
      match fs.get p with
      | some _ => .error .eexist
      | none =>
        if fs.mayWriteDir p.dropLast then
          .ok (fs.alter (some fs.now)
            (fun _ => some (.dir (applyUmask fs.umask mode) fs.now [])) p)
        else .error .eacces

/-- Go's `os.Remove`: unlinks a file, removes an empty directory; the
directory that holds the entry must be writable. -/
def FS.remove (fs : FS) (path : Bytes) : Except Errno FS :=
  if lastComponent path = [46] then .error .einval
  else if lastComponent path = [46, 46] then .error .enotempty
  else
    match fs.resolve path with
    | .error e => .error e
    | .ok p =>
      match fs.refuses .remove p with
      | some e => .error e
      | none =>
        match fs.get p with
        | none => .error .enoent
        | some node =>
          if p = [] then .error .ebusy
          else if fs.mayWriteDir p.dropLast = false then .error .eacces
          else
            match node with
            | .dir _ _ (_ :: _) => .error .enotempty
            | .dir _ _ [] => .ok (fs.alter (some fs.now) (fun _ => none) p)
            | _ =>
              if endsInSlash path then .error .enotdir
              else .ok (fs.alter (some fs.now) (fun _ => none) p)

mutual
/-- What `os.RemoveAll` leaves of an entry that it may unlink from the
directory that holds it: nothing of a file or an empty directory; of a
directory with entries nothing when it may list, search and write it and
nothing is left of any entry, otherwise the directory with what is left. -/
def removeTree (su : Bool) (now : Int) : Node → Option Node
  | .dir perm t es =>
    match es with
    | [] => none
    | _ :: _ =>
      if su || (ownerRead perm && ownerWrite perm && ownerSearch perm) then
        match removeEntries su now es with
        | [] => none
        | left => some (.dir perm now left)
      else some (.dir perm t es)
  | _ => none
/-- What `os.RemoveAll` leaves of the entries of a directory. -/
def removeEntries (su : Bool) (now : Int) : List (Bytes × Node) → List (Bytes × Node)
  | [] => []
  | (k, x) :: rest =>
    match removeTree su now x with
    | none => removeEntries su now rest
    | some y => (k, y) :: removeEntries su now rest
end

/-- What `os.RemoveAll` leaves of an entry that it may not unlink: a
directory is emptied as far as the process is allowed to. -/
def emptyTree (su : Bool) (now : Int) : Node → Node
  | .dir perm t es =>
    match es with
    | [] => .dir perm t []
    | _ :: _ =>
      if su || (ownerRead perm && ownerWrite perm && ownerSearch perm) then
        .dir perm now (removeEntries su now es)
      else .dir perm t es
  | other => other

/-- Go's `os.RemoveAll`: removes the entry and all it holds, as far as
the permission bits allow; a missing entry is no error. A path that ends in
`.` is refused; the root and a path that ends in `..` are emptied and cannot
be removed, and neither can an entry of a directory that is not writable.
Gives the error, if any, and the file system the call leaves. -/
def FS.removeAll (fs : FS) (path : Bytes) : Option Errno × FS :=
  if path = [] then (none, fs)
  else if lastComponent path = [46] then (some .einval, fs)
  else
    match fs.resolve path with
    | .error .enoent => (none, fs)
    | .error e => (some e, fs)
    | .ok p =>
      match fs.refuses .removeAll p with
      | some e => (some e, fs)
      | none =>
        match fs.get p with
        | none => (none, fs)
        | some node =>
          if p = [] ∨ lastComponent path = [46, 46] then
            (some .enotempty,
              fs.alter none (fun _ => some (emptyTree fs.superuser fs.now node)) p)
          else if fs.mayWriteDir p.dropLast = false then
            (some .eacces,
              fs.alter none (fun _ => some (emptyTree fs.superuser fs.now node)) p)
          else
            match removeTree fs.superuser fs.now node with
            | none => (none, fs.alter (some fs.now) (fun _ => none) p)
            | some left => (some .eacces, fs.alter none (fun _ => some left) p)

/-- Go's `os.OpenFile(name, os.O_RDWR|os.O_CREATE, os.ModePerm)`: the
absolute path of the opened regular file, which the process must be allowed
to read and write; a missing file is created empty in a directory that must
be writable. -/
def FS.openFile (fs : FS) (path : Bytes) : Except Errno (List Bytes × FS) :=
  match fs.resolve path with
  | .error e => .error e
  | .ok p =>
    match fs.refuses .openFile p with
    | some e => .error e
    | none =>
      if endsInSlash path then .error .eisdir
      else
        match fs.get p with
        | none =>
          if fs.mayWriteDir p.dropLast then
            .ok (p, fs.alter (some fs.now)
              (fun _ => some (.file [] (applyUmask fs.umask 511) fs.now)) p)
          else .error .eacces
        | some (.file _ perm _) =>
          if fs.mayRead perm && fs.mayWrite perm then .ok (p, fs) else .error .eacces
        | some (.dir _ _ _) => .error .eisdir
        | some (.symlink _) => .error .eloop
        | some _ => .error .enxio

/-- Writing `data` at offset 0 of an open file (`fileScratch.WriteTo(fh)`):
the bytes written, and the file system. -/
def FS.write (fs : FS) (fh : List Bytes) (data : Bytes) : Except Errno (Nat × FS) :=
  match fs.refuses .write fh with
  | some e => .error e
  | none =>
    .ok (data.length,
      fs.alter none (fun o =>
        match o with
        | some (.file old perm _) => some (.file (data ++ old.drop data.length) perm fs.now)
        | other => other) fh)

/-- Go's `fh.Truncate`: cuts the file to the length, or pads it with
zero bytes. -/
def FS.truncate (fs : FS) (fh : List Bytes) (len : Nat) : Except Errno FS :=
  match fs.refuses .truncate fh with
  | some e => .error e
  | none =>
    .ok (fs.alter none (fun o =>
      match o with
      | some (.file old perm _) =>
        some (.file (old.take len ++ List.replicate (len - old.length) 0) perm fs.now)
      | other => other) fh)

/-- Go's `fh.Chmod`. -/
def FS.fchmod (fs : FS) (fh : List Bytes) (perm : Nat) : Except Errno FS :=
  match fs.refuses .fchmod fh with
  | some e => .error e
  | none =>
    .ok (fs.alter none (fun o =>
      match o with
      | some (.file content _ t) => some (.file content (perm % 512) t)
      | other => other) fh)

/-- Go's `fh.Close`: the error, if any. -/
def FS.close (fs : FS) (fh : List Bytes) : Option Errno := fs.refuses .close fh

/-- The entry with its modification time set. -/
def Node.setMtime (t : Int) : Node → Node
  | .file c p _ => .file c p t
  | .dir p _ es => .dir p t es
  | .symlink r => .symlink r
  | .fifo p _ => .fifo p t
  | .socket p _ => .socket p t

/-- The whole seconds of the time that `os.Chtimes` hands to the system for
`time.Unix(t, 0)`: the time goes through `UnixNano`, whose int64 wraps around,
and `syscall.NsecToTimespec`, which rounds down to seconds. For the zero
`time.Time` (the year 1) the time of the file is left as it is: no seconds. -/
def chtimesSeconds (t : Int) : Option Int :=
  if t = -62135596800 then none
  else some (int64OfBits (int64Bits (t * 1000000000)) / 1000000000)

/-- The time that the file system stores for a time handed to it: one outside
its range becomes the nearest bound. -/
def FS.storedTime (fs : FS) (s : Int) : Int := max fs.timeMin (min fs.timeMax s)

/-- The modification time that `os.Chtimes` leaves for `time.Unix(t, 0)`, if
it sets one. -/
def FS.chtimesStored (fs : FS) (t : Int) : Option Int := (chtimesSeconds t).map fs.storedTime

/-- The entry with the modification time set, if there is one to set. -/
def Node.setTimes (o : Option Int) (node : Node) : Node :=
  match o with
  | some s => node.setMtime s
  | none => node

/-- The `utimensat` of the system once the path is resolved. -/
def FS.setTimes (fs : FS) (p : List Bytes) (t : Int) : Except Errno FS :=
  match fs.refuses .chtimes p with
  | some e => .error e
  | none =>
    match fs.get p with
    | none => .error .enoent
    | some (.symlink _) => .error .eloop
    | some _ => .ok (fs.alter none (Option.map (Node.setTimes (fs.chtimesStored t))) p)

/-- Go's `os.Chtimes` on an absolute path given by its components. -/
def FS.chtimesAbs (fs : FS) (p : List Bytes) (t : Int) : Except Errno FS :=
  match reach fs.superuser fs.root [] p with
  | some e => .error e
  | none => fs.setTimes p t

/-- Go's `os.Chtimes` on a path name. -/
def FS.chtimes (fs : FS) (path : Bytes) (t : Int) : Except Errno FS :=
  match fs.resolve path with
  | .error e => .error e
  | .ok p =>
    match fs.get p with
    | some (.dir _ _ _) => fs.setTimes p t
    | _ => if endsInSlash path then .error .enotdir else fs.setTimes p t

/-- Go's `os.Symlink(referent, path)`. -/
def FS.symlink (fs : FS) (referent path : Bytes) : Except Errno FS :=
  match fs.resolve path with
  | .error e => .error e
  | .ok p =>
    match fs.refuses .symlink p with
    | some e => .error e
    | none =>
      match fs.get p with
      | some _ => .error .eexist
      | none =>
        if endsInSlash path then .error .enoent
        else if fs.mayWriteDir p.dropLast then
          .ok (fs.alter (some fs.now) (fun _ => some (.symlink referent)) p)
        else .error .eacces

/-- The system's `unix.Mkfifo`. -/
def FS.mkfifo (fs : FS) (path : Bytes) (mode : Nat) : Except Errno FS :=
  match fs.resolve path with
  | .error e => .error e
  | .ok p =>
    match fs.refuses .mkfifo p with
    | some e => .error e
    | none =>
      match fs.get p with
      | some _ => .error .eexist
      | none =>
        if endsInSlash path then .error .enoent
        else if fs.mayWriteDir p.dropLast then
          .ok (fs.alter (some fs.now) (fun _ => some (.fifo (applyUmask fs.umask mode) fs.now)) p)
        else .error .eacces

/-! ## The decoder -/

/-- The fields of a regular-file payload that precede the content. -/
structure FileHeader where
  targetBase : Bytes
  mtime : Int
  mode : Nat
  hashSource : Nat
  size : Nat
deriving DecidableEq, Repr

/-- The five `UnmarshalBinaryFrom` calls that open `decodeFile`: name,
modification time, mode, hash, size; what is left of the payload follows. -/
def unmarshalFileHeader (r : Bytes) : Except Err (FileHeader × Bytes) :=
  match unmarshalString r with
  | .error e => .error e
  | .ok (targetBase, r1) =>
    match unmarshalInt64 r1 with
    | .error e => .error e
    | .ok (mtime, r2) =>
      match unmarshalUint32 r2 with
      | .error e => .error e
      | .ok (mode, r3) =>
        match unmarshalUint64 r3 with
        | .error e => .error e
        | .ok (hashSource, r4) =>
          match unmarshalUVWI r4 with
          | .error e => .error e
          | .ok (size, r5) => .ok (⟨targetBase, mtime, mode, hashSource, size⟩, r5)

/-- The end of `decodeFile`, from `os.OpenFile` on: write the content, cut the
file at the number of bytes written, set the permission bits, close, set the
modification time; the error of each call is returned. -/
def decodeFileWrite (h : FileHeader) (content : Bytes) (fs : FS) : FS × Outcome :=
  match fs.openFile h.targetBase with
  | .error e => (fs, .failed (.sys e))
  | .ok (fh, fs1) =>
    match fs1.write fh content with
    | .error e => (fs1, .failed (.sys e))
    | .ok (c, fs2) =>
      if (c : Int) < int64OfBits h.size then (fs2, .failed .errShortWrite)
      else
        match fs2.truncate fh c with
        | .error e => (fs2, .failed (.sys e))
        | .ok fs3 =>
          match fs3.fchmod fh (h.mode % 512) with
          | .error e => (fs3, .failed (.sys e))
          | .ok fs4 =>
            match fs4.close fh with
            | some e => (fs4, .failed (.sys e))
            | none =>
              match fs4.chtimes h.targetBase h.mtime with
              | .error e => (fs4, .failed (.sys e))
              | .ok fs5 => (fs5, .ok)

/-- The middle of `decodeFile`, once the header is read: grow the buffer, read
the payload to its end through the hash, compare the count with the size and
the hashes, remove an entry of the wrong type, then write. A size that is
negative as an `int` makes `fileScratch.Grow` panic, and so does a size that
the buffer cannot grow by: one beyond both the payload it was given and
`growLimit`. -/
def decodeFileBody (hash : Bytes → Nat) (h : FileHeader) (r : Bytes) (fs : FS) : FS × Outcome :=
  if int64OfBits h.size < 0 then (fs, .fatal .growNegativeCount)
  else if fs.growLimit < h.size ∧ r.length < h.size then (fs, .fatal .errTooLarge)
  else if (r.length : Int) < int64OfBits h.size then (fs, .failed .errUnexpectedEOF)
  else if h.hashSource ≠ sum64 hash r then
    (fs, .failed (.hashMismatch h.hashSource (sum64 hash r)))
  else
    match fs.lstat h.targetBase with
    | .error e => if e = .enoent then decodeFileWrite h r fs else (fs, .failed (.sys e))
    | .ok fi =>
      if fi.isRegular then decodeFileWrite h r fs
      else
        match fs.removeAll h.targetBase with
        | (some e, fs1) => (fs1, .failed (.sys e))
        | (none, fs1) => decodeFileWrite h r fs1

/-- The source's `decodeFile`. -/
def decodeFile (hash : Bytes → Nat) (r : Bytes) (fs : FS) : FS × Outcome :=
  match unmarshalFileHeader r with
  | .error e => (fs, .failed e)
  | .ok (h, content) => decodeFileBody hash h content fs

/-- The source's `decodeDirectoryAscend`; `filepath.Dir(wd)` is the working
directory without its last name. -/
def decodeDirectoryAscend (r : Bytes) (fs : FS) : FS × Outcome :=
  match unmarshalInt64 r with
  | .error e => (fs, .failed e)
  | .ok (mtime, _) =>
    match fs.getwd with
    | .error e => (fs, .failed (.sys e))
    | .ok wd =>
      match fs.chtimesAbs wd mtime with
      | .error e => (fs, .failed (.sys e))
      | .ok fs1 =>
        match fs1.chdirAbs wd.dropLast with
        | .error e => (fs1, .failed (.sys e))
        | .ok fs2 => (fs2, .ok)

/-- The `os.Mkdir` and `os.Chdir` that end two branches of
`decodeDirectoryDescend`, each under `fatalWhenErr`. -/
def mkdirAndChdir (targetBase : Bytes) (mode : Nat) (fs : FS) : FS × Outcome :=
  match fs.mkdir targetBase mode with
  | .error e => (fs, .fatal (.sys e))
  | .ok fs1 =>
    match fs1.chdir targetBase with
    | .error e => (fs1, .fatal (.sys e))
    | .ok fs2 => (fs2, .ok)

/-- The source's `decodeDirectoryDescend`: every failure ends the process. -/
def decodeDirectoryDescend (r : Bytes) (fs : FS) : FS × Outcome :=
  match unmarshalString r with
  | .error e => (fs, .fatal e)
  | .ok (targetBase, r1) =>
    match unmarshalUint32 r1 with
    | .error e => (fs, .fatal e)
    | .ok (mode, _) =>
      match fs.lstat targetBase with
      | .error e =>
        if e = .enoent then mkdirAndChdir targetBase mode fs else (fs, .fatal (.sys e))
      | .ok fi =>
        if fi.isDir then
          match fs.chdir targetBase with
          | .error e => (fs, .fatal (.sys e))
          | .ok fs1 => (fs1, .ok)
        else
          match fs.remove targetBase with
          | .error e => (fs, .fatal (.sys e))
          | .ok fs1 => mkdirAndChdir targetBase mode fs1

/-- The platform's `makeFIFO` (`main_unix.go`). -/
def makeFIFO (targetBase : Bytes) (mode : Nat) (mtime : Int) (fs : FS) : FS × Outcome :=
  match fs.mkfifo targetBase mode with
  | .error e => (fs, .failed (.sys e))
  | .ok fs1 =>
    match fs1.chtimes targetBase mtime with
    | .error e => (fs1, .failed (.sys e))
    | .ok fs2 => (fs2, .ok)

/-- The platform's `makeSocket` (`main_unix.go`): it returns its error at once. -/
def makeSocket (_targetBase : Bytes) (_mode : Nat) (_mtime : Int) (fs : FS) : FS × Outcome :=
  (fs, .failed .notImplemented)

/-- The three `UnmarshalBinaryFrom` calls that open `decodeFIFO` and
`decodeSocket`: name, modification time, mode. -/
def unmarshalNameTimeMode (r : Bytes) : Except Err (Bytes × Int × Nat) :=
  match unmarshalString r with
  | .error e => .error e
  | .ok (targetBase, r1) =>
    match unmarshalInt64 r1 with
    | .error e => .error e
    | .ok (mtime, r2) =>
      match unmarshalUint32 r2 with
      | .error e => .error e
      | .ok (mode, _) => .ok (targetBase, mtime, mode)

/-- The source's `decodeFIFO`. -/
def decodeFIFO (r : Bytes) (fs : FS) : FS × Outcome :=
  match unmarshalNameTimeMode r with
  | .error e => (fs, .failed e)
  | .ok (targetBase, mtime, mode) =>
    match fs.lstat targetBase with
    | .error e =>
      if e = .enoent then makeFIFO targetBase mode mtime fs else (fs, .failed (.sys e))
    | .ok fi =>
      if fi.isFIFO then makeFIFO targetBase mode mtime fs
      else
        match fs.removeAll targetBase with
        | (some e, fs1) => (fs1, .failed (.sys e))
        | (none, fs1) => makeFIFO targetBase mode mtime fs1

/-- The source's `decodeSocket`. -/
def decodeSocket (r : Bytes) (fs : FS) : FS × Outcome :=
  match unmarshalNameTimeMode r with
  | .error e => (fs, .failed e)
  | .ok (targetBase, mtime, mode) =>
    match fs.lstat targetBase with
    | .error e =>
      if e = .enoent then makeSocket targetBase mode mtime fs else (fs, .failed (.sys e))
    | .ok fi =>
      if fi.isSocket then makeSocket targetBase mode mtime fs
      else
        match fs.removeAll targetBase with
        | (some e, fs1) => (fs1, .failed (.sys e))
        | (none, fs1) => makeSocket targetBase mode mtime fs1

/-- The source's `decodeSymlink`: the link is made, its times and mode are
not applied. -/
def decodeSymlink (r : Bytes) (fs : FS) : FS × Outcome :=
  match unmarshalString r with
  | .error e => (fs, .failed e)
  | .ok (targetBase, r1) =>
    match unmarshalString r1 with
    | .error e => (fs, .failed e)
    | .ok (linkname, r2) =>
      match unmarshalInt64 r2 with
      | .error e => (fs, .failed e)
      | .ok (_, r3) =>
        match unmarshalUint32 r3 with
        | .error e => (fs, .failed e)
        | .ok (_, _) =>
          match fs.lstat targetBase with
          | .error e =>
            if e = .enoent then
              match fs.symlink linkname targetBase with
              | .error e2 => (fs, .failed (.sys e2))
              | .ok fs1 => (fs1, .ok)
            else (fs, .failed (.sys e))
          | .ok fi =>
            if fi.isSymlink then
              match fs.symlink linkname targetBase with
              | .error e2 => (fs, .failed (.sys e2))
              | .ok fs1 => (fs1, .ok)
            else
              match fs.removeAll targetBase with
              | (some e, fs1) => (fs1, .failed (.sys e))
              | (none, fs1) =>
                match fs1.symlink linkname targetBase with
                | .error e2 => (fs1, .failed (.sys e2))
                | .ok fs2 => (fs2, .ok)

/-- The source's `decodeDevice`. -/
def decodeDevice (r : Bytes) (fs : FS) : FS × Outcome :=
  match unmarshalString r with
  | .error e => (fs, .failed e)
  | .ok (_, _) => (fs, .failed .notImplemented)

/-- The handler table of `extract`, applied by `scanner.Handle` to one frame;
a type without a handler is taken to be an error of the scanner. -/
def handle (hash : Bytes → Nat) (f : Frame) (fs : FS) : FS × Outcome :=
  if f.messageType = v1RegularFile then decodeFile hash f.payload fs
  else if f.messageType = v1DirectoryAscend then decodeDirectoryAscend f.payload fs
  else if f.messageType = v1DirectoryDescend then decodeDirectoryDescend f.payload fs
  else if f.messageType = v1Symlink then decodeSymlink f.payload fs
  else if f.messageType = v1FIFO then decodeFIFO f.payload fs
  else if f.messageType = v1Socket then decodeSocket f.payload fs
  else if f.messageType = v1Device then decodeDevice f.payload fs
  else (fs, .failed (.unknownMessageType f.messageType))

/-- The `for scanner.Scan()` loop of `extract`: an error of a handler is a
warning, kept in `err`, and the loop goes on with the next frame; only the end
of the process stops it. -/
def extractLoop (hash : Bytes → Nat) : List Frame → FS → Option Err → FS × Outcome
  | [], fs, err => (fs, Outcome.ofError err)
  | f :: rest, fs, _ =>
    match handle hash f fs with
    | (fs1, .fatal e) => (fs1, .fatal e)
    | (fs1, .failed e) => extractLoop hash rest fs1 (some e)
    | (fs1, .ok) => extractLoop hash rest fs1 none

/-- The source's `extract` on the frames of its input. -/
def extract (hash : Bytes → Nat) (frames : List Frame) (fs : FS) : FS × Outcome :=
  extractLoop hash frames fs none

/-- A name is a simple base name: not empty, without a slash, neither `.` nor `..`. -/
def IsBaseName (n : Bytes) : Prop := n ≠ [] ∧ 47 ∉ n ∧ n ≠ [46] ∧ n ≠ [46, 46]

instance decidableIsBaseName (n : Bytes) : Decidable (IsBaseName n) := by
  unfold IsBaseName
  infer_instance

/-- A name that the file system admits for an entry: without a NUL byte and
no longer than `nameMax`. -/
def ValidName (n : Bytes) : Prop := 0 ∉ n ∧ n.length ≤ nameMax

instance decidableValidName (n : Bytes) : Decidable (ValidName n) := by
  unfold ValidName
  infer_instance

/-- The system refuses no call for a cause outside the tree. -/
def FS.Quiet (fs : FS) : Prop := ∀ call p, fs.refuses call p = none

/-- The permission bits of an entry that is a directory. -/
def dirPermOf : Option Node → Option Nat
  | some (.dir perm _ _) => some perm
  | _ => none

/-- The permission bits of the directory at an absolute path, if one stands
there. -/
def FS.dirPerm (fs : FS) (q : List Bytes) : Option Nat := dirPermOf (fs.get q)

/-- A directory that the process may search stands at an absolute path. -/
def FS.searchAt (fs : FS) (q : List Bytes) : Prop :=
  ∃ perm, fs.dirPerm q = some perm ∧ fs.maySearch perm = true

/-- The second file system is the first with another tree, in which every
directory of the first still stands with its permission bits. -/
structure FS.Keeps (fs fs1 : FS) : Prop where
  cwd : fs1.cwd = fs.cwd
  now : fs1.now = fs.now
  umask : fs1.umask = fs.umask
  superuser : fs1.superuser = fs.superuser
  growLimit : fs1.growLimit = fs.growLimit
  timeMin : fs1.timeMin = fs.timeMin
  timeMax : fs1.timeMax = fs.timeMax
  refuses : fs1.refuses = fs.refuses
  dirs : ∀ c perm, fs.dirPerm c = some perm → fs1.dirPerm c = some perm

/-- The number of names that lead from the root to the working directory. -/
def FS.depth (fs : FS) : Nat := fs.cwd.length

/-- Every name of the path but the last leads through a directory. -/
def DirChain : List Bytes → Option Node → Prop
  | [], _ => True
  | n :: rest, some (.dir _ _ es) => DirChain rest (lookupEntry n es)
  | _ :: _, _ => False

/-! ## Path names (`path/filepath` on Unix) and `parentAndBaseFromPathname`

`filepath.Clean`, `filepath.Dir` and `filepath.Base` belong to Go's library;
they are given here for Unix, where a path has no volume name and the
separator is the slash. -/

/-- Path components joined by slashes. -/
def joinSlash : List Bytes → Bytes
  | [] => []
  | [c] => c
  | c :: d :: rest => c ++ 47 :: joinSlash (d :: rest)

/-- One step of Go's `filepath.Clean`: an empty component and `.` are dropped,
`..` removes the last name written, or is written itself when there is none
to remove and the path is not rooted, any other name is written. -/
def cleanStep (rooted : Bool) (out : List Bytes) (comp : Bytes) : List Bytes :=
  if comp = [] ∨ comp = [46] then out
  else if comp = [46, 46] then
    match out.getLast? with
    | some last => if last = [46, 46] then out ++ [comp] else out.dropLast
    | none => if rooted then out else [comp]
  else out ++ [comp]

/-- Go's `filepath.Clean`: the shortest path name equivalent to `path` by
purely lexical processing; the empty path becomes `.`. -/
def filepathClean (path : Bytes) : Bytes :=
  if path = [] then [46]
  else if path.head? = some 47 then
    47 :: joinSlash ((splitSlash path).foldl (cleanStep true) [])
  else if joinSlash ((splitSlash path).foldl (cleanStep false) []) = [] then [46]
  else joinSlash ((splitSlash path).foldl (cleanStep false) [])

/-- The path up to and including its last slash; empty when it has none. -/
def upToLastSlash (path : Bytes) : Bytes :=
  (path.reverse.dropWhile (fun b => decide (b ≠ 47))).reverse

/-- Go's `filepath.Dir`: all but the last element of the path, cleaned. -/
def filepathDir (path : Bytes) : Bytes := filepathClean (upToLastSlash path)

/-- The path without its trailing slashes. -/
def stripTrailingSlashes (path : Bytes) : Bytes :=
  (path.reverse.dropWhile (fun b => decide (b = 47))).reverse

/-- What follows the last slash of the path. -/
def afterLastSlash (path : Bytes) : Bytes :=
  (path.reverse.takeWhile (fun b => decide (b ≠ 47))).reverse

/-- Go's `filepath.Base`: the last element of the path; `.` for the empty
path, a slash for a path of slashes only. -/
def filepathBase (path : Bytes) : Bytes :=
  if path = [] then [46]
  else if afterLastSlash (stripTrailingSlashes path) = [] then [47]
  else afterLastSlash (stripTrailingSlashes path)

/-- The source's `parentAndBaseFromPathname` (`main_test.go`); `getwd` is what
`os.Getwd` answers. A nil error with the two strings is `.ok`. -/
def parentAndBaseFromPathname (getwd : Except Err Bytes) (pathname : Bytes) :
    Except Err (Bytes × Bytes) :=
  if pathname ≠ [46] ∧ pathname ≠ [46, 46] then
    .ok (filepathDir pathname, filepathBase pathname)
  else
    match getwd with
    | .error e => .error e
    | .ok wd =>
      if pathname = [46] then .ok (filepathDir wd, filepathBase wd)
      else .ok (filepathDir (filepathDir wd), filepathBase (filepathDir wd))

/-! ## Streams of descend and ascend messages -/

/-- Applies the frames one after the other with the handlers of `extract`;
gives the file system they leave when every handler returned nil. -/
def applyFrames (hash : Bytes → Nat) : List Frame → FS → Option FS
  | [], fs => some fs
  | f :: rest, fs =>
    match handle hash f fs with
    | (fs1, .ok) => applyFrames hash rest fs1
    | _ => none

/-- A directory-descend message whose name decodes to a simple base name and
whose mode decodes. -/
def IsDescendFrame (f : Frame) : Prop :=
  f.messageType = v1DirectoryDescend ∧
  ∃ name r1 mode r2, unmarshalString f.payload = .ok (name, r1) ∧
    unmarshalUint32 r1 = .ok (mode, r2) ∧ IsBaseName name

/-- A directory-ascend message. -/
def IsAscendFrame (f : Frame) : Prop := f.messageType = v1DirectoryAscend

/-- A well-nested sequence of descend and ascend messages: nothing, a
well-nested sequence between a descend and an ascend, or two well-nested
sequences in a row. -/
inductive NestedStream : List Frame → Prop
  | nil : NestedStream []
  | wrap (d a : Frame) (inner : List Frame) :
      IsDescendFrame d → IsAscendFrame a → NestedStream inner →
      NestedStream (d :: inner ++ [a])
  | append (l1 l2 : List Frame) : NestedStream l1 → NestedStream l2 → NestedStream (l1 ++ l2)

/-! ## Concrete inputs of the decoder -/

/-- A file system: `/home` holds the directory `docs` (with a file `old.txt`
in it), the file `greeting.txt` of nine bytes, and the empty directory `tmp`;
the working directory is `/home`. The process is not the superuser, the system
refuses no call, and every time of an int64 is stored. -/
def sampleFS : FS :=
  { root := .dir 493 1000 [(ascii "home", .dir 493 1000
      [(ascii "docs", .dir 493 1000 [(ascii "old.txt", .file (ascii "old") 420 900)]),
       (ascii "greeting.txt", .file (ascii "stale-old") 384 900),
       (ascii "tmp", .dir 493 1000 [])])],
    cwd := [ascii "home"],
    now := 2000,
    umask := 18 }

/-- A regular-file payload that declares five bytes and a hash of 0 and
carries three bytes. -/
def shortPayload : Bytes :=
  filePayload (ascii "new.txt") 1600000000 420 0 5 (ascii "hel")

/-- A regular-file payload with five bytes of content, their size, and a
declared hash of 0. -/
def wrongHashPayload : Bytes :=
  filePayload (ascii "new.txt") 1600000000 420 0 5 (ascii "hello")

/-- A regular-file payload that declares `2^63` bytes and carries none. -/
def hugeSizePayload : Bytes :=
  filePayload (ascii "new.txt") 1600000000 420 0 (2 ^ 63) []

/-- A regular-file payload that declares three bytes and carries five, with
the hash of the five. -/
def overlongPayload : Bytes :=
  filePayload (ascii "new.txt") 1600000000 420 (sum64 sampleHash (ascii "hello")) 3
    (ascii "hello")

/-- The payload that `encodeFile` makes of the file `greeting.txt` holding
`hello`. -/
def greetingPayload : Bytes :=
  filePayload (ascii "greeting.txt") 1600000000 420 (sum64 sampleHash (ascii "hello")) 5
    (ascii "hello")

/-- The sample file system with the working directory moved to `/home/docs`. -/
def sampleFSInDocs : FS := { sampleFS with cwd := [ascii "home", ascii "docs"] }

/-- A stream whose directory-ascend message has lost its payload, followed by
a regular-file message. -/
def brokenAscendStream : List Frame :=
  [⟨v1DirectoryAscend, []⟩, ⟨v1RegularFile, greetingPayload⟩]

/-- A directory-descend payload that names `.`. -/
def dotDescendPayload : Bytes := descendPayload (ascii ".") sampleDirInfo

/-- A directory-descend payload that names `docs`. -/
def docsDescendPayload : Bytes := descendPayload (ascii "docs") sampleDirInfo

/-- A regular-file payload for the name `docs`, which is a directory of the
sample file system. -/
def docsFilePayload : Bytes :=
  filePayload (ascii "docs") 1600000000 420 (sum64 sampleHash (ascii "hello")) 5 (ascii "hello")

/-- A directory-descend payload that names `greeting.txt`, which is a regular
file of the sample file system. -/
def greetingDescendPayload : Bytes := descendPayload (ascii "greeting.txt") sampleDirInfo

/-- The sample file system with a file `locked.txt` in the working directory
whose permission bits let nobody write (mode `0444`). -/
def sampleFSLocked : FS :=
  sampleFS.alter none (fun _ => some (.file (ascii "stale-old") 292 900))
    [ascii "home", ascii "locked.txt"]

/-- The payload that `encodeFile` makes of a file `locked.txt` holding `hello`. -/
def lockedPayload : Bytes :=
  filePayload (ascii "locked.txt") 1600000000 420 (sum64 sampleHash (ascii "hello")) 5
    (ascii "hello")

/-- The payload that `encodeFile` makes of a file `new.txt` holding `hello`,
last modified 18446744074 seconds after the epoch, in the year 2554. -/
def farFuturePayload : Bytes :=
  filePayload (ascii "new.txt") 18446744074 420 (sum64 sampleHash (ascii "hello")) 5
    (ascii "hello")

/-- A regular-file payload for the name `./docs`. -/
def dotDocsFilePayload : Bytes :=
  filePayload (ascii "./docs") 1600000000 420 (sum64 sampleHash (ascii "hello")) 5
    (ascii "hello")

/-- A directory-descend payload that names `docs/../greeting.txt`. -/
def longGreetingDescendPayload : Bytes :=
  descendPayload (ascii "docs/../greeting.txt") sampleDirInfo

/-- The sample file system when no space is left: every write to an open file
is refused. -/
def sampleFSFull : FS :=
  { sampleFS with refuses := fun call _ => if call = .write then some .enospc else none }

/-- The sample file system when it stores the times from 1901 to 2446 only. -/
def sampleFSNarrowTime : FS :=
  { sampleFS with timeMin := -2147483648, timeMax := 15032385535 }

/-- The payload that `encodeFile` makes of a file `new.txt` holding `hello`,
last modified 3000000000 seconds before the epoch, in the year 1874. -/
def farPastPayload : Bytes :=
  filePayload (ascii "new.txt") (-3000000000) 420 (sum64 sampleHash (ascii "hello")) 5
    (ascii "hello")

/-- The payload that `encodeFile` makes of a file `new.txt` holding `hello`. -/
def newFilePayload : Bytes :=
  filePayload (ascii "new.txt") 1600000000 420 (sum64 sampleHash (ascii "hello")) 5
    (ascii "hello")

/-- A directory-descend payload that names `new`, which the sample file system
does not hold, with the mode `drwx------`. -/
def newDescendPayload : Bytes := descendPayload (ascii "new") ⟨4096, 2147484096, 1700000000⟩

/-- A domain-socket payload: name, modification time, mode. -/
def socketPayload (name : Bytes) : Bytes :=
  marshalString name ++ marshalInt64 1600000000 ++ marshalUint32 16777709

/-- The sample file system with a socket `ctl.sock` in the working directory. -/
def sampleFSWithSocket : FS :=
  sampleFS.alter none (fun _ => some (.socket 493 900)) [ascii "home", ascii "ctl.sock"]

/-- The sample file system with a working directory `/home` whose permission
bits let nobody write (mode `0555`). -/
def sampleFSReadOnlyDir : FS :=
  { root := .dir 493 1000 [(ascii "home", .dir 365 1000
      [(ascii "docs", .dir 493 1000 [(ascii "old.txt", .file (ascii "old") 420 900)]),
       (ascii "greeting.txt", .file (ascii "stale-old") 384 900),
       (ascii "tmp", .dir 493 1000 [])])],
    cwd := [ascii "home"],
    now := 2000,
    umask := 18 }

/-- A directory-descend frame for `docs`. -/
def docsDescendFrame : Frame := ⟨v1DirectoryDescend, docsDescendPayload⟩

/-- A directory-descend frame for `new`. -/
def newDescendFrame : Frame := ⟨v1DirectoryDescend, newDescendPayload⟩

/-- A directory-ascend frame. -/
def sampleAscendFrame : Frame := ⟨v1DirectoryAscend, ascendPayload sampleDirInfo⟩

/-- A well-nested stream: into `docs`, into `new` and out, out, then into
`new` and out. -/
def nestedStream : List Frame :=
  [docsDescendFrame, newDescendFrame, sampleAscendFrame, sampleAscendFrame,
   newDescendFrame, sampleAscendFrame]

/-! # Proofs

Everything above is definitions; everything below is theorems. -/

theorem descendCount_append (a b : List Frame) :
    descendCount (a ++ b) = descendCount a + descendCount b := by
  simp [descendCount, List.countP_append]

theorem ascendCount_append (a b : List Frame) :
    ascendCount (a ++ b) = ascendCount a + ascendCount b := by
  simp [ascendCount, List.countP_append]

theorem prefixOK_nil : PrefixOK [] := by
  intro k; simp [ascendCount, descendCount]

theorem prefixOK_total {l : List Frame} (h : PrefixOK l) : ascendCount l ≤ descendCount l := by
  have := h l.length
  simpa using this

theorem prefixOK_append {a b : List Frame} (ha : PrefixOK a) (hb : PrefixOK b)
    (hab : ascendCount a = descendCount a) : PrefixOK (a ++ b) := by
  intro k
  rw [List.take_append_eq_append_take, ascendCount_append, descendCount_append]
  rcases Nat.lt_or_ge k a.length with hk | hk
  · have h0 : k - a.length = 0 := by omega
    have := ha k
    simp [h0, ascendCount, descendCount] at *
    exact this
  · rw [List.take_of_length_le hk]
    have := hb (k - a.length)
    omega

theorem prefixOK_single {f : Frame} (h : f.messageType ≠ v1DirectoryAscend) : PrefixOK [f] := by
  intro k
  cases k with
  | zero => simp [ascendCount, descendCount]
  | succ k => simp [ascendCount, descendCount, h]

theorem prefixOK_cons_descend {p : Bytes} {l : List Frame} (h : PrefixOK l) :
    PrefixOK (⟨v1DirectoryDescend, p⟩ :: l) := by
  intro k
  cases k with
  | zero => simp [ascendCount, descendCount]
  | succ k =>
    have := h k
    simp [ascendCount, descendCount, v1DirectoryDescend, v1DirectoryAscend] at *
    omega

theorem prefixOK_snoc_ascend {p : Bytes} {l : List Frame} (h : PrefixOK l)
    (hlt : ascendCount l < descendCount l) : PrefixOK (l ++ [⟨v1DirectoryAscend, p⟩]) := by
  intro k
  rcases Nat.lt_or_ge k (l.length + 1) with hk | hk
  · have hk2 : k ≤ l.length := by omega
    rw [List.take_append_of_le_length hk2]
    exact h k
  · rw [List.take_of_length_le (by simpa using hk), ascendCount_append, descendCount_append]
    simp [ascendCount, descendCount, v1DirectoryDescend, v1DirectoryAscend] at *
    omega

theorem compose_frames (c : Composer) (t : Nat) (p : Bytes) :
    (c.compose t p = (⟨c.frames ++ [⟨t, p⟩], c.faults.tail⟩, none) ∧ c.faults.head? ≠ some true) ∨
    (c.compose t p = (⟨c.frames, c.faults.tail⟩, some .composeFailed)
      ∧ c.faults.head? = some true) := by
  rcases c with ⟨fr, fa⟩
  cases fa with
  | nil => left; simp [Composer.compose]
  | cons b rest => cases b <;> simp [Composer.compose]

theorem encodeFile_leaf (hash : Bytes → Nat) (name : Bytes) (s : FileScript) :
    LeafStep (fun c => encodeFile hash c name s) := by
  rcases s with ⟨o, st, rd⟩
  cases o with
  | some e => left; exact ⟨e, fun c => rfl⟩
  | none =>
    cases st with
    | error e => left; exact ⟨e, fun c => rfl⟩
    | ok fi =>
      cases rd with
      | error e => left; exact ⟨e, fun c => rfl⟩
      | ok content =>
        by_cases h : content.length < fi.size
        · left; exact ⟨.errUnexpectedEOF, fun c => by simp [encodeFile, h]⟩
        · right
          exact ⟨v1RegularFile,
            filePayload name fi.modTime fi.mode (sum64 hash content) fi.size content,
            by decide, by decide, fun c => by simp [encodeFile, h]⟩

theorem encodeSymlink_leaf (name : Bytes) (l : Except Err FileInfo) (r : Except Err Bytes) :
    LeafStep (fun c => encodeSymlink c name l r) := by
  cases l with
  | error e => left; exact ⟨e, fun c => rfl⟩
  | ok li =>
    cases r with
    | error e => left; exact ⟨e, fun c => rfl⟩
    | ok ln => right; exact ⟨v1Symlink, _, by decide, by decide, fun c => rfl⟩

theorem encodeFIFO_leaf (name : Bytes) (s : Except Err FileInfo) :
    LeafStep (fun c => encodeFIFO c name s) := by
  cases s with
  | error e => left; exact ⟨e, fun c => rfl⟩
  | ok fi => right; exact ⟨v1FIFO, _, by decide, by decide, fun c => rfl⟩

theorem encodeSocket_leaf (name : Bytes) (s : Except Err FileInfo) :
    LeafStep (fun c => encodeSocket c name s) := by
  cases s with
  | error e => left; exact ⟨e, fun c => rfl⟩
  | ok fi => right; exact ⟨v1Socket, _, by decide, by decide, fun c => rfl⟩

theorem leaf_sound {f : Composer → Composer × Option Err} (h : LeafStep f) :
    Sound (fun c => ((f c).1, Outcome.ofError (f c).2)) := by
  rcases h with ⟨e, he⟩ | ⟨t, p, ht3, ht4, hc⟩
  · refine ⟨?_, ?_, ?_⟩
    · intro c; simp [he]
    · intro c
      exact ⟨[], by simp [he], prefixOK_nil, fun _ => rfl⟩
    · intro c hc; simp [he, hc, Outcome.ofError, Outcome.isFatal]
  · refine ⟨?_, ?_, ?_⟩
    · intro c
      rcases c with ⟨fr, fa⟩
      cases fa with
      | nil => simp [hc, Composer.compose]
      | cons b rest => cases b <;> simp [hc, Composer.compose]
    · intro c
      rcases compose_frames c t p with ⟨h1, _⟩ | ⟨h1, _⟩
      · refine ⟨[⟨t, p⟩], by simp [hc, h1], prefixOK_single ht4, fun _ => ?_⟩
        simp [descendCount, ascendCount, ht3, ht4]
      · exact ⟨[], by simp [hc, h1], prefixOK_nil, fun _ => rfl⟩
    · intro c hf
      rcases c with ⟨fr, fa⟩
      simp at hf
      subst hf
      simp [hc, Composer.compose, Outcome.ofError, Outcome.isFatal]

theorem mem_insertBy {α : Type} (key : α → Bytes) (x y : α) (l : List α) :
    y ∈ insertBy key x l ↔ y = x ∨ y ∈ l := by
  induction l with
  | nil => simp [insertBy]
  | cons z zs ih =>
    unfold insertBy
    split
    · simp [ih]; tauto
    · simp

theorem mem_sortBy {α : Type} (key : α → Bytes) (y : α) (l : List α) :
    y ∈ sortBy key l ↔ y ∈ l := by
  induction l with
  | nil => simp [sortBy]
  | cons z zs ih => simp [sortBy, mem_insertBy, ih]

theorem mem_visitOrder {α : Type} (debug : Bool) (key : α → Bytes) (y : α) (l : List α) :
    y ∈ visitOrder debug key l ↔ y ∈ l := by
  cases debug <;> simp [visitOrder, mem_sortBy]

theorem insertBy_map {α β : Type} (f : α → β) (key : β → Bytes) (x : α) (l : List α) :
    insertBy key (f x) (l.map f) = (insertBy (fun a => key (f a)) x l).map f := by
  induction l with
  | nil => rfl
  | cons z zs ih =>
    simp only [List.map, insertBy]
    split <;> simp [ih]

theorem sortBy_map {α β : Type} (f : α → β) (key : β → Bytes) (l : List α) :
    sortBy key (l.map f) = (sortBy (fun a => key (f a)) l).map f := by
  induction l with
  | nil => rfl
  | cons z zs ih => simp only [List.map, sortBy, ih, insertBy_map]

theorem visitors_eq_map (hash : Bytes → Nat) (debug : Bool) (ds : List Dirent) :
    visitors hash debug ds = ds.map (fun d => (d.name, encodeDirent hash debug d)) := by
  induction ds with
  | nil => simp [visitors]
  | cons d ds ih => simp [visitors, ih]

theorem visitOrder_visitors (hash : Bytes → Nat) (debug : Bool) (ds : List Dirent) :
    visitOrder debug Prod.fst (visitors hash debug ds)
      = visitors hash debug (visitOrder debug Dirent.name ds) := by
  cases debug
  · simp [visitOrder]
  · simp only [visitOrder, if_true, visitors_eq_map]
    exact sortBy_map _ _ _

theorem encodeChildren_cons_fatal {n : Bytes} {v : Visitor} {rest : List (Bytes × Visitor)}
    {c c1 : Composer} {e : Err} (h : v c = (c1, .fatal e)) :
    encodeChildren ((n, v) :: rest) c = (c1, some e) := by
  simp [encodeChildren, h]

theorem encodeChildren_cons_go {n : Bytes} {v : Visitor} {rest : List (Bytes × Visitor)}
    {c c1 : Composer} {o : Outcome} (h : v c = (c1, o)) (ho : o.isFatal = false) :
    encodeChildren ((n, v) :: rest) c = encodeChildren rest c1 := by
  cases o with
  | ok => simp [encodeChildren, h]
  | failed e => simp [encodeChildren, h]
  | fatal e => simp [Outcome.isFatal] at ho

theorem encodeChildren_local (vs : List (Bytes × Visitor)) (hvs : ∀ v ∈ vs, Local v.2)
    (c : Composer) :
    encodeChildren vs c
      = (⟨c.frames ++ (encodeChildren vs ⟨[], c.faults⟩).1.frames,
          (encodeChildren vs ⟨[], c.faults⟩).1.faults⟩,
         (encodeChildren vs ⟨[], c.faults⟩).2) := by
  induction vs generalizing c with
  | nil => simp [encodeChildren]
  | cons nv rest ih =>
    rcases nv with ⟨n, v⟩
    have hv : Local v := hvs (n, v) (List.mem_cons_self _ _)
    have hrest : ∀ w ∈ rest, Local w.2 := fun w hw => hvs w (List.mem_cons_of_mem _ hw)
    rcases h0 : v ⟨[], c.faults⟩ with ⟨c0, o⟩
    have hc : v c = (⟨c.frames ++ c0.frames, c0.faults⟩, o) := by
      rw [hv c, h0]
    by_cases ho : o.isFatal = false
    · rw [encodeChildren_cons_go hc ho, encodeChildren_cons_go h0 ho]
      rw [ih hrest ⟨c.frames ++ c0.frames, c0.faults⟩, ih hrest c0]
      simp [List.append_assoc]
    · cases o with
      | ok => simp [Outcome.isFatal] at ho
      | failed e => simp [Outcome.isFatal] at ho
      | fatal e =>
        rw [encodeChildren_cons_fatal hc, encodeChildren_cons_fatal h0]

theorem encodeChildren_nested (vs : List (Bytes × Visitor)) (hvs : ∀ v ∈ vs, WellNested v.2)
    (c : Composer) :
    ∃ new, (encodeChildren vs c).1.frames = c.frames ++ new ∧ PrefixOK new ∧
      ((encodeChildren vs c).2 = none → descendCount new = ascendCount new) := by
  induction vs generalizing c with
  | nil => exact ⟨[], by simp [encodeChildren], prefixOK_nil, fun _ => rfl⟩
  | cons nv rest ih =>
    rcases nv with ⟨n, v⟩
    have hv : WellNested v := hvs (n, v) (List.mem_cons_self _ _)
    have hrest : ∀ w ∈ rest, WellNested w.2 := fun w hw => hvs w (List.mem_cons_of_mem _ hw)
    rcases hc : v c with ⟨c1, o⟩
    obtain ⟨new1, hf1, hp1, hb1⟩ := hv c
    rw [hc] at hf1 hb1
    by_cases ho : o.isFatal = false
    · rw [encodeChildren_cons_go hc ho]
      obtain ⟨new2, hf2, hp2, hb2⟩ := ih hrest c1
      have hbal := hb1 ho
      refine ⟨new1 ++ new2, ?_, prefixOK_append hp1 hp2 hbal.symm, fun hn => ?_⟩
      · rw [hf2, hf1, List.append_assoc]
      · rw [descendCount_append, ascendCount_append, hbal, hb2 hn]
    · cases o with
      | ok => simp [Outcome.isFatal] at ho
      | failed e => simp [Outcome.isFatal] at ho
      | fatal e =>
        rw [encodeChildren_cons_fatal hc]
        exact ⟨new1, hf1, hp1, fun hn => by simp at hn⟩

theorem encodeChildren_faultless (vs : List (Bytes × Visitor)) (hvs : ∀ v ∈ vs, Faultless v.2)
    (c : Composer) (hc : c.faults = []) :
    (encodeChildren vs c).1.faults = [] ∧ (encodeChildren vs c).2 = none := by
  induction vs generalizing c with
  | nil => simp [encodeChildren, hc]
  | cons nv rest ih =>
    rcases nv with ⟨n, v⟩
    have hv : Faultless v := hvs (n, v) (List.mem_cons_self _ _)
    have hrest : ∀ w ∈ rest, Faultless w.2 := fun w hw => hvs w (List.mem_cons_of_mem _ hw)
    rcases h1 : v c with ⟨c1, o⟩
    have := hv c hc
    rw [h1] at this
    rw [encodeChildren_cons_go h1 this.2]
    exact ih hrest c1 this.1

theorem encodeDirectory_sound (debug : Bool) (name : Bytes) (stat : Except Err FileInfo)
    (listErr : Option Err) (vs : List (Bytes × Visitor)) (hvs : ∀ v ∈ vs, Sound v.2) :
    Sound (fun c => encodeDirectory debug c name stat listErr vs) := by
  have hmem : ∀ v ∈ visitOrder debug Prod.fst vs, Sound v.2 :=
    fun v hv => hvs v ((mem_visitOrder debug Prod.fst v vs).1 hv)
  cases stat with
  | error e =>
    exact ⟨fun c => by simp [encodeDirectory],
      fun c => ⟨[], by simp [encodeDirectory], prefixOK_nil, fun _ => rfl⟩,
      fun c hc => by simp [encodeDirectory, hc, Outcome.isFatal]⟩
  | ok fi =>
    cases listErr with
    | some e =>
      exact ⟨fun c => by simp [encodeDirectory],
        fun c => ⟨[], by simp [encodeDirectory], prefixOK_nil, fun _ => rfl⟩,
        fun c hc => by simp [encodeDirectory, hc, Outcome.isFatal]⟩
    | none =>
      refine ⟨?_, ?_, ?_⟩
      · intro c
        have hl := encodeChildren_local (visitOrder debug Prod.fst vs)
          (fun v hv => (hmem v hv).1)
        rcases c with ⟨fr, fa⟩
        cases fa with
        | nil =>
          simp only [encodeDirectory, encodeDirectoryDescend, Composer.compose]
          rw [hl ⟨fr ++ _, []⟩, hl ⟨[] ++ _, []⟩]
          simp only []
          rcases encodeChildren (visitOrder debug Prod.fst vs) ⟨[], []⟩ with ⟨c2, o2⟩
          cases o2 with
          | some e => simp
          | none =>
            rcases c2 with ⟨fr2, fa2⟩
            cases fa2 with
            | nil => simp [encodeDirectoryAscend, Composer.compose]
            | cons b r => cases b <;> simp [encodeDirectoryAscend, Composer.compose]
        | cons b rest =>
          cases b
          · simp only [encodeDirectory, encodeDirectoryDescend, Composer.compose]
            rw [hl ⟨fr ++ _, rest⟩, hl ⟨[] ++ _, rest⟩]
            simp only []
            rcases encodeChildren (visitOrder debug Prod.fst vs) ⟨[], rest⟩ with ⟨c2, o2⟩
            cases o2 with
            | some e => simp
            | none =>
              rcases c2 with ⟨fr2, fa2⟩
              cases fa2 with
              | nil => simp [encodeDirectoryAscend, Composer.compose]
              | cons b r => cases b <;> simp [encodeDirectoryAscend, Composer.compose]
          · simp [encodeDirectory, encodeDirectoryDescend, Composer.compose]
      · intro c
        have hn := encodeChildren_nested (visitOrder debug Prod.fst vs)
          (fun v hv => (hmem v hv).2.1)
        rcases compose_frames c v1DirectoryDescend (descendPayload name fi) with
          ⟨h1, _⟩ | ⟨h1, _⟩
        · obtain ⟨mid, hf, hp, hb⟩ :=
            hn ⟨c.frames ++ [⟨v1DirectoryDescend, descendPayload name fi⟩], c.faults.tail⟩
          rcases hr : encodeChildren (visitOrder debug Prod.fst vs)
            ⟨c.frames ++ [⟨v1DirectoryDescend, descendPayload name fi⟩], c.faults.tail⟩
            with ⟨c2, o2⟩
          rw [hr] at hf hb
          simp only at hf hb
          cases o2 with
          | some e =>
            refine ⟨⟨v1DirectoryDescend, descendPayload name fi⟩ :: mid, ?_,
              prefixOK_cons_descend hp, fun hfat => ?_⟩
            · simp [encodeDirectory, encodeDirectoryDescend, h1, hr, hf]
            · simp [encodeDirectory, encodeDirectoryDescend, h1, hr, Outcome.isFatal] at hfat
          | none =>
            have hbal := hb rfl
            rcases compose_frames c2 v1DirectoryAscend (ascendPayload fi) with
              ⟨h2, _⟩ | ⟨h2, _⟩
            · refine ⟨(⟨v1DirectoryDescend, descendPayload name fi⟩ :: mid)
                ++ [⟨v1DirectoryAscend, ascendPayload fi⟩], ?_, ?_, fun _ => ?_⟩
              · simp [encodeDirectory, encodeDirectoryDescend, encodeDirectoryAscend, h1, hr,
                  h2, hf]
              · apply prefixOK_snoc_ascend (prefixOK_cons_descend hp)
                simp [ascendCount, descendCount, v1DirectoryDescend, v1DirectoryAscend] at *
                omega
              · simp [ascendCount, descendCount, v1DirectoryDescend, v1DirectoryAscend] at *
                omega
            · refine ⟨⟨v1DirectoryDescend, descendPayload name fi⟩ :: mid, ?_,
                prefixOK_cons_descend hp, fun hfat => ?_⟩
              · simp [encodeDirectory, encodeDirectoryDescend, encodeDirectoryAscend, h1, hr,
                  h2, hf]
              · simp [encodeDirectory, encodeDirectoryDescend, encodeDirectoryAscend, h1, hr,
                  h2, Outcome.isFatal] at hfat
        · exact ⟨[], by simp [encodeDirectory, encodeDirectoryDescend, h1], prefixOK_nil,
            fun _ => rfl⟩
      · intro c hc
        rcases c with ⟨fr, fa⟩
        simp only at hc
        subst hc
        have hfl := encodeChildren_faultless (visitOrder debug Prod.fst vs)
          (fun v hv => (hmem v hv).2.2)
          ⟨fr ++ [⟨v1DirectoryDescend, descendPayload name fi⟩], []⟩ rfl
        rcases hr : encodeChildren (visitOrder debug Prod.fst vs)
          ⟨fr ++ [⟨v1DirectoryDescend, descendPayload name fi⟩], []⟩ with ⟨c2, o2⟩
        rw [hr] at hfl
        rcases c2 with ⟨fr2, fa2⟩
        simp only at hfl
        rcases hfl with ⟨hfa, ho⟩
        subst hfa
        subst ho
        simp [encodeDirectory, encodeDirectoryDescend, encodeDirectoryAscend, Composer.compose,
          hr, Outcome.isFatal]

mutual

theorem encodeDirent_sound (hash : Bytes → Nat) (debug : Bool) :
    ∀ d : Dirent, Sound (encodeDirent hash debug d)
  | .regular name script => by
    have := leaf_sound (encodeFile_leaf hash name script)
    exact this
  | .directory name stat listErr children => by
    have := encodeDirectory_sound debug name stat listErr (visitors hash debug children)
      (visitors_sound hash debug children)
    exact this
  | .symlink name l r => by
    have := leaf_sound (encodeSymlink_leaf name l r)
    exact this
  | .fifo name s => by
    have := leaf_sound (encodeFIFO_leaf name s)
    exact this
  | .socket name s => by
    have := leaf_sound (encodeSocket_leaf name s)
    exact this
  | .device name => by
    have := leaf_sound (Or.inl ⟨Err.modeTypeNotSupported, fun c => rfl⟩ :
      LeafStep (fun c => (c, some Err.modeTypeNotSupported)))
    exact this
  | .irregular name => by
    have := leaf_sound (Or.inl ⟨Err.modeTypeNotSupported, fun c => rfl⟩ :
      LeafStep (fun c => (c, some Err.modeTypeNotSupported)))
    exact this

theorem visitors_sound (hash : Bytes → Nat) (debug : Bool) :
    ∀ ds : List Dirent, ∀ v ∈ visitors hash debug ds, Sound v.2
  | [] => by simp [visitors]
  | d :: ds => by
    intro v hv
    simp only [visitors, List.mem_cons] at hv
    rcases hv with h | h
    · subst h; exact encodeDirent_sound hash debug d
    · exact visitors_sound hash debug ds v h
end

theorem encodeChildren_frames (hash : Bytes → Nat) (debug : Bool) (ds : List Dirent)
    (c : Composer) (h : (encodeChildren (visitors hash debug ds) c).2 = none) :
    (encodeChildren (visitors hash debug ds) c).1.frames
      = c.frames ++ childrenFrames hash debug ds c.faults := by
  induction ds generalizing c with
  | nil => simp [visitors, encodeChildren, childrenFrames]
  | cons d ds ih =>
    have hl := (encodeDirent_sound hash debug d).1 c
    rcases h0 : encodeDirent hash debug d ⟨[], c.faults⟩ with ⟨c0, o⟩
    rw [h0] at hl
    simp only at hl
    by_cases ho : o.isFatal = false
    · simp only [visitors] at h ⊢
      rw [encodeChildren_cons_go hl ho] at h ⊢
      rw [ih _ h]
      simp [childrenFrames, h0, List.append_assoc]
    · cases o with
      | ok => simp [Outcome.isFatal] at ho
      | failed e => simp [Outcome.isFatal] at ho
      | fatal e =>
        simp only [visitors] at h
        rw [encodeChildren_cons_fatal hl] at h
        simp at h

theorem childrenFrames_faultless (hash : Bytes → Nat) (debug : Bool) (ds : List Dirent) :
    childrenFrames hash debug ds [] = ds.flatMap (ownFrames hash debug) := by
  induction ds with
  | nil => simp [childrenFrames]
  | cons d ds ih =>
    have := (encodeDirent_sound hash debug d).2.2 ⟨[], []⟩ rfl
    simp [childrenFrames, this.1, ih, ownFrames]

/-- The result of `encodeDirectory` on a directory whose stat and listing
succeed, whose descend emission succeeds, and that does not end the process. -/
theorem encodeDirectory_completed (hash : Bytes → Nat) (debug : Bool) (name : Bytes)
    (fi : FileInfo) (children : List Dirent) (c : Composer)
    (hdescend : c.faults.head? ≠ some true)
    (hdone : (encodeDirectory debug c name (.ok fi) none
      (visitors hash debug children)).2.isFatal = false) :
    (encodeDirectory debug c name (.ok fi) none (visitors hash debug children)).2 = .ok ∧
    (encodeDirectory debug c name (.ok fi) none (visitors hash debug children)).1.frames
      = c.frames ++ [⟨v1DirectoryDescend, descendPayload name fi⟩]
        ++ childrenFrames hash debug (visitOrder debug Dirent.name children) c.faults.tail
        ++ [⟨v1DirectoryAscend, ascendPayload fi⟩] := by
  rcases compose_frames c v1DirectoryDescend (descendPayload name fi) with ⟨h1, _⟩ | ⟨_, h1⟩
  · have hfr := encodeChildren_frames hash debug (visitOrder debug Dirent.name children)
      ⟨c.frames ++ [⟨v1DirectoryDescend, descendPayload name fi⟩], c.faults.tail⟩
    rw [← visitOrder_visitors] at hfr
    rcases hr : encodeChildren (visitOrder debug Prod.fst (visitors hash debug children))
      ⟨c.frames ++ [⟨v1DirectoryDescend, descendPayload name fi⟩], c.faults.tail⟩ with ⟨c2, o2⟩
    rw [hr] at hfr
    simp only at hfr
    cases o2 with
    | some e =>
      simp [encodeDirectory, encodeDirectoryDescend, h1, hr, Outcome.isFatal] at hdone
    | none =>
      have hf2 := hfr rfl
      rcases compose_frames c2 v1DirectoryAscend (ascendPayload fi) with ⟨h2, _⟩ | ⟨h2, _⟩
      · simp [encodeDirectory, encodeDirectoryDescend, encodeDirectoryAscend, h1, hr, h2, hf2]
      · simp [encodeDirectory, encodeDirectoryDescend, encodeDirectoryAscend, h1, hr, h2,
          Outcome.isFatal] at hdone
  · exact absurd h1 hdescend

/-- C1. Stack balance: in the frames emitted by an `encodeTarget` pass, and by an
`encodeDirectory` pass, that runs to completion (the process is not ended by
`fatalWhenErr`), the directory-descend frames are as many as the
directory-ascend frames, and in no initial segment of the emitted frames do
the ascends outnumber the descends; this for every tree, every pattern of
failing system calls and every pattern of failing emissions. -/
theorem stack_balance (hash : Bytes → Nat) (debug : Bool) (c : Composer)
    (target : TargetScript) (name : Bytes) (stat : Except Err FileInfo) (listErr : Option Err)
    (children : List Dirent)
    (htarget : (encodeTarget hash debug c target).2.isFatal = false)
    (hdir : (encodeDirectory debug c name stat listErr
      (visitors hash debug children)).2.isFatal = false) :
    (∃ new, (encodeTarget hash debug c target).1.frames = c.frames ++ new ∧
      descendCount new = ascendCount new ∧
      ∀ k, ascendCount (new.take k) ≤ descendCount (new.take k)) ∧
    (∃ new, (encodeDirectory debug c name stat listErr
        (visitors hash debug children)).1.frames = c.frames ++ new ∧
      descendCount new = ascendCount new ∧
      ∀ k, ascendCount (new.take k) ≤ descendCount (new.take k)) := by
  constructor
  · rcases target with ⟨a, de⟩
    cases a with
    | some e => exact ⟨[], by simp [encodeTarget], rfl, prefixOK_nil⟩
    | none =>
      cases de with
      | error e => exact ⟨[], by simp [encodeTarget], rfl, prefixOK_nil⟩
      | ok d =>
        obtain ⟨new, hf, hp, hb⟩ := (encodeDirent_sound hash debug d).2.1 c
        exact ⟨new, hf, hb htarget, hp⟩
  · obtain ⟨new, hf, hp, hb⟩ :=
      (encodeDirent_sound hash debug (.directory name stat listErr children)).2.1 c
    exact ⟨new, hf, hb hdir, hp⟩

theorem stack_balance_witness :
    (encodeTarget sampleHash true sampleComposer sampleTarget).2.isFatal = false ∧
    (encodeDirectory true sampleComposer (ascii "d") (.ok sampleDirInfo) none
      (visitors sampleHash true faultyListing)).2.isFatal = false ∧
    ((∃ new, (encodeTarget sampleHash true sampleComposer sampleTarget).1.frames
        = sampleComposer.frames ++ new ∧
      descendCount new = ascendCount new ∧
      ∀ k, ascendCount (new.take k) ≤ descendCount (new.take k)) ∧
    (∃ new, (encodeDirectory true sampleComposer (ascii "d") (.ok sampleDirInfo) none
        (visitors sampleHash true faultyListing)).1.frames = sampleComposer.frames ++ new ∧
      descendCount new = ascendCount new ∧
      ∀ k, ascendCount (new.take k) ≤ descendCount (new.take k))) :=
  ⟨by decide, by decide,
    stack_balance sampleHash true sampleComposer sampleTarget (ascii "d")
      (.ok sampleDirInfo) none faultyListing (by decide) (by decide)⟩

/-- C5 (as stated, refuted). With the debug option set the children are
visited in name order, not in listing order: a directory listing `b.txt`
before `a.txt` is encoded without any failure, and its frames are not the
descend frame, the frames of the children in listing order, the ascend frame. -/
theorem directory_frame_order_counterexample :
    (encodeDirectory true ⟨[], []⟩ (ascii "d") (.ok sampleDirInfo) none
      (visitors sampleHash true unsortedListing)).2 = .ok ∧
    (encodeDirectory true ⟨[], []⟩ (ascii "d") (.ok sampleDirInfo) none
      (visitors sampleHash true unsortedListing)).1.frames
      ≠ [⟨v1DirectoryDescend, descendPayload (ascii "d") sampleDirInfo⟩]
        ++ unsortedListing.flatMap (ownFrames sampleHash true)
        ++ [⟨v1DirectoryAscend, ascendPayload sampleDirInfo⟩] := by
  decide

/-- C5 (amended). Directory frame order: for every directory whose stat and
listing succeed, every emission succeeding, `encodeDirectory` returns nil and
appends: first a directory-descend frame carrying the name and the mode of the
directory, then the frames of each child in the order of the visit (the
listing order, or the listing sorted by name when the debug option is set),
and last a directory-ascend frame carrying the modification time that the
stat made before the visit reported. -/
theorem directory_frame_order (hash : Bytes → Nat) (debug : Bool) (name : Bytes)
    (fi : FileInfo) (children : List Dirent) (c : Composer) (hemit : c.faults = []) :
    encodeDirectory debug c name (.ok fi) none (visitors hash debug children)
      = (⟨c.frames
            ++ [⟨v1DirectoryDescend, marshalString name ++ marshalUint32 fi.mode⟩]
            ++ (visitOrder debug Dirent.name children).flatMap (ownFrames hash debug)
            ++ [⟨v1DirectoryAscend, marshalInt64 fi.modTime⟩], []⟩, .ok) := by
  have hs := (encodeDirent_sound hash debug (.directory name (.ok fi) none children)).2.2 c hemit
  have hs1 : (encodeDirectory debug c name (.ok fi) none
      (visitors hash debug children)).1.faults = [] := hs.1
  have hs2 : (encodeDirectory debug c name (.ok fi) none
      (visitors hash debug children)).2.isFatal = false := hs.2
  have hc := encodeDirectory_completed hash debug name fi children c (by simp [hemit]) hs2
  rcases hr : encodeDirectory debug c name (.ok fi) none (visitors hash debug children)
    with ⟨⟨fr, fa⟩, o⟩
  rw [hr] at hs1 hc
  simp only at hs1 hc
  rw [hc.1, hc.2, hs1, hemit]
  simp [childrenFrames_faultless, descendPayload, ascendPayload]

theorem directory_frame_order_witness :
    (⟨[], []⟩ : Composer).faults = [] ∧
    encodeDirectory false ⟨[], []⟩ (ascii "a") (.ok sampleDirInfo) none
      (visitors sampleHash false [plainFile (ascii "b.txt") (ascii "hello") 420 1600000000])
      = (⟨(⟨[], []⟩ : Composer).frames
            ++ [⟨v1DirectoryDescend, marshalString (ascii "a")
              ++ marshalUint32 sampleDirInfo.mode⟩]
            ++ (visitOrder false Dirent.name
                [plainFile (ascii "b.txt") (ascii "hello") 420 1600000000]).flatMap
                (ownFrames sampleHash false)
            ++ [⟨v1DirectoryAscend, marshalInt64 sampleDirInfo.modTime⟩], []⟩, .ok) :=
  ⟨rfl, directory_frame_order sampleHash false (ascii "a") sampleDirInfo
    [plainFile (ascii "b.txt") (ascii "hello") 420 1600000000] ⟨[], []⟩ rfl⟩

/-- C6 (as stated, refuted). With the debug option set, a directory whose
second child cannot be opened is encoded without error, and the frames of the
children that can be encoded are emitted in name order, not in listing order. -/
theorem child_failure_isolation_counterexample :
    (encodeDirectory true ⟨[], []⟩ (ascii "d") (.ok sampleDirInfo) none
      (visitors sampleHash true faultyListing)).2 = .ok ∧
    (encodeDirectory true ⟨[], []⟩ (ascii "d") (.ok sampleDirInfo) none
      (visitors sampleHash true faultyListing)).1.frames
      ≠ [⟨v1DirectoryDescend, descendPayload (ascii "d") sampleDirInfo⟩]
        ++ childrenFrames sampleHash true faultyListing []
        ++ [⟨v1DirectoryAscend, ascendPayload sampleDirInfo⟩] := by
  decide

/-- C6 (amended). Per-child failure isolation: for every directory whose own
stat, listing and descend emission succeed and whose pass reaches and
completes its ascend emission (the process is not ended), `encodeDirectory`
returns nil however many children fail, and between the descend and the ascend
frame stand, in the order of the visit (the listing order, or the listing
sorted by name when the debug option is set), exactly the frames that each
child emits on its own: nothing is lost or added because a sibling failed. -/
theorem child_failure_isolation (hash : Bytes → Nat) (debug : Bool) (name : Bytes)
    (fi : FileInfo) (children : List Dirent) (c : Composer)
    (hdescend : c.faults.head? ≠ some true)
    (hdone : (encodeDirectory debug c name (.ok fi) none
      (visitors hash debug children)).2.isFatal = false) :
    (encodeDirectory debug c name (.ok fi) none (visitors hash debug children)).2 = .ok ∧
    (encodeDirectory debug c name (.ok fi) none (visitors hash debug children)).1.frames
      = c.frames ++ [⟨v1DirectoryDescend, descendPayload name fi⟩]
        ++ childrenFrames hash debug (visitOrder debug Dirent.name children) c.faults.tail
        ++ [⟨v1DirectoryAscend, ascendPayload fi⟩] :=
  encodeDirectory_completed hash debug name fi children c hdescend hdone

theorem child_failure_isolation_witness :
    sampleComposer.faults.head? ≠ some true ∧
    (encodeDirectory false sampleComposer (ascii "d") (.ok sampleDirInfo) none
      (visitors sampleHash false faultyListing)).2.isFatal = false ∧
    (encodeDirectory false sampleComposer (ascii "d") (.ok sampleDirInfo) none
      (visitors sampleHash false faultyListing)).2 = .ok ∧
    (encodeDirectory false sampleComposer (ascii "d") (.ok sampleDirInfo) none
      (visitors sampleHash false faultyListing)).1.frames
      = sampleComposer.frames ++ [⟨v1DirectoryDescend, descendPayload (ascii "d") sampleDirInfo⟩]
        ++ childrenFrames sampleHash false (visitOrder false Dirent.name faultyListing)
          sampleComposer.faults.tail
        ++ [⟨v1DirectoryAscend, ascendPayload sampleDirInfo⟩] :=
  ⟨by decide, by decide,
    child_failure_isolation sampleHash false (ascii "d") sampleDirInfo faultyListing
      sampleComposer (by decide) (by decide)⟩

/-! ## The scalar encodings are read back -/

theorem beValue_snoc (bs : Bytes) (b : Nat) : beValue (bs ++ [b]) = beValue bs * 256 + b := by
  simp [beValue, List.foldl_append]

theorem length_beBytes (w n : Nat) : (beBytes w n).length = w := by
  induction w generalizing n with
  | zero => rfl
  | succ w ih => simp [beBytes, ih]

theorem beValue_beBytes (w n : Nat) : beValue (beBytes w n) = n % 256 ^ w := by
  induction w generalizing n with
  | zero => simp [beBytes, beValue, Nat.mod_one]
  | succ w ih =>
    rw [beBytes, beValue_snoc, ih, pow_succ, Nat.mul_comm (256 ^ w) 256, Nat.mod_mul]
    omega

theorem readN_append (a rest : Bytes) : readN a.length (a ++ rest) = .ok (a, rest) := by
  simp [readN]

theorem beValue_marshalUint32 (n : Nat) : beValue (marshalUint32 n) = n % 2 ^ 32 := by
  rw [marshalUint32, beValue_beBytes]
  exact Nat.mod_eq_of_lt (lt_of_lt_of_le (Nat.mod_lt _ (by norm_num)) (by norm_num))

theorem beValue_marshalUint64 (n : Nat) : beValue (marshalUint64 n) = n % 2 ^ 64 := by
  rw [marshalUint64, beValue_beBytes]
  exact Nat.mod_eq_of_lt (lt_of_lt_of_le (Nat.mod_lt _ (by norm_num)) (by norm_num))

theorem unmarshalUint32_marshal (n : Nat) (rest : Bytes) :
    unmarshalUint32 (marshalUint32 n ++ rest) = .ok (n % 2 ^ 32, rest) := by
  have h := readN_append (marshalUint32 n) rest
  rw [show (marshalUint32 n).length = 4 from length_beBytes 4 _] at h
  unfold unmarshalUint32
  rw [h]
  simp only [beValue_marshalUint32, Nat.mod_mod]

theorem unmarshalUint64_marshal (n : Nat) (rest : Bytes) :
    unmarshalUint64 (marshalUint64 n ++ rest) = .ok (n % 2 ^ 64, rest) := by
  have h := readN_append (marshalUint64 n) rest
  rw [show (marshalUint64 n).length = 8 from length_beBytes 8 _] at h
  unfold unmarshalUint64
  rw [h]
  simp only [beValue_marshalUint64, Nat.mod_mod]

theorem int64Bits_lt (i : Int) : int64Bits i < 2 ^ 64 := by
  unfold int64Bits
  omega

theorem int64OfBits_int64Bits (i : Int) (hlo : -(2 : Int) ^ 63 ≤ i) (hhi : i < 2 ^ 63) :
    int64OfBits (int64Bits i) = i := by
  unfold int64OfBits int64Bits
  split <;> omega

theorem unmarshalInt64_marshal (i : Int) (rest : Bytes) (hlo : -(2 : Int) ^ 63 ≤ i)
    (hhi : i < 2 ^ 63) : unmarshalInt64 (marshalInt64 i ++ rest) = .ok (i, rest) := by
  have h := readN_append (marshalInt64 i) rest
  rw [show (marshalInt64 i).length = 8 from length_beBytes 8 _] at h
  have hb : beValue (marshalInt64 i) = int64Bits i := by
    rw [marshalInt64, beValue_beBytes]
    exact Nat.mod_eq_of_lt (lt_of_lt_of_le (int64Bits_lt i) (by norm_num))
  unfold unmarshalInt64
  rw [h]
  simp only [hb, int64OfBits_int64Bits i hlo hhi]

theorem uvwiValue_uvwiBytes (k n : Nat) (rest : Bytes) (h : n < 128 ^ (k + 1)) :
    uvwiValue (uvwiBytes k n ++ rest) = .ok (n, rest) := by
  induction k generalizing n with
  | zero =>
    have h1 : n < 128 := by simpa using h
    simp [uvwiBytes, uvwiValue, Nat.mod_eq_of_lt h1, h1]
  | succ k ih =>
    unfold uvwiBytes
    by_cases h1 : n < 128
    · simp [h1, uvwiValue]
    · have h2 : n / 128 < 128 ^ (k + 1) := by
        rw [pow_succ] at h
        exact Nat.div_lt_of_lt_mul (by rw [Nat.mul_comm]; exact h)
      have h3 : ¬ (n % 128 + 128 < 128) := by omega
      simp only [h1, if_false, List.cons_append, uvwiValue, h3, ih (n / 128) h2]
      congr 2
      omega

theorem unmarshalUVWI_marshal (n : Nat) (rest : Bytes) :
    unmarshalUVWI (marshalUVWI n ++ rest) = .ok (n % 2 ^ 64, rest) := by
  have hlt : n % 2 ^ 64 < 128 ^ (9 + 1) := by
    have : n % 2 ^ 64 < 2 ^ 64 := Nat.mod_lt _ (by norm_num)
    calc n % 2 ^ 64 < 2 ^ 64 := this
      _ ≤ 128 ^ (9 + 1) := by norm_num
  unfold unmarshalUVWI marshalUVWI
  rw [uvwiValue_uvwiBytes 9 _ rest hlt]
  simp only [Nat.mod_mod]

theorem unmarshalString_marshal (s rest : Bytes) (h : s.length < 2 ^ 64) :
    unmarshalString (marshalString s ++ rest) = .ok (s, rest) := by
  unfold unmarshalString marshalString
  rw [List.append_assoc, unmarshalUVWI_marshal]
  simp only [Nat.mod_eq_of_lt h, readN_append]

theorem unmarshalFileHeader_filePayload (name : Bytes) (modTime : Int)
    (mode hashValue size : Nat) (content : Bytes) (hname : name.length < 2 ^ 64)
    (hlo : -(2 : Int) ^ 63 ≤ modTime) (hhi : modTime < 2 ^ 63) :
    unmarshalFileHeader (filePayload name modTime mode hashValue size content)
      = .ok (⟨name, modTime, mode % 2 ^ 32, hashValue % 2 ^ 64, size % 2 ^ 64⟩, content) := by
  unfold unmarshalFileHeader filePayload
  simp only [List.append_assoc]
  rw [unmarshalString_marshal _ _ hname]
  simp only []
  rw [unmarshalInt64_marshal _ _ hlo hhi]
  simp only []
  rw [unmarshalUint32_marshal]
  simp only []
  rw [unmarshalUint64_marshal]
  simp only []
  rw [unmarshalUVWI_marshal]

/-! ## The file system: paths and updates -/

theorem splitSlash_of_not_mem (n : Bytes) (h : 47 ∉ n) : splitSlash n = [n] := by
  induction n with
  | nil => rfl
  | cons b rest ih =>
    have hb : b ≠ 47 := fun hb => h (by simp [hb])
    have hr : 47 ∉ rest := fun hr => h (List.mem_cons_of_mem _ hr)
    simp [splitSlash, hb, ih hr]

theorem components_baseName {n : Bytes} (h : IsBaseName n) :
    (splitSlash n).filter (fun comp => comp ≠ []) = [n] := by
  rw [splitSlash_of_not_mem n h.2.1]
  simp [h.1]

theorem lastComponent_baseName {n : Bytes} (h : IsBaseName n) : lastComponent n = n := by
  unfold lastComponent
  rw [components_baseName h]
  rfl

theorem endsInSlash_baseName {n : Bytes} (h : IsBaseName n) : endsInSlash n = false := by
  unfold endsInSlash
  rw [decide_eq_false_iff_not]
  intro hl
  exact h.2.1 (List.mem_of_mem_getLast? hl)

theorem dirPermOf_eq_some {o : Option Node} {perm : Nat} (h : dirPermOf o = some perm) :
    ∃ t es, o = some (.dir perm t es) := by
  cases o with
  | none => simp [dirPermOf] at h
  | some node =>
    cases node with
    | dir pm t es =>
      simp only [dirPermOf, Option.some.injEq] at h
      exact ⟨t, es, by rw [h]⟩
    | file c pm t => simp [dirPermOf] at h
    | symlink r => simp [dirPermOf] at h
    | fifo pm t => simp [dirPermOf] at h
    | socket pm t => simp [dirPermOf] at h

theorem resolve_baseName {n : Bytes} (h : IsBaseName n) (fs : FS) :
    fs.resolve n =
      if 0 ∈ n then .error .einval
      else if pathMax ≤ n.length then .error .enametoolong
      else
        match fs.get fs.cwd with
        | some (.dir perm _ _) =>
          if fs.maySearch perm = false then .error .eacces
          else if nameMax < n.length then .error .enametoolong
          else .ok (fs.cwd ++ [n])
        | some (.symlink _) => .error .eloop
        | some _ => .error .enotdir
        | none => .error .enoent := by
  have hhead : n.head? ≠ some 47 := by
    intro hh
    cases n with
    | nil => simp at hh
    | cons b rest =>
      simp at hh
      exact h.2.1 (by simp [hh])
  unfold FS.resolve
  rw [if_neg h.1, if_neg hhead, components_baseName h]
  unfold walk FS.get FS.maySearch
  rcases hg : getAt fs.cwd (some fs.root) with _ | node
  · rfl
  · cases node <;> simp [h.2.2.1, h.2.2.2, walk]

theorem resolve_baseName_of {n : Bytes} (h : IsBaseName n) (hv : ValidName n) (fs : FS)
    (hd : fs.searchAt fs.cwd) : fs.resolve n = .ok (fs.cwd ++ [n]) := by
  obtain ⟨perm, hp, hs⟩ := hd
  obtain ⟨t, es, hg⟩ := dirPermOf_eq_some hp
  have hv2 : ¬ nameMax < n.length := Nat.not_lt.mpr hv.2
  have hv3 : ¬ pathMax ≤ n.length := by
    have := hv.2
    unfold nameMax at this
    unfold pathMax
    omega
  rw [resolve_baseName h, if_neg hv.1, if_neg hv3, hg]
  simp only [hs, if_neg hv2]
  simp

theorem resolve_baseName_ok {n : Bytes} (h : IsBaseName n) (fs : FS) {q : List Bytes}
    (hq : fs.resolve n = .ok q) : q = fs.cwd ++ [n] ∧ fs.searchAt fs.cwd ∧ ValidName n := by
  rw [resolve_baseName h] at hq
  by_cases h0 : 0 ∈ n
  · rw [if_pos h0] at hq; simp at hq
  · rw [if_neg h0] at hq
    by_cases h1 : pathMax ≤ n.length
    · rw [if_pos h1] at hq; simp at hq
    · rw [if_neg h1] at hq
      rcases hg : fs.get fs.cwd with _ | node
      · rw [hg] at hq; simp at hq
      · rw [hg] at hq
        cases node with
        | dir p t es =>
          simp only at hq
          by_cases h2 : fs.maySearch p = false
          · rw [if_pos h2] at hq; simp at hq
          · rw [if_neg h2] at hq
            by_cases h3 : nameMax < n.length
            · rw [if_pos h3] at hq; simp at hq
            · rw [if_neg h3] at hq
              simp only [Except.ok.injEq] at hq
              refine ⟨hq.symm, ⟨p, ?_, ?_⟩, h0, Nat.not_lt.mp h3⟩
              · simp [FS.dirPerm, hg, dirPermOf]
              · simpa using h2
        | file c p t => simp at hq
        | symlink r => simp at hq
        | fifo p t => simp at hq
        | socket p t => simp at hq

theorem lookupEntry_dropEntry_self (n : Bytes) (es : List (Bytes × Node)) :
    lookupEntry n (dropEntry n es) = none := by
  induction es with
  | nil => rfl
  | cons e rest ih =>
    rcases e with ⟨k, x⟩
    by_cases hk : k = n
    · simp [dropEntry, hk, ih]
    · simp [dropEntry, hk, lookupEntry, ih]

theorem lookupEntry_dropEntry_ne {a n : Bytes} (h : a ≠ n) (es : List (Bytes × Node)) :
    lookupEntry a (dropEntry n es) = lookupEntry a es := by
  induction es with
  | nil => rfl
  | cons e rest ih =>
    rcases e with ⟨k, x⟩
    by_cases hk : k = n
    · subst hk
      simp only [dropEntry, lookupEntry, if_true, if_neg (Ne.symm h)]
      exact ih
    · by_cases hka : k = a
      · subst hka
        simp only [dropEntry, if_neg hk, lookupEntry, if_true]
      · simp only [dropEntry, if_neg hk, lookupEntry, if_neg hka]
        exact ih

theorem lookupEntry_alterEntry (f : Option Node → Option Node) (n : Bytes)
    (es : List (Bytes × Node)) :
    lookupEntry n (alterEntry f n es) = f (lookupEntry n es) := by
  induction es with
  | nil =>
    simp only [alterEntry, lookupEntry]
    cases f none <;> simp [lookupEntry]
  | cons e rest ih =>
    rcases e with ⟨k, x⟩
    by_cases hk : k = n
    · subst hk
      simp only [alterEntry, lookupEntry, if_true]
      cases f (some x) <;> simp [lookupEntry, lookupEntry_dropEntry_self]
    · simp [alterEntry, lookupEntry, hk, ih]

theorem lookupEntry_alterEntry_ne (f : Option Node → Option Node) {a n : Bytes} (h : a ≠ n)
    (es : List (Bytes × Node)) :
    lookupEntry a (alterEntry f n es) = lookupEntry a es := by
  induction es with
  | nil =>
    simp only [alterEntry, lookupEntry]
    cases f none
    · rfl
    · simp [lookupEntry, Ne.symm h]
  | cons e rest ih =>
    rcases e with ⟨k, x⟩
    by_cases hk : k = n
    · subst hk
      have hka : k ≠ a := Ne.symm h
      simp only [alterEntry, lookupEntry, if_true, if_neg hka]
      cases f (some x)
      · simp [lookupEntry_dropEntry_ne h]
      · simp [lookupEntry, hka, lookupEntry_dropEntry_ne h]
    · by_cases hka : k = a
      · subst hka
        simp only [alterEntry, if_neg hk, lookupEntry, if_true]
      · simp only [alterEntry, if_neg hk, lookupEntry, if_neg hka]
        exact ih

theorem getAt_none (q : List Bytes) : getAt q none = none := by
  cases q <;> rfl

theorem getAt_append (p q : List Bytes) (o : Option Node) :
    getAt (p ++ q) o = getAt q (getAt p o) := by
  induction p generalizing o with
  | nil => rfl
  | cons a rest ih =>
    cases o with
    | none => cases q <;> simp [getAt]
    | some node =>
      cases node with
      | dir pm t es => simp only [List.cons_append, getAt]; exact ih _
      | file c pm t => cases q <;> simp [getAt]
      | symlink r => cases q <;> simp [getAt]
      | fifo pm t => cases q <;> simp [getAt]
      | socket pm t => cases q <;> simp [getAt]

theorem getAt_alterAt (touch : Option Int) (f : Option Node → Option Node) (p : List Bytes)
    (o : Option Node) (h : DirChain p o) :
    getAt p (alterAt touch f p o) = f (getAt p o) := by
  induction p generalizing o with
  | nil => rfl
  | cons n rest ih =>
    cases o with
    | none => simp [DirChain] at h
    | some node =>
      cases node with
      | dir pm t es =>
        simp only [DirChain] at h
        simp only [alterAt, getAt, lookupEntry_alterEntry]
        exact ih _ h
      | file c pm t => simp [DirChain] at h
      | symlink r => simp [DirChain] at h
      | fifo pm t => simp [DirChain] at h
      | socket pm t => simp [DirChain] at h

theorem dirChain_alterAt (touch : Option Int) (f : Option Node → Option Node) (p : List Bytes)
    (o : Option Node) (h : DirChain p o) : DirChain p (alterAt touch f p o) := by
  induction p generalizing o with
  | nil => trivial
  | cons n rest ih =>
    cases o with
    | none => simp [DirChain] at h
    | some node =>
      cases node with
      | dir pm t es =>
        simp only [DirChain] at h
        simp only [alterAt, DirChain, lookupEntry_alterEntry]
        exact ih _ h
      | file c pm t => simp [DirChain] at h
      | symlink r => simp [DirChain] at h
      | fifo pm t => simp [DirChain] at h
      | socket pm t => simp [DirChain] at h

theorem dirChain_of_getAt (p : List Bytes) (o : Option Node) (node : Node)
    (h : getAt p o = some node) : DirChain p o := by
  induction p generalizing o with
  | nil => trivial
  | cons a rest ih =>
    cases o with
    | none => simp [getAt] at h
    | some x =>
      cases x with
      | dir pm t es =>
        simp only [getAt] at h
        simp only [DirChain]
        exact ih _ h
      | file c pm t => simp [getAt] at h
      | symlink r => simp [getAt] at h
      | fifo pm t => simp [getAt] at h
      | socket pm t => simp [getAt] at h

theorem dirChain_snoc (q : List Bytes) (n : Bytes) (o : Option Node) (pm : Nat) (t : Int)
    (es : List (Bytes × Node)) (h : getAt q o = some (.dir pm t es)) : DirChain (q ++ [n]) o := by
  induction q generalizing o with
  | nil =>
    simp only [getAt] at h
    subst h
    simp [DirChain]
  | cons a rest ih =>
    cases o with
    | none => simp [getAt] at h
    | some node =>
      cases node with
      | dir pm2 t2 es2 =>
        simp only [getAt] at h
        simp only [List.cons_append, DirChain]
        exact ih _ h
      | file c pm2 t2 => simp [getAt] at h
      | symlink r => simp [getAt] at h
      | fifo pm2 t2 => simp [getAt] at h
      | socket pm2 t2 => simp [getAt] at h

/-- An update at a path leaves every directory that does not stand at the
path or below it, with its permission bits. -/
theorem dirPermOf_alterAt_off (touch : Option Int) (f : Option Node → Option Node)
    (p c : List Bytes) (o : Option Node) (h : ∀ x, c ≠ p ++ x) :
    dirPermOf (getAt c (alterAt touch f p o)) = dirPermOf (getAt c o) := by
  induction p generalizing c o with
  | nil => exact absurd rfl (h c)
  | cons n rest ih =>
    cases o with
    | none => rfl
    | some node =>
      cases node with
      | dir pm t es =>
        cases c with
        | nil => rfl
        | cons a c2 =>
          simp only [alterAt, getAt]
          by_cases ha : a = n
          · subst ha
            rw [lookupEntry_alterEntry]
            apply ih
            intro x hx
            exact h x (by rw [hx]; rfl)
          · rw [lookupEntry_alterEntry_ne _ ha]
      | file c2 pm t => rfl
      | symlink r => rfl
      | fifo pm t => rfl
      | socket pm t => rfl

theorem dirPermOf_below (p x : List Bytes) (o : Option Node)
    (h : dirPermOf (getAt p o) = none) : dirPermOf (getAt (p ++ x) o) = none := by
  rw [getAt_append]
  cases x with
  | nil => exact h
  | cons a rest =>
    rcases hg : getAt p o with _ | node
    · rfl
    · rw [hg] at h
      cases node with
      | dir pm t es => simp [dirPermOf] at h
      | file c pm t => rfl
      | symlink r => rfl
      | fifo pm t => rfl
      | socket pm t => rfl

theorem alterAt_some (touch : Option Int) (f : Option Node → Option Node) (p : List Bytes)
    (hp : p ≠ []) (node : Node) : ∃ r, alterAt touch f p (some node) = some r := by
  cases p with
  | nil => exact absurd rfl hp
  | cons n rest => cases node <;> exact ⟨_, rfl⟩

theorem alter_get (fs : FS) (touch : Option Int) (f : Option Node → Option Node)
    (p q : List Bytes) (hp : p ≠ []) :
    (fs.alter touch f p).get q = getAt q (alterAt touch f p (some fs.root)) := by
  obtain ⟨r, hr⟩ := alterAt_some touch f p hp fs.root
  simp [FS.alter, FS.get, hr]

theorem alter_cwd (fs : FS) (touch : Option Int) (f : Option Node → Option Node)
    (p : List Bytes) : (fs.alter touch f p).cwd = fs.cwd := by
  unfold FS.alter; split <;> rfl

theorem alter_now (fs : FS) (touch : Option Int) (f : Option Node → Option Node)
    (p : List Bytes) : (fs.alter touch f p).now = fs.now := by
  unfold FS.alter; split <;> rfl

theorem alter_umask (fs : FS) (touch : Option Int) (f : Option Node → Option Node)
    (p : List Bytes) : (fs.alter touch f p).umask = fs.umask := by
  unfold FS.alter; split <;> rfl

theorem alter_superuser (fs : FS) (touch : Option Int) (f : Option Node → Option Node)
    (p : List Bytes) : (fs.alter touch f p).superuser = fs.superuser := by
  unfold FS.alter; split <;> rfl

theorem alter_growLimit (fs : FS) (touch : Option Int) (f : Option Node → Option Node)
    (p : List Bytes) : (fs.alter touch f p).growLimit = fs.growLimit := by
  unfold FS.alter; split <;> rfl

theorem alter_timeMin (fs : FS) (touch : Option Int) (f : Option Node → Option Node)
    (p : List Bytes) : (fs.alter touch f p).timeMin = fs.timeMin := by
  unfold FS.alter; split <;> rfl

theorem alter_timeMax (fs : FS) (touch : Option Int) (f : Option Node → Option Node)
    (p : List Bytes) : (fs.alter touch f p).timeMax = fs.timeMax := by
  unfold FS.alter; split <;> rfl

theorem alter_refuses (fs : FS) (touch : Option Int) (f : Option Node → Option Node)
    (p : List Bytes) : (fs.alter touch f p).refuses = fs.refuses := by
  unfold FS.alter; split <;> rfl

/-- What an update at a path leaves under the path. -/
theorem alter_get_self (fs : FS) (touch : Option Int) (f : Option Node → Option Node)
    (p : List Bytes) (hp : p ≠ []) (hc : DirChain p (some fs.root)) :
    (fs.alter touch f p).get p = f (fs.get p) := by
  rw [alter_get fs touch f p p hp]
  exact getAt_alterAt touch f p _ hc

theorem alter_dirChain (fs : FS) (touch : Option Int) (f : Option Node → Option Node)
    (p : List Bytes) (hp : p ≠ []) (hc : DirChain p (some fs.root)) :
    DirChain p (some (fs.alter touch f p).root) := by
  obtain ⟨r, hr⟩ := alterAt_some touch f p hp fs.root
  have h2 := dirChain_alterAt touch f p _ hc
  rw [hr] at h2
  simpa [FS.alter, hr] using h2

theorem alter_dirPerm_off (fs : FS) (touch : Option Int) (f : Option Node → Option Node)
    (p c : List Bytes) (h : ∀ x, c ≠ p ++ x) :
    (fs.alter touch f p).dirPerm c = fs.dirPerm c := by
  have hp : p ≠ [] := fun hp => h c (by rw [hp]; rfl)
  unfold FS.dirPerm
  rw [alter_get fs touch f p c hp]
  exact dirPermOf_alterAt_off touch f p c _ h

theorem keeps_refl (fs : FS) : fs.Keeps fs :=
  ⟨rfl, rfl, rfl, rfl, rfl, rfl, rfl, rfl, fun _ _ h => h⟩

theorem keeps_trans {fs fs1 fs2 : FS} (h1 : fs.Keeps fs1) (h2 : fs1.Keeps fs2) :
    fs.Keeps fs2 := by
  obtain ⟨a1, a2, a3, a4, a5, a6, a7, a8, a9⟩ := h1
  obtain ⟨b1, b2, b3, b4, b5, b6, b7, b8, b9⟩ := h2
  exact ⟨by rw [b1, a1], by rw [b2, a2], by rw [b3, a3], by rw [b4, a4], by rw [b5, a5],
    by rw [b6, a6], by rw [b7, a7], by rw [b8, a8], fun c perm h => b9 c perm (a9 c perm h)⟩

/-- An update at a path where no directory stands keeps every directory. -/
theorem alter_keeps (fs : FS) (touch : Option Int) (f : Option Node → Option Node)
    (p : List Bytes) (h : fs.dirPerm p = none) : fs.Keeps (fs.alter touch f p) := by
  refine ⟨alter_cwd _ _ _ _, alter_now _ _ _ _, alter_umask _ _ _ _, alter_superuser _ _ _ _,
    alter_growLimit _ _ _ _, alter_timeMin _ _ _ _, alter_timeMax _ _ _ _,
    alter_refuses _ _ _ _, ?_⟩
  intro c perm hc
  rw [alter_dirPerm_off fs touch f p c]
  · exact hc
  · intro x hx
    subst hx
    have := dirPermOf_below p x (some fs.root) h
    unfold FS.dirPerm FS.get at hc
    rw [this] at hc
    simp at hc

/-- An update at a path that leaves no directory there has made none. -/
theorem alter_keeps_back (fs : FS) (touch : Option Int) (f : Option Node → Option Node)
    (p : List Bytes) (h : (fs.alter touch f p).dirPerm p = none) :
    (fs.alter touch f p).Keeps fs := by
  refine ⟨(alter_cwd _ _ _ _).symm, (alter_now _ _ _ _).symm, (alter_umask _ _ _ _).symm,
    (alter_superuser _ _ _ _).symm, (alter_growLimit _ _ _ _).symm,
    (alter_timeMin _ _ _ _).symm, (alter_timeMax _ _ _ _).symm,
    (alter_refuses _ _ _ _).symm, ?_⟩
  intro c perm hc
  rw [← alter_dirPerm_off fs touch f p c]
  · exact hc
  · intro x hx
    subst hx
    have := dirPermOf_below p x (some (fs.alter touch f p).root) h
    unfold FS.dirPerm FS.get at hc
    rw [this] at hc
    simp at hc

theorem walk_mono (su : Bool) (r1 r2 : Node)
    (h : ∀ c perm, dirPermOf (getAt c (some r1)) = some perm →
      dirPermOf (getAt c (some r2)) = some perm)
    (comps : List Bytes) (cur q : List Bytes) (hw : walk su r1 cur comps = .ok q) :
    walk su r2 cur comps = .ok q := by
  induction comps generalizing cur with
  | nil => exact hw
  | cons comp rest ih =>
    unfold walk at hw ⊢
    rcases hg : getAt cur (some r1) with _ | node
    · rw [hg] at hw; simp at hw
    · rw [hg] at hw
      cases node with
      | dir pm t es =>
        obtain ⟨t2, es2, hg2⟩ := dirPermOf_eq_some (h cur pm (by rw [hg]; rfl))
        rw [hg2]
        simp only at hw ⊢
        by_cases h1 : (su || ownerSearch pm) = false
        · rw [if_pos h1] at hw; simp at hw
        · rw [if_neg h1] at hw ⊢
          by_cases h2 : nameMax < comp.length
          · rw [if_pos h2] at hw; simp at hw
          · rw [if_neg h2] at hw ⊢
            by_cases h3 : comp = [46]
            · rw [if_pos h3] at hw ⊢
              exact ih _ hw
            · rw [if_neg h3] at hw ⊢
              by_cases h4 : comp = [46, 46]
              · rw [if_pos h4] at hw ⊢
                exact ih _ hw
              · rw [if_neg h4] at hw ⊢
                exact ih _ hw
      | file c pm t => simp at hw
      | symlink r => simp at hw
      | fifo pm t => simp at hw
      | socket pm t => simp at hw

/-- A path name that resolves keeps its meaning in a file system that keeps
every directory. -/
theorem resolve_mono {fs fs1 : FS} (hk : fs.Keeps fs1) {path : Bytes} {q : List Bytes}
    (h : fs.resolve path = .ok q) : fs1.resolve path = .ok q := by
  obtain ⟨h1, _, _, h4, _, _, _, _, h7⟩ := hk
  unfold FS.resolve at h ⊢
  by_cases c1 : path = []
  · rw [if_pos c1] at h; simp at h
  · rw [if_neg c1] at h ⊢
    by_cases c2 : 0 ∈ path
    · rw [if_pos c2] at h; simp at h
    · rw [if_neg c2] at h ⊢
      by_cases c3 : pathMax ≤ path.length
      · rw [if_pos c3] at h; simp at h
      · rw [if_neg c3] at h ⊢
        rw [h1, h4]
        exact walk_mono _ _ _ h7 _ _ _ h

/-! ## The file system: what a call that succeeded has done -/

theorem resolve_ne_nil {fs : FS} {path : Bytes} {p : List Bytes}
    (h : fs.resolve path = .ok p) : path ≠ [] := by
  intro hp
  unfold FS.resolve at h
  rw [if_pos hp] at h
  simp at h

theorem lstat_ok_inv {fs : FS} {path : Bytes} {node : Node} (h : fs.lstat path = .ok node) :
    ∃ p, fs.resolve path = .ok p ∧ fs.refuses .lstat p = none ∧ fs.get p = some node := by
  unfold FS.lstat at h
  rcases hr : fs.resolve path with e | p
  · rw [hr] at h; simp at h
  · rw [hr] at h
    simp only at h
    rcases hf : fs.refuses .lstat p with _ | e
    · rw [hf] at h
      simp only at h
      rcases hg : fs.get p with _ | x
      · rw [hg] at h; simp at h
      · rw [hg] at h
        simp only at h
        refine ⟨p, rfl, hf, ?_⟩
        by_cases hs : endsInSlash path = true
        · rw [if_pos hs] at h
          cases x with
          | dir pm t es => simp only [Except.ok.injEq] at h; rw [← h]; exact hg
          | file c pm t => simp at h
          | symlink r => simp at h
          | fifo pm t => simp at h
          | socket pm t => simp at h
        · rw [if_neg hs] at h
          simp only [Except.ok.injEq] at h
          rw [← h]
          exact hg
    · rw [hf] at h; simp at h

theorem openFile_ok_inv {fs fs1 : FS} {path : Bytes} {fh : List Bytes}
    (h : fs.openFile path = .ok (fh, fs1)) :
    fs.resolve path = .ok fh ∧ endsInSlash path = false ∧
    ((fs.get fh = none ∧ fs1 = fs.alter (some fs.now)
        (fun _ => some (.file [] (applyUmask fs.umask 511) fs.now)) fh) ∨
      (∃ c pm t, fs.get fh = some (.file c pm t) ∧ fs1 = fs)) := by
  unfold FS.openFile at h
  rcases hr : fs.resolve path with e | p
  · rw [hr] at h; simp at h
  · rw [hr] at h
    simp only at h
    rcases hf : fs.refuses .openFile p with _ | e
    · rw [hf] at h
      simp only at h
      by_cases hs : endsInSlash path = true
      · rw [if_pos hs] at h; simp at h
      · rw [if_neg hs] at h
        have hs2 : endsInSlash path = false := by simpa using hs
        rcases hg : fs.get p with _ | x
        · rw [hg] at h
          simp only at h
          by_cases hw : fs.mayWriteDir p.dropLast = true
          · rw [if_pos hw] at h
            simp only [Except.ok.injEq, Prod.mk.injEq] at h
            obtain ⟨h1, h2⟩ := h
            subst h1
            exact ⟨rfl, hs2, Or.inl ⟨hg, h2.symm⟩⟩
          · rw [if_neg hw] at h; simp at h
        · rw [hg] at h
          cases x with
          | file c pm t =>
            simp only at h
            by_cases hw : (fs.mayRead pm && fs.mayWrite pm) = true
            · rw [if_pos hw] at h
              simp only [Except.ok.injEq, Prod.mk.injEq] at h
              obtain ⟨h1, h2⟩ := h
              subst h1
              exact ⟨rfl, hs2, Or.inr ⟨c, pm, t, hg, h2.symm⟩⟩
            · rw [if_neg hw] at h; simp at h
          | dir pm t es => simp at h
          | symlink r => simp at h
          | fifo pm t => simp at h
          | socket pm t => simp at h
    · rw [hf] at h; simp at h

theorem write_ok_inv {fs fs1 : FS} {fh : List Bytes} {data : Bytes} {c : Nat}
    (h : fs.write fh data = .ok (c, fs1)) :
    c = data.length ∧
    fs1 = fs.alter none (fun o =>
      match o with
      | some (.file old perm _) => some (.file (data ++ old.drop data.length) perm fs.now)
      | other => other) fh := by
  unfold FS.write at h
  rcases hf : fs.refuses .write fh with _ | e
  · rw [hf] at h
    simp only [Except.ok.injEq, Prod.mk.injEq] at h
    exact ⟨h.1.symm, h.2.symm⟩
  · rw [hf] at h; simp at h

theorem truncate_ok_inv {fs fs1 : FS} {fh : List Bytes} {len : Nat}
    (h : fs.truncate fh len = .ok fs1) :
    fs1 = fs.alter none (fun o =>
      match o with
      | some (.file old perm _) =>
        some (.file (old.take len ++ List.replicate (len - old.length) 0) perm fs.now)
      | other => other) fh := by
  unfold FS.truncate at h
  rcases hf : fs.refuses .truncate fh with _ | e
  · rw [hf] at h
    simp only [Except.ok.injEq] at h
    exact h.symm
  · rw [hf] at h; simp at h

theorem fchmod_ok_inv {fs fs1 : FS} {fh : List Bytes} {perm : Nat}
    (h : fs.fchmod fh perm = .ok fs1) :
    fs1 = fs.alter none (fun o =>
      match o with
      | some (.file content _ t) => some (.file content (perm % 512) t)
      | other => other) fh := by
  unfold FS.fchmod at h
  rcases hf : fs.refuses .fchmod fh with _ | e
  · rw [hf] at h
    simp only [Except.ok.injEq] at h
    exact h.symm
  · rw [hf] at h; simp at h

theorem setTimes_ok_inv {fs fs1 : FS} {p : List Bytes} {t : Int}
    (h : fs.setTimes p t = .ok fs1) :
    fs1 = fs.alter none (Option.map (Node.setTimes (fs.chtimesStored t))) p := by
  unfold FS.setTimes at h
  rcases hf : fs.refuses .chtimes p with _ | e
  · rw [hf] at h
    simp only at h
    rcases hg : fs.get p with _ | x
    · rw [hg] at h; simp at h
    · rw [hg] at h
      cases x <;> simp at h <;> exact h.symm
  · rw [hf] at h; simp at h

theorem chtimes_ok_inv {fs fs1 : FS} {path : Bytes} {t : Int}
    (h : fs.chtimes path t = .ok fs1) :
    ∃ p, fs.resolve path = .ok p ∧
      fs1 = fs.alter none (Option.map (Node.setTimes (fs.chtimesStored t))) p := by
  unfold FS.chtimes at h
  rcases hr : fs.resolve path with e | p
  · rw [hr] at h; simp at h
  · rw [hr] at h
    simp only at h
    refine ⟨p, rfl, ?_⟩
    split at h
    · exact setTimes_ok_inv h
    · split at h
      · simp at h
      · exact setTimes_ok_inv h

theorem mkdir_ok_inv {fs fs1 : FS} {path : Bytes} {mode : Nat}
    (h : fs.mkdir path mode = .ok fs1) :
    ∃ p, fs.resolve path = .ok p ∧ fs.get p = none ∧
      fs1 = fs.alter (some fs.now)
        (fun _ => some (.dir (applyUmask fs.umask mode) fs.now [])) p := by
  unfold FS.mkdir at h
  rcases hr : fs.resolve path with e | p
  · rw [hr] at h; simp at h
  · rw [hr] at h
    simp only at h
    rcases hf : fs.refuses .mkdir p with _ | e
    · rw [hf] at h
      simp only at h
      rcases hg : fs.get p with _ | x
      · rw [hg] at h
        simp only at h
        by_cases hw : fs.mayWriteDir p.dropLast = true
        · rw [if_pos hw] at h
          simp only [Except.ok.injEq] at h
          exact ⟨p, rfl, hg, h.symm⟩
        · rw [if_neg hw] at h; simp at h
      · rw [hg] at h; simp at h
    · rw [hf] at h; simp at h

theorem remove_ok_inv {fs fs1 : FS} {path : Bytes} (h : fs.remove path = .ok fs1) :
    ∃ p, fs.resolve path = .ok p ∧ p ≠ [] ∧ (∃ node, fs.get p = some node) ∧
      fs1 = fs.alter (some fs.now) (fun _ => none) p := by
  unfold FS.remove at h
  by_cases c1 : lastComponent path = [46]
  · rw [if_pos c1] at h; simp at h
  · rw [if_neg c1] at h
    by_cases c2 : lastComponent path = [46, 46]
    · rw [if_pos c2] at h; simp at h
    · rw [if_neg c2] at h
      rcases hr : fs.resolve path with e | p
      · rw [hr] at h; simp at h
      · rw [hr] at h
        simp only at h
        rcases hf : fs.refuses .remove p with _ | e
        · rw [hf] at h
          simp only at h
          rcases hg : fs.get p with _ | x
          · rw [hg] at h; simp at h
          · rw [hg] at h
            simp only at h
            by_cases c3 : p = []
            · rw [if_pos c3] at h; simp at h
            · rw [if_neg c3] at h
              by_cases c4 : fs.mayWriteDir p.dropLast = false
              · rw [if_pos c4] at h; simp at h
              · rw [if_neg c4] at h
                refine ⟨p, rfl, c3, ⟨x, hg⟩, ?_⟩
                split at h
                · simp at h
                · simp only [Except.ok.injEq] at h
                  exact h.symm
                · split at h
                  · simp at h
                  · simp only [Except.ok.injEq] at h
                    exact h.symm
        · rw [hf] at h; simp at h

theorem enter_ok_inv {fs fs1 : FS} {p : List Bytes} (h : fs.enter p = .ok fs1) :
    fs1 = { fs with cwd := p } ∧ ∃ perm t es, fs.get p = some (.dir perm t es) := by
  unfold FS.enter at h
  rcases hf : fs.refuses .chdir p with _ | e
  · rw [hf] at h
    simp only at h
    rcases hg : fs.get p with _ | x
    · rw [hg] at h; simp at h
    · rw [hg] at h
      cases x with
      | dir pm t es =>
        simp only at h
        by_cases hs : fs.maySearch pm = true
        · rw [if_pos hs] at h
          simp only [Except.ok.injEq] at h
          exact ⟨h.symm, pm, t, es, rfl⟩
        · rw [if_neg hs] at h; simp at h
      | file c pm t => simp at h
      | symlink r => simp at h
      | fifo pm t => simp at h
      | socket pm t => simp at h
  · rw [hf] at h; simp at h

theorem chdir_ok_inv {fs fs1 : FS} {path : Bytes} (h : fs.chdir path = .ok fs1) :
    ∃ p, fs.resolve path = .ok p ∧ fs1 = { fs with cwd := p } ∧
      ∃ perm t es, fs.get p = some (.dir perm t es) := by
  unfold FS.chdir at h
  rcases hr : fs.resolve path with e | p
  · rw [hr] at h; simp at h
  · rw [hr] at h
    exact ⟨p, rfl, enter_ok_inv h⟩

theorem removeAll_none_inv {fs fs1 : FS} {path : Bytes} {p : List Bytes} {node : Node}
    (hr : fs.resolve path = .ok p) (hg : fs.get p = some node)
    (h : fs.removeAll path = (none, fs1)) :
    fs1 = fs.alter (some fs.now) (fun _ => none) p ∧ p ≠ [] := by
  unfold FS.removeAll at h
  rw [if_neg (resolve_ne_nil hr)] at h
  by_cases c1 : lastComponent path = [46]
  · rw [if_pos c1] at h; simp at h
  · rw [if_neg c1, hr] at h
    simp only at h
    rcases hf : fs.refuses .removeAll p with _ | e
    · rw [hf, hg] at h
      simp only at h
      by_cases c2 : p = [] ∨ lastComponent path = [46, 46]
      · rw [if_pos c2] at h; simp at h
      · rw [if_neg c2] at h
        by_cases c3 : fs.mayWriteDir p.dropLast = false
        · rw [if_pos c3] at h; simp at h
        · rw [if_neg c3] at h
          rcases ht : removeTree fs.superuser fs.now node with _ | left
          · rw [ht] at h
            simp only [Prod.mk.injEq, true_and] at h
            exact ⟨h.symm, fun hp => c2 (Or.inl hp)⟩
          · rw [ht] at h; simp at h
    · rw [hf] at h; simp at h

/-! ## The file system: the calls of `decodeFile` -/

theorem dirPerm_of_file {fs : FS} {p : List Bytes} {c : Bytes} {pm : Nat} {t : Int}
    (h : fs.get p = some (.file c pm t)) : fs.dirPerm p = none := by
  simp [FS.dirPerm, h, dirPermOf]

theorem dirPerm_of_none {fs : FS} {p : List Bytes} (h : fs.get p = none) :
    fs.dirPerm p = none := by
  simp [FS.dirPerm, h, dirPermOf]

theorem quiet_of_keeps {fs fs1 : FS} (hk : fs.Keeps fs1) (hq : fs.Quiet) : fs1.Quiet := by
  intro call p
  rw [hk.refuses]
  exact hq call p

/-- An update at a path where no directory stands: the new entry, the
directories that lead to it, and every other directory as it was. -/
theorem alter_file_step (fs : FS) (touch : Option Int) (f : Option Node → Option Node)
    (p : List Bytes) (hp : p ≠ []) (hc : DirChain p (some fs.root))
    (hnd : fs.dirPerm p = none) :
    (fs.alter touch f p).get p = f (fs.get p) ∧
    DirChain p (some (fs.alter touch f p).root) ∧
    fs.Keeps (fs.alter touch f p) :=
  ⟨alter_get_self fs touch f p hp hc, alter_dirChain fs touch f p hp hc,
    alter_keeps fs touch f p hnd⟩

theorem take_append_replicate (data old : Bytes) :
    (data ++ old.drop data.length).take data.length
      ++ List.replicate (data.length - (data ++ old.drop data.length).length) 0 = data := by
  simp

/-- What writing, cutting and `Chmod` leave of a file that `os.OpenFile` has
opened or made: the content written and the permission bits asked for. -/
theorem fill_chain {fs fs1 fs2 fs3 fs4 : FS} {p : List Bytes} {content : Bytes} {c mode : Nat}
    (hp : p ≠ []) (hc : DirChain p (some fs.root)) (hnd : fs.dirPerm p = none)
    (hopen : (fs.get p = none ∧ fs1 = fs.alter (some fs.now)
        (fun _ => some (.file [] (applyUmask fs.umask 511) fs.now)) p) ∨
      (∃ old pm t, fs.get p = some (.file old pm t) ∧ fs1 = fs))
    (hw : fs1.write p content = .ok (c, fs2)) (ht : fs2.truncate p c = .ok fs3)
    (hm : fs3.fchmod p mode = .ok fs4) :
    c = content.length ∧ fs4.get p = some (.file content (mode % 512) fs.now) ∧
    DirChain p (some fs4.root) ∧ fs.Keeps fs4 := by
  have h1 : ∃ old pm t, fs1.get p = some (.file old pm t) ∧ DirChain p (some fs1.root) ∧
      fs.Keeps fs1 := by
    rcases hopen with ⟨_, he⟩ | ⟨old, pm, t, hg, he⟩
    · obtain ⟨a, b, k⟩ := alter_file_step fs (some fs.now)
        (fun _ => some (.file [] (applyUmask fs.umask 511) fs.now)) p hp hc hnd
      rw [← he] at a b k
      exact ⟨_, _, _, a, b, k⟩
    · rw [he]
      exact ⟨old, pm, t, hg, hc, keeps_refl fs⟩
  obtain ⟨old, pm, t, hg1, hc1, hk1⟩ := h1
  obtain ⟨hcl, he2⟩ := write_ok_inv hw
  obtain ⟨a2, hc2, k2⟩ := alter_file_step fs1 none (fun o =>
      match o with
      | some (.file old perm _) => some (.file (content ++ old.drop content.length) perm fs1.now)
      | other => other) p hp hc1 (dirPerm_of_file hg1)
  rw [← he2, hg1] at a2
  rw [← he2] at hc2 k2
  simp only at a2
  have he3 := truncate_ok_inv ht
  obtain ⟨a3, hc3, k3⟩ := alter_file_step fs2 none (fun o =>
      match o with
      | some (.file old perm _) =>
        some (.file (old.take c ++ List.replicate (c - old.length) 0) perm fs2.now)
      | other => other) p hp hc2 (dirPerm_of_file a2)
  rw [← he3, a2] at a3
  rw [← he3] at hc3 k3
  simp only at a3
  rw [hcl, take_append_replicate] at a3
  have he4 := fchmod_ok_inv hm
  obtain ⟨a4, hc4, k4⟩ := alter_file_step fs3 none (fun o =>
      match o with
      | some (.file content _ t) => some (.file content (mode % 512) t)
      | other => other) p hp hc3 (dirPerm_of_file a3)
  rw [← he4, a3] at a4
  rw [← he4] at hc4 k4
  simp only at a4
  have hk : fs.Keeps fs4 := keeps_trans (keeps_trans (keeps_trans hk1 k2) k3) k4
  refine ⟨hcl, ?_, hc4, hk⟩
  rw [a4, k2.now, hk1.now]

/-- The calls of `decodeFileWrite` when it returns nil. -/
theorem decodeFileWrite_ok_inv {h : FileHeader} {content : Bytes} {fs : FS}
    (hok : (decodeFileWrite h content fs).2 = .ok) :
    ∃ fh fs1 c fs2 fs3 fs4 fs5, fs.openFile h.targetBase = .ok (fh, fs1) ∧
      fs1.write fh content = .ok (c, fs2) ∧ fs2.truncate fh c = .ok fs3 ∧
      fs3.fchmod fh (h.mode % 512) = .ok fs4 ∧ fs4.chtimes h.targetBase h.mtime = .ok fs5 ∧
      decodeFileWrite h content fs = (fs5, .ok) := by
  unfold decodeFileWrite at hok
  rcases ho : fs.openFile h.targetBase with e | ⟨fh, fs1⟩
  · rw [ho] at hok; simp at hok
  · rw [ho] at hok
    simp only at hok
    rcases hw : fs1.write fh content with e | ⟨c, fs2⟩
    · rw [hw] at hok; simp at hok
    · rw [hw] at hok
      simp only at hok
      by_cases hs : (c : Int) < int64OfBits h.size
      · rw [if_pos hs] at hok; simp at hok
      · rw [if_neg hs] at hok
        rcases ht : fs2.truncate fh c with e | fs3
        · rw [ht] at hok; simp at hok
        · rw [ht] at hok
          simp only at hok
          rcases hm : fs3.fchmod fh (h.mode % 512) with e | fs4
          · rw [hm] at hok; simp at hok
          · rw [hm] at hok
            simp only at hok
            rcases hcl : fs4.close fh with _ | e
            · rw [hcl] at hok
              simp only at hok
              rcases hch : fs4.chtimes h.targetBase h.mtime with e | fs5
              · rw [hch] at hok; simp at hok
              · refine ⟨fh, fs1, c, fs2, fs3, fs4, fs5, rfl, hw, ht, hm, hch, ?_⟩
                unfold decodeFileWrite
                rw [ho]
                simp only
                rw [hw]
                simp only
                rw [if_neg hs, ht]
                simp only
                rw [hm]
                simp only
                rw [hcl]
                simp only
                rw [hch]
            · rw [hcl] at hok; simp at hok

/-- When `decodeFileWrite` returns nil for a name that resolves to a path
where no directory stands, a regular file stands there with exactly the
content of the payload and the permission bits of the mode; its modification
time is the one `os.Chtimes` makes of the time of the message. Every directory
is as it was. -/
theorem decodeFileWrite_ok (h : FileHeader) (content : Bytes) (fs : FS) (p : List Bytes)
    (hres : fs.resolve h.targetBase = .ok p) (hp : p ≠ []) (hc : DirChain p (some fs.root))
    (hnd : fs.dirPerm p = none) (hok : (decodeFileWrite h content fs).2 = .ok) :
    (decodeFileWrite h content fs).1.get p
      = some (.file content (h.mode % 512) ((fs.chtimesStored h.mtime).getD fs.now)) ∧
    fs.Keeps (decodeFileWrite h content fs).1 := by
  obtain ⟨fh, fs1, c, fs2, fs3, fs4, fs5, ho, hw, ht, hm, hch, heq⟩ := decodeFileWrite_ok_inv hok
  obtain ⟨hr1, _, hcase⟩ := openFile_ok_inv ho
  have hfh : fh = p := by
    rw [hres] at hr1
    simp only [Except.ok.injEq] at hr1
    exact hr1.symm
  subst hfh
  obtain ⟨_, hg4, hc4, hk4⟩ := fill_chain hp hc hnd hcase hw ht hm
  obtain ⟨p2, hr5, he5⟩ := chtimes_ok_inv hch
  have hp2 : p2 = fh := by
    rw [resolve_mono hk4 hres] at hr5
    simp only [Except.ok.injEq] at hr5
    exact hr5.symm
  subst hp2
  obtain ⟨a5, _, k5⟩ := alter_file_step fs4 none
    (Option.map (Node.setTimes (fs4.chtimesStored h.mtime))) p2 hp hc4 (dirPerm_of_file hg4)
  rw [← he5, hg4] at a5
  rw [← he5] at k5
  rw [heq]
  simp only
  refine ⟨?_, keeps_trans hk4 k5⟩
  have hst : fs4.chtimesStored h.mtime = fs.chtimesStored h.mtime := by
    unfold FS.chtimesStored FS.storedTime
    rw [hk4.timeMin, hk4.timeMax]
  rw [a5, hst]
  simp only [Option.map, Node.setTimes]
  rcases hs : fs.chtimesStored h.mtime with _ | s
  · simp only [Nat.mod_mod, Option.getD]
  · simp only [Node.setMtime, Nat.mod_mod, Option.getD]

theorem quiet_alter {fs : FS} (hq : fs.Quiet) (touch : Option Int)
    (f : Option Node → Option Node) (p : List Bytes) : (fs.alter touch f p).Quiet := by
  intro call q
  rw [alter_refuses]
  exact hq call q

theorem write_of_quiet {fs : FS} (hq : fs.Quiet) (fh : List Bytes) (data : Bytes) :
    fs.write fh data = .ok (data.length,
      fs.alter none (fun o =>
        match o with
        | some (.file old perm _) => some (.file (data ++ old.drop data.length) perm fs.now)
        | other => other) fh) := by
  unfold FS.write
  rw [hq .write fh]

theorem truncate_of_quiet {fs : FS} (hq : fs.Quiet) (fh : List Bytes) (len : Nat) :
    fs.truncate fh len = .ok (fs.alter none (fun o =>
      match o with
      | some (.file old perm _) =>
        some (.file (old.take len ++ List.replicate (len - old.length) 0) perm fs.now)
      | other => other) fh) := by
  unfold FS.truncate
  rw [hq .truncate fh]

theorem fchmod_of_quiet {fs : FS} (hq : fs.Quiet) (fh : List Bytes) (perm : Nat) :
    fs.fchmod fh perm = .ok (fs.alter none (fun o =>
      match o with
      | some (.file content _ t) => some (.file content (perm % 512) t)
      | other => other) fh) := by
  unfold FS.fchmod
  rw [hq .fchmod fh]

theorem lstat_of_get {fs : FS} {path : Bytes} {p : List Bytes} {node : Node}
    (hr : fs.resolve path = .ok p) (hf : fs.refuses .lstat p = none)
    (hg : fs.get p = some node) (hs : endsInSlash path = false) : fs.lstat path = .ok node := by
  unfold FS.lstat
  rw [hr]
  simp only
  rw [hf]
  simp only
  rw [hg]
  simp only [hs]
  rfl

/-- The end of `decodeFile` returns nil when the system refuses no call, the
name resolves, and under it stands nothing, in a directory that the process
may write, or a regular file that the process may read and write. -/
theorem decodeFileWrite_succeeds (h : FileHeader) (content : Bytes) (fs : FS) (p : List Bytes)
    (hres : fs.resolve h.targetBase = .ok p) (hp : p ≠ []) (hc : DirChain p (some fs.root))
    (hsl : endsInSlash h.targetBase = false) (hq : fs.Quiet)
    (hentry : (fs.get p = none ∧ fs.mayWriteDir p.dropLast = true) ∨
      (∃ old pm t, fs.get p = some (.file old pm t) ∧ fs.mayRead pm = true ∧
        fs.mayWrite pm = true))
    (hlen : ¬ ((content.length : Int) < int64OfBits h.size)) :
    (decodeFileWrite h content fs).2 = .ok := by
  have hnd : fs.dirPerm p = none := by
    rcases hentry with ⟨hg, _⟩ | ⟨old, pm, t, hg, _, _⟩
    · exact dirPerm_of_none hg
    · exact dirPerm_of_file hg
  have ho : ∃ fs1, fs.openFile h.targetBase = .ok (p, fs1) := by
    unfold FS.openFile
    rw [hres]
    simp only
    rw [hq .openFile p]
    simp only
    rw [if_neg (by simp [hsl])]
    rcases hentry with ⟨hg, hw⟩ | ⟨old, pm, t, hg, hr, hw⟩
    · rw [hg]
      simp only
      rw [if_pos hw]
      exact ⟨_, rfl⟩
    · rw [hg]
      simp only
      rw [if_pos (by simp [hr, hw])]
      exact ⟨_, rfl⟩
  obtain ⟨fs1, ho⟩ := ho
  obtain ⟨_, _, hcase⟩ := openFile_ok_inv ho
  have hq1 : fs1.Quiet := by
    rcases hcase with ⟨_, he⟩ | ⟨_, _, _, _, he⟩
    · rw [he]; exact quiet_alter hq _ _ _
    · rw [he]; exact hq
  have hw := write_of_quiet hq1 p content
  have hq2 := quiet_alter hq1 none (fun o =>
      match o with
      | some (.file old perm _) => some (.file (content ++ old.drop content.length) perm fs1.now)
      | other => other) p
  have ht := truncate_of_quiet hq2 p content.length
  have hq3 := quiet_alter hq2 none (fun o =>
      match o with
      | some (.file old perm _) =>
        some (.file (old.take content.length ++ List.replicate (content.length - old.length) 0)
          perm (fs1.alter none (fun o =>
            match o with
            | some (.file old perm _) =>
              some (.file (content ++ old.drop content.length) perm fs1.now)
            | other => other) p).now)
      | other => other) p
  have hm := fchmod_of_quiet hq3 p (h.mode % 512)
  have hq4 := quiet_alter hq3 none (fun o =>
      match o with
      | some (.file content _ t) => some (.file content (h.mode % 512 % 512) t)
      | other => other) p
  obtain ⟨_, hg4, hc4, hk4⟩ := fill_chain hp hc hnd hcase hw ht hm
  unfold decodeFileWrite
  rw [ho]
  simp only
  rw [hw]
  simp only
  rw [if_neg hlen, ht]
  simp only
  rw [hm]
  simp only
  unfold FS.close
  rw [hq4 .close p]
  simp only
  unfold FS.chtimes
  rw [resolve_mono hk4 hres]
  simp only
  rw [hg4]
  simp only [hsl]
  unfold FS.setTimes
  rw [hq4 .chtimes p, hg4]
  simp

/-! ## The decoder: regular files -/

theorem int64OfBits_of_lt {u : Nat} (h : u < 2 ^ 63) : int64OfBits u = (u : Int) := by
  unfold int64OfBits
  have h1 : u % 2 ^ 64 = u := Nat.mod_eq_of_lt (by omega)
  rw [h1, if_pos h]

/-- Truncation is detected for every declared size that is not negative as
an `int` and that the buffer can grow by. -/
theorem decodeFile_truncated (hash : Bytes → Nat) (r : Bytes) (fs : FS) (h : FileHeader)
    (content : Bytes) (hdec : unmarshalFileHeader r = .ok (h, content))
    (hsize : h.size < 2 ^ 63) (hgrow : h.size ≤ fs.growLimit) (hlen : content.length < h.size) :
    decodeFile hash r fs = (fs, .failed .errUnexpectedEOF) := by
  have hi := int64OfBits_of_lt hsize
  have h1 : ¬ (int64OfBits h.size < 0) := by rw [hi]; omega
  have hg : ¬ (fs.growLimit < h.size ∧ content.length < h.size) := fun hc => by omega
  have h2 : (content.length : Int) < int64OfBits h.size := by rw [hi]; exact_mod_cast hlen
  simp only [decodeFile, hdec, decodeFileBody, if_neg h1, if_neg hg, if_pos h2]

/-- A declared size that is not negative as an `int`, but lies beyond both
the payload delivered and what the buffer can grow by: `fileScratch.Grow`
panics and the process ends. -/
theorem decodeFile_too_large (hash : Bytes → Nat) (r : Bytes) (fs : FS) (h : FileHeader)
    (content : Bytes) (hdec : unmarshalFileHeader r = .ok (h, content))
    (hsize : h.size < 2 ^ 63) (hgrow : fs.growLimit < h.size) (hlen : content.length < h.size) :
    decodeFile hash r fs = (fs, .fatal .errTooLarge) := by
  have hi := int64OfBits_of_lt hsize
  have h1 : ¬ (int64OfBits h.size < 0) := by rw [hi]; omega
  simp only [decodeFile, hdec, decodeFileBody, if_neg h1, if_pos (And.intro hgrow hlen)]

/-- A declared size of `2^63` or more is negative as an `int`: the buffer
cannot grow and the process ends, whatever the payload delivers. -/
theorem decodeFile_negative_size (hash : Bytes → Nat) (r : Bytes) (fs : FS) (h : FileHeader)
    (content : Bytes) (hdec : unmarshalFileHeader r = .ok (h, content))
    (hlo : 2 ^ 63 ≤ h.size) (hhi : h.size < 2 ^ 64) :
    decodeFile hash r fs = (fs, .fatal .growNegativeCount) := by
  have h1 : int64OfBits h.size < 0 := by
    unfold int64OfBits
    rw [Nat.mod_eq_of_lt hhi, if_neg (by omega)]
    omega
  simp only [decodeFile, hdec, decodeFileBody, if_pos h1]

/-- C2 (as stated, refuted). A payload whose declared hash differs from the
hash of the three bytes it delivers, and that declares five bytes: `decodeFile`
returns the unexpected-end-of-input error, not a hash-mismatch error. -/
theorem hash_enforcement_counterexample :
    unmarshalFileHeader shortPayload
      = .ok (⟨ascii "new.txt", 1600000000, 420, 0, 5⟩, ascii "hel") ∧
    (0 : Nat) ≠ sum64 sampleHash (ascii "hel") ∧
    (decodeFile sampleHash shortPayload sampleFS).2 = .failed .errUnexpectedEOF :=
  ⟨rfl, by decide, by decide⟩

/-- C2 (amended). Hash enforcement: for every regular-file payload that
delivers at least the declared number of content bytes, the declared size
being below `2^63`, and whose declared hash differs from the 64-bit hash of
the content bytes delivered, `decodeFile` returns a hash-mismatch error and
the file system is left exactly as it was. -/
theorem hash_enforcement (hash : Bytes → Nat) (r : Bytes) (fs : FS) (h : FileHeader)
    (content : Bytes) (hdec : unmarshalFileHeader r = .ok (h, content))
    (hsize : h.size < 2 ^ 63) (hlen : h.size ≤ content.length)
    (hhash : h.hashSource ≠ sum64 hash content) :
    decodeFile hash r fs = (fs, .failed (.hashMismatch h.hashSource (sum64 hash content))) := by
  have hi := int64OfBits_of_lt hsize
  have h1 : ¬ (int64OfBits h.size < 0) := by rw [hi]; omega
  have hg : ¬ (fs.growLimit < h.size ∧ content.length < h.size) := fun hc => by omega
  have h2 : ¬ ((content.length : Int) < int64OfBits h.size) := by
    rw [hi]; exact_mod_cast Nat.not_lt.mpr hlen
  simp only [decodeFile, hdec, decodeFileBody, if_neg h1, if_neg hg, if_neg h2, if_pos hhash]

theorem hash_enforcement_witness :
    unmarshalFileHeader wrongHashPayload
      = .ok (⟨ascii "new.txt", 1600000000, 420, 0, 5⟩, ascii "hello") ∧
    (5 : Nat) < 2 ^ 63 ∧ 5 ≤ (ascii "hello").length ∧
    (0 : Nat) ≠ sum64 sampleHash (ascii "hello") ∧
    decodeFile sampleHash wrongHashPayload sampleFS
      = (sampleFS, .failed (.hashMismatch 0 (sum64 sampleHash (ascii "hello")))) :=
  ⟨rfl, by decide, by decide, by decide,
    hash_enforcement sampleHash wrongHashPayload sampleFS
      ⟨ascii "new.txt", 1600000000, 420, 0, 5⟩ (ascii "hello") rfl (by decide) (by decide)
      (by decide)⟩

/-- C3 (the code at the failing input). A payload that declares `2^63` content
bytes and delivers none: the size is negative as an `int`, `fileScratch.Grow`
panics and the process ends; no truncation error is returned. -/
theorem truncation_detection_failing_input :
    unmarshalFileHeader hugeSizePayload
      = .ok (⟨ascii "new.txt", 1600000000, 420, 0, 2 ^ 63⟩, []) ∧
    ([] : Bytes).length < 2 ^ 63 ∧
    (decodeFile sampleHash hugeSizePayload sampleFS).2 = .fatal .growNegativeCount ∧
    (decodeFile sampleHash hugeSizePayload sampleFS).2 ≠ .failed .errUnexpectedEOF :=
  ⟨rfl, by decide, by decide, by decide⟩

/-- C9 (the code at the failing input). A payload that declares three content
bytes and delivers five, with the hash of the five (what `encodeFile` emits
for a file whose stat reports three bytes and whose read delivers five):
`decodeFile` succeeds, and the file it leaves holds all five bytes, not three. -/
theorem exact_length_failing_input :
    (encodeFile sampleHash ⟨[], []⟩ (ascii "new.txt")
      ⟨none, .ok ⟨3, 420, 1600000000⟩, .ok (ascii "hello")⟩).1.frames
      = [⟨v1RegularFile, overlongPayload⟩] ∧
    unmarshalFileHeader overlongPayload
      = .ok (⟨ascii "new.txt", 1600000000, 420, sum64 sampleHash (ascii "hello"), 3⟩,
          ascii "hello") ∧
    (decodeFile sampleHash overlongPayload sampleFS).2 = .ok ∧
    (decodeFile sampleHash overlongPayload sampleFS).1.lstat (ascii "new.txt")
      = .ok (.file (ascii "hello") 420 1600000000) ∧
    (ascii "hello").length ≠ 3 :=
  ⟨by decide, rfl, by decide, rfl, by decide⟩

/-! ## The decoder: the pass -/

/-- The directory-ascend handler never ends the process. -/
theorem decodeDirectoryAscend_not_fatal (r : Bytes) (fs : FS) :
    (decodeDirectoryAscend r fs).2.isFatal = false := by
  unfold decodeDirectoryAscend
  repeat' split
  all_goals rfl

/-- After a directory-ascend message whose handler fails, `extract` applies
the frames that follow. -/
theorem extract_after_failed_ascend (hash : Bytes → Nat) (payload : Bytes)
    (rest : List Frame) (fs fs1 : FS) (e : Err)
    (h : decodeDirectoryAscend payload fs = (fs1, .failed e)) :
    extract hash (⟨v1DirectoryAscend, payload⟩ :: rest) fs
      = extractLoop hash rest fs1 (some e) := by
  simp [extract, extractLoop, handle, v1DirectoryAscend, v1RegularFile, h]

/-- C8 (the code at the failing input). A directory-ascend message whose
modification time cannot be decoded, followed by a regular-file message: the
handler fails, `extract` goes on, the working directory is not left, the file
of the next message is written there, and `extract` returns nil. -/
theorem ascend_failure_failing_input :
    (decodeDirectoryAscend [] sampleFSInDocs).2 = .failed .errUnexpectedEOF ∧
    (extract sampleHash brokenAscendStream sampleFSInDocs).2 = .ok ∧
    (extract sampleHash brokenAscendStream sampleFSInDocs).1.cwd = [ascii "home", ascii "docs"] ∧
    (extract sampleHash brokenAscendStream sampleFSInDocs).1.get
        [ascii "home", ascii "docs", ascii "greeting.txt"]
      = some (.file (ascii "hello") 420 1600000000) ∧
    (decodeDirectoryDescend [] sampleFSInDocs).2 = .fatal .errUnexpectedEOF :=
  ⟨by decide, by decide, by decide, rfl, by decide⟩

/-! ## The decoder: descending -/

theorem mkdir_cwd {fs fs1 : FS} {path : Bytes} {mode : Nat} (h : fs.mkdir path mode = .ok fs1) :
    fs1.cwd = fs.cwd := by
  obtain ⟨p, _, _, he⟩ := mkdir_ok_inv h
  rw [he, alter_cwd]

theorem remove_cwd {fs fs1 : FS} {path : Bytes} (h : fs.remove path = .ok fs1) :
    fs1.cwd = fs.cwd := by
  obtain ⟨p, _, _, _, he⟩ := remove_ok_inv h
  rw [he, alter_cwd]

theorem chdir_baseName {fs fs1 : FS} {n : Bytes} (hn : IsBaseName n)
    (h : fs.chdir n = .ok fs1) : fs1.cwd = fs.cwd ++ [n] := by
  obtain ⟨p, hr, he, _⟩ := chdir_ok_inv h
  rw [he, ← (resolve_baseName_ok hn fs hr).1]

theorem mkdirAndChdir_cwd {fs : FS} {n : Bytes} {mode : Nat} (hn : IsBaseName n)
    (h : (mkdirAndChdir n mode fs).2.isFatal = false) :
    (mkdirAndChdir n mode fs).1.cwd = fs.cwd ++ [n] := by
  unfold mkdirAndChdir at h ⊢
  rcases hm : fs.mkdir n mode with e | fs1
  · rw [hm] at h; simp [Outcome.isFatal] at h
  · rw [hm] at h
    simp only at h ⊢
    rcases hc : fs1.chdir n with e | fs2
    · rw [hc] at h; simp [Outcome.isFatal] at h
    · simp only
      rw [chdir_baseName hn hc, mkdir_cwd hm]

/-- C7 (as stated, refuted). A directory-descend message that names `.` is
applied without error and leaves the working directory where it was: the depth
does not increase. -/
theorem descend_one_level_counterexample :
    unmarshalString dotDescendPayload = .ok (ascii ".", marshalUint32 sampleDirInfo.mode) ∧
    (decodeDirectoryDescend dotDescendPayload sampleFS).2 = .ok ∧
    (decodeDirectoryDescend dotDescendPayload sampleFS).1.cwd = sampleFS.cwd ∧
    (decodeDirectoryDescend dotDescendPayload sampleFS).1.depth ≠ sampleFS.depth + 1 :=
  ⟨rfl, by decide, by decide, by decide⟩

/-- C7 (amended). Descend moves exactly one level deeper: for every
directory-descend message whose decoded name is a simple base name (not empty,
without a path separator, neither `.` nor `..`), with every decoded mode, that
`decodeDirectoryDescend` applies without a fatal error, the working directory
afterwards is the child of that name of the working directory before the call:
the depth increases by exactly one. -/
theorem descend_one_level (r : Bytes) (fs : FS) (name r1 : Bytes) (mode : Nat) (r2 : Bytes)
    (hname : unmarshalString r = .ok (name, r1))
    (hmode : unmarshalUint32 r1 = .ok (mode, r2))
    (hbase : IsBaseName name)
    (hok : (decodeDirectoryDescend r fs).2.isFatal = false) :
    (decodeDirectoryDescend r fs).1.cwd = fs.cwd ++ [name] ∧
    (decodeDirectoryDescend r fs).1.depth = fs.depth + 1 := by
  have hcwd : (decodeDirectoryDescend r fs).1.cwd = fs.cwd ++ [name] := by
    unfold decodeDirectoryDescend at hok ⊢
    rw [hname] at hok ⊢
    simp only at hok ⊢
    rw [hmode] at hok ⊢
    simp only at hok ⊢
    rcases hl : fs.lstat name with e | fi
    · rw [hl] at hok
      simp only at hok ⊢
      by_cases he : e = .enoent
      · rw [if_pos he] at hok ⊢
        exact mkdirAndChdir_cwd hbase hok
      · rw [if_neg he] at hok
        simp [Outcome.isFatal] at hok
    · rw [hl] at hok
      simp only at hok ⊢
      by_cases hd : fi.isDir = true
      · rw [if_pos hd] at hok ⊢
        rcases hc : fs.chdir name with e | fs1
        · rw [hc] at hok; simp [Outcome.isFatal] at hok
        · simp only
          exact chdir_baseName hbase hc
      · rw [if_neg hd] at hok ⊢
        rcases hrm : fs.remove name with e | fs1
        · rw [hrm] at hok; simp [Outcome.isFatal] at hok
        · rw [hrm] at hok
          simp only at hok ⊢
          rw [mkdirAndChdir_cwd hbase hok, remove_cwd hrm]
  exact ⟨hcwd, by simp [FS.depth, hcwd]⟩

theorem descend_one_level_witness :
    unmarshalString docsDescendPayload = .ok (ascii "docs", marshalUint32 sampleDirInfo.mode) ∧
    unmarshalUint32 (marshalUint32 sampleDirInfo.mode) = .ok (sampleDirInfo.mode, []) ∧
    IsBaseName (ascii "docs") ∧
    (decodeDirectoryDescend docsDescendPayload sampleFS).2.isFatal = false ∧
    (decodeDirectoryDescend docsDescendPayload sampleFS).1.cwd = sampleFS.cwd ++ [ascii "docs"] ∧
    (decodeDirectoryDescend docsDescendPayload sampleFS).1.depth = sampleFS.depth + 1 :=
  ⟨rfl, rfl, by decide, by decide,
    descend_one_level docsDescendPayload sampleFS (ascii "docs")
      (marshalUint32 sampleDirInfo.mode) sampleDirInfo.mode [] rfl rfl (by decide) (by decide)⟩

/-! ## The decoder: round trip and replacement -/

theorem chtimesSeconds_of_range (t : Int) (hlo : -9223372036 ≤ t) (hhi : t ≤ 9223372036) :
    chtimesSeconds t = some t := by
  unfold chtimesSeconds
  rw [if_neg (by omega), int64OfBits_int64Bits _ (by omega) (by omega)]
  congr 1
  omega

/-- A time within the range of `time.Time.UnixNano` that the file system
stores is the time that `os.Chtimes` leaves. -/
theorem chtimesStored_of_range (fs : FS) (t : Int) (hlo : -9223372036 ≤ t)
    (hhi : t ≤ 9223372036) (hmin : fs.timeMin ≤ t) (hmax : t ≤ fs.timeMax) :
    fs.chtimesStored t = some t := by
  unfold FS.chtimesStored FS.storedTime
  rw [chtimesSeconds_of_range t hlo hhi]
  simp only [Option.map, Option.some.injEq]
  rw [min_eq_right hmax, max_eq_right hmin]

/-- In a working directory that the process may search, resolving a simple
base name fails only for the name itself, never for a missing entry. -/
theorem resolve_baseName_error {n : Bytes} (hbase : IsBaseName n) (fs : FS)
    (hdir : fs.searchAt fs.cwd) {e : Errno} (h : fs.resolve n = .error e) : e ≠ .enoent := by
  obtain ⟨perm, hp, hs⟩ := hdir
  obtain ⟨t, es, hg⟩ := dirPermOf_eq_some hp
  rw [resolve_baseName hbase, hg] at h
  simp only [hs] at h
  intro he
  subst he
  repeat' split at h
  all_goals simp at h

/-- What `os.Lstat` finds under a simple base name, in a working directory
that the process may search, when the system does not refuse the call. -/
theorem lstat_baseName_inv {n : Bytes} (hbase : IsBaseName n) (fs : FS)
    (hdir : fs.searchAt fs.cwd) (hq : fs.Quiet) :
    (fs.lstat n = .error .enoent →
      fs.resolve n = .ok (fs.cwd ++ [n]) ∧ fs.get (fs.cwd ++ [n]) = none) ∧
    (∀ node, fs.lstat n = .ok node →
      fs.resolve n = .ok (fs.cwd ++ [n]) ∧ fs.get (fs.cwd ++ [n]) = some node) := by
  constructor
  · intro h
    unfold FS.lstat at h
    rcases hr : fs.resolve n with e | p
    · rw [hr] at h
      simp only [Except.error.injEq] at h
      exact absurd h (resolve_baseName_error hbase fs hdir hr)
    · rw [hr] at h
      have hp := (resolve_baseName_ok hbase fs hr).1
      subst hp
      simp only at h
      rw [hq .lstat _] at h
      simp only at h
      refine ⟨rfl, ?_⟩
      rcases hg : fs.get (fs.cwd ++ [n]) with _ | node
      · rfl
      · rw [hg] at h
        simp [endsInSlash_baseName hbase] at h
  · intro node h
    obtain ⟨p, hr, _, hg⟩ := lstat_ok_inv h
    have hp := (resolve_baseName_ok hbase fs hr).1
    subst hp
    exact ⟨hr, hg⟩

theorem resolve_baseName_not_search {n : Bytes} (hbase : IsBaseName n) (fs : FS) (perm : Nat)
    (t : Int) (es : List (Bytes × Node)) (hg : fs.get fs.cwd = some (.dir perm t es))
    (hs : fs.maySearch perm = false) : ∃ e, fs.resolve n = .error e ∧ e ≠ .enoent := by
  rw [resolve_baseName hbase, hg]
  simp only
  by_cases h0 : 0 ∈ n
  · rw [if_pos h0]
    exact ⟨_, rfl, by decide⟩
  · rw [if_neg h0]
    by_cases h1 : pathMax ≤ n.length
    · rw [if_pos h1]
      exact ⟨_, rfl, by decide⟩
    · rw [if_neg h1, if_pos hs]
      exact ⟨_, rfl, by decide⟩

/-- In a working directory that the process may write, `os.Lstat` reports a
simple base name as missing only when the process may search the directory. -/
theorem searchAt_of_lstat_enoent {n : Bytes} (hbase : IsBaseName n) (fs : FS)
    (hw : fs.mayWriteDir fs.cwd = true) (h : fs.lstat n = .error .enoent) :
    fs.searchAt fs.cwd := by
  unfold FS.mayWriteDir at hw
  rcases hg : fs.get fs.cwd with _ | node
  · rw [hg] at hw; simp at hw
  · rw [hg] at hw
    cases node with
    | dir perm t es =>
      refine ⟨perm, by simp [FS.dirPerm, hg, dirPermOf], ?_⟩
      by_cases hs : fs.maySearch perm = true
      · exact hs
      · exfalso
        obtain ⟨e, hr, he⟩ := resolve_baseName_not_search hbase fs perm t es hg
          (by simpa using hs)
        unfold FS.lstat at h
        rw [hr] at h
        simp only [Except.error.injEq] at h
        exact he h
    | file c perm t => simp at hw
    | symlink r => simp at hw
    | fifo perm t => simp at hw
    | socket perm t => simp at hw

/-- C4 (as stated, refuted). Files that `encodeFile` turns into one frame
each, and that `decodeFile` does not restore. `locked.txt` meets an existing
regular file whose permission bits let nobody write: `os.OpenFile` is refused.
`new.txt` is absent from a working directory that the process may not write:
`os.OpenFile` is refused. `new.txt` is written when no space is left: the
write is refused. `new.txt` was last modified 18446744074 seconds after the
epoch (in the year 2554): `decodeFile` succeeds, and the file it leaves has
the time that `os.Chtimes` makes of it, which is the epoch itself. `new.txt`
was last modified in the year 1874, and the file system stores no time before
1901: `decodeFile` succeeds, and the file has the earliest time stored. -/
theorem single_file_round_trip_counterexample :
    ((encodeFile sampleHash ⟨[], []⟩ (ascii "locked.txt")
        ⟨none, .ok ⟨5, 420, 1600000000⟩, .ok (ascii "hello")⟩).1.frames
        = [⟨v1RegularFile, lockedPayload⟩] ∧
      sampleFSLocked.lstat (ascii "locked.txt") = .ok (.file (ascii "stale-old") 292 900) ∧
      (decodeFile sampleHash lockedPayload sampleFSLocked).2 = .failed (.sys .eacces)) ∧
    ((encodeFile sampleHash ⟨[], []⟩ (ascii "new.txt")
        ⟨none, .ok ⟨5, 420, 1600000000⟩, .ok (ascii "hello")⟩).1.frames
        = [⟨v1RegularFile, newFilePayload⟩] ∧
      sampleFSReadOnlyDir.lstat (ascii "new.txt") = .error .enoent ∧
      (decodeFile sampleHash newFilePayload sampleFSReadOnlyDir).2 = .failed (.sys .eacces) ∧
      sampleFSFull.lstat (ascii "new.txt") = .error .enoent ∧
      (decodeFile sampleHash newFilePayload sampleFSFull).2 = .failed (.sys .enospc)) ∧
    ((encodeFile sampleHash ⟨[], []⟩ (ascii "new.txt")
        ⟨none, .ok ⟨5, 420, 18446744074⟩, .ok (ascii "hello")⟩).1.frames
        = [⟨v1RegularFile, farFuturePayload⟩] ∧
      sampleFS.lstat (ascii "new.txt") = .error .enoent ∧
      (decodeFile sampleHash farFuturePayload sampleFS).2 = .ok ∧
      (decodeFile sampleHash farFuturePayload sampleFS).1.lstat (ascii "new.txt")
        = .ok (.file (ascii "hello") 420 0) ∧
      (18446744074 : Int) ≠ 0) ∧
    ((encodeFile sampleHash ⟨[], []⟩ (ascii "new.txt")
        ⟨none, .ok ⟨5, 420, -3000000000⟩, .ok (ascii "hello")⟩).1.frames
        = [⟨v1RegularFile, farPastPayload⟩] ∧
      sampleFSNarrowTime.lstat (ascii "new.txt") = .error .enoent ∧
      (decodeFile sampleHash farPastPayload sampleFSNarrowTime).2 = .ok ∧
      (decodeFile sampleHash farPastPayload sampleFSNarrowTime).1.lstat (ascii "new.txt")
        = .ok (.file (ascii "hello") 420 (-2147483648)) ∧
      (-3000000000 : Int) ≠ -2147483648) :=
  ⟨⟨by decide, rfl, by decide⟩, ⟨by decide, rfl, by decide, rfl, by decide⟩,
    ⟨by decide, rfl, by decide, rfl, by decide⟩, ⟨by decide, rfl, by decide, rfl, by decide⟩⟩

/-- C4 (amended). Single-file round trip: for every regular file with simple
base name `n`, content `c`, mode `m` and modification time `t` within the
range of `time.Time.UnixNano` (from -9223372036 to 9223372036 seconds of the
epoch) and within the range that the file system stores, `encodeFile` returns
nil and emits exactly one regular-file frame, whose payload carries the name
`n`, the time `t`, the mode `m`, the hash `Sum64` of `c`, the size `len(c)`
and the content `c`; and `decodeFile` applied to that payload in a working
directory where `n` is absent and that the process may write, or where `n` is
a regular file of any length that the process may read and write, succeeds
when the system refuses none of its calls, and leaves under `n` a regular file
whose content is exactly `c`, whose permission bits are those of `m`, and
whose modification time is `t`. -/
theorem single_file_round_trip (hash : Bytes → Nat) (n c : Bytes) (t : Int) (m : Nat)
    (composer : Composer) (fs : FS)
    (hbase : IsBaseName n) (hclen : c.length < 2 ^ 63) (hm : m < 2 ^ 32)
    (htlo : -9223372036 ≤ t) (hthi : t ≤ 9223372036)
    (htmin : fs.timeMin ≤ t) (htmax : t ≤ fs.timeMax)
    (hemit : composer.faults.head? ≠ some true) (hquiet : fs.Quiet)
    (hentry : (fs.lstat n = .error .enoent ∧ fs.mayWriteDir fs.cwd = true) ∨
      ∃ old pm mt, fs.lstat n = .ok (.file old pm mt) ∧ fs.mayRead pm = true ∧
        fs.mayWrite pm = true) :
    (encodeFile hash composer n ⟨none, .ok ⟨c.length, m, t⟩, .ok c⟩).2 = none ∧
    (encodeFile hash composer n ⟨none, .ok ⟨c.length, m, t⟩, .ok c⟩).1.frames
      = composer.frames
        ++ [⟨v1RegularFile, filePayload n t m (sum64 hash c) c.length c⟩] ∧
    unmarshalFileHeader (filePayload n t m (sum64 hash c) c.length c)
      = .ok (⟨n, t, m, sum64 hash c, c.length⟩, c) ∧
    (decodeFile hash (filePayload n t m (sum64 hash c) c.length c) fs).2 = .ok ∧
    (decodeFile hash (filePayload n t m (sum64 hash c) c.length c) fs).1.lstat n
      = .ok (.file c (m % 512) t) := by
  have hdir : fs.searchAt fs.cwd := by
    rcases hentry with ⟨he, hw⟩ | ⟨old, pm, mt, he, _, _⟩
    · exact searchAt_of_lstat_enoent hbase fs hw he
    · obtain ⟨p, hr, _, _⟩ := lstat_ok_inv he
      exact (resolve_baseName_ok hbase fs hr).2.1
  obtain ⟨hinv1, hinv2⟩ := lstat_baseName_inv hbase fs hdir hquiet
  have hres : fs.resolve n = .ok (fs.cwd ++ [n]) := by
    rcases hentry with ⟨he, _⟩ | ⟨old, pm, mt, he, _, _⟩
    · exact (hinv1 he).1
    · exact (hinv2 _ he).1
  have hnlen : n.length < 2 ^ 64 := by
    have := (resolve_baseName_ok hbase fs hres).2.2.2
    unfold nameMax at this
    omega
  have hhdr : unmarshalFileHeader (filePayload n t m (sum64 hash c) c.length c)
      = .ok (⟨n, t, m, sum64 hash c, c.length⟩, c) := by
    rw [unmarshalFileHeader_filePayload n t m _ _ c hnlen (by omega) (by omega),
      Nat.mod_eq_of_lt hm, Nat.mod_eq_of_lt (show c.length < 2 ^ 64 by omega)]
    unfold sum64
    rw [Nat.mod_mod]
  have hget : (fs.get (fs.cwd ++ [n]) = none ∧
        fs.mayWriteDir (fs.cwd ++ [n]).dropLast = true) ∨
      (∃ old pm mt, fs.get (fs.cwd ++ [n]) = some (.file old pm mt) ∧ fs.mayRead pm = true ∧
        fs.mayWrite pm = true) := by
    rcases hentry with ⟨he, hw⟩ | ⟨old, pm, mt, he, hr, hw⟩
    · exact Or.inl ⟨(hinv1 he).2, by rw [List.dropLast_concat]; exact hw⟩
    · exact Or.inr ⟨old, pm, mt, (hinv2 _ he).2, hr, hw⟩
  have hne : fs.cwd ++ [n] ≠ [] := by simp
  have hchain : DirChain (fs.cwd ++ [n]) (some fs.root) := by
    obtain ⟨perm, hp, _⟩ := hdir
    obtain ⟨t2, es, hg⟩ := dirPermOf_eq_some hp
    exact dirChain_snoc fs.cwd n _ perm t2 es hg
  have hnd : fs.dirPerm (fs.cwd ++ [n]) = none := by
    rcases hget with ⟨hg, _⟩ | ⟨old, pm, mt, hg, _, _⟩
    · exact dirPerm_of_none hg
    · exact dirPerm_of_file hg
  have hi := int64OfBits_of_lt hclen
  have h1 : ¬ (int64OfBits c.length < 0) := by rw [hi]; omega
  have hg : ¬ (fs.growLimit < c.length ∧ c.length < c.length) := fun hc => by omega
  have h2 : ¬ ((c.length : Int) < int64OfBits c.length) := by rw [hi]; omega
  have hbody : decodeFileBody hash ⟨n, t, m, sum64 hash c, c.length⟩ c fs
      = decodeFileWrite ⟨n, t, m, sum64 hash c, c.length⟩ c fs := by
    unfold decodeFileBody
    simp only
    rw [if_neg h1, if_neg hg, if_neg h2, if_neg (by simp)]
    rcases hentry with ⟨he, _⟩ | ⟨old, pm, mt, he, _, _⟩
    · rw [he]
      simp
    · rw [he]
      simp [Node.isRegular]
  have hok := decodeFileWrite_succeeds ⟨n, t, m, sum64 hash c, c.length⟩ c fs (fs.cwd ++ [n])
    hres hne hchain (endsInSlash_baseName hbase) hquiet hget h2
  obtain ⟨hfin, hk⟩ := decodeFileWrite_ok ⟨n, t, m, sum64 hash c, c.length⟩ c fs (fs.cwd ++ [n])
    hres hne hchain hnd hok
  simp only at hfin
  rw [chtimesStored_of_range fs t htlo hthi htmin htmax] at hfin
  have hcomp := compose_frames composer v1RegularFile (filePayload n t m (sum64 hash c) c.length c)
  have henc : encodeFile hash composer n ⟨none, .ok ⟨c.length, m, t⟩, .ok c⟩
      = composer.compose v1RegularFile (filePayload n t m (sum64 hash c) c.length c) := by
    simp [encodeFile]
  rcases hcomp with ⟨hc, _⟩ | ⟨_, hc⟩
  · refine ⟨by rw [henc, hc], by rw [henc, hc], hhdr, ?_, ?_⟩
    · unfold decodeFile
      rw [hhdr]
      simp only
      rw [hbody]
      exact hok
    · unfold decodeFile
      rw [hhdr]
      simp only
      rw [hbody]
      exact lstat_of_get (resolve_mono hk hres) (quiet_of_keeps hk hquiet _ _) hfin
        (endsInSlash_baseName hbase)
  · exact absurd hc hemit

theorem single_file_round_trip_witness :
    IsBaseName (ascii "greeting.txt") ∧
    (ascii "hello").length < 2 ^ 63 ∧ (420 : Nat) < 2 ^ 32 ∧
    (-9223372036 : Int) ≤ 1600000000 ∧ (1600000000 : Int) ≤ 9223372036 ∧
    sampleFS.timeMin ≤ 1600000000 ∧ (1600000000 : Int) ≤ sampleFS.timeMax ∧
    (⟨[], []⟩ : Composer).faults.head? ≠ some true ∧ sampleFS.Quiet ∧
    sampleFS.lstat (ascii "greeting.txt") = .ok (.file (ascii "stale-old") 384 900) ∧
    sampleFS.mayRead 384 = true ∧ sampleFS.mayWrite 384 = true ∧
    (encodeFile sampleHash ⟨[], []⟩ (ascii "greeting.txt")
      ⟨none, .ok ⟨(ascii "hello").length, 420, 1600000000⟩, .ok (ascii "hello")⟩).2 = none ∧
    (encodeFile sampleHash ⟨[], []⟩ (ascii "greeting.txt")
      ⟨none, .ok ⟨(ascii "hello").length, 420, 1600000000⟩, .ok (ascii "hello")⟩).1.frames
      = (⟨[], []⟩ : Composer).frames
        ++ [⟨v1RegularFile, filePayload (ascii "greeting.txt") 1600000000 420
          (sum64 sampleHash (ascii "hello")) (ascii "hello").length (ascii "hello")⟩] ∧
    unmarshalFileHeader (filePayload (ascii "greeting.txt") 1600000000 420
        (sum64 sampleHash (ascii "hello")) (ascii "hello").length (ascii "hello"))
      = .ok (⟨ascii "greeting.txt", 1600000000, 420, sum64 sampleHash (ascii "hello"),
          (ascii "hello").length⟩, ascii "hello") ∧
    (decodeFile sampleHash (filePayload (ascii "greeting.txt") 1600000000 420
        (sum64 sampleHash (ascii "hello")) (ascii "hello").length (ascii "hello")) sampleFS).2
      = .ok ∧
    (decodeFile sampleHash (filePayload (ascii "greeting.txt") 1600000000 420
        (sum64 sampleHash (ascii "hello")) (ascii "hello").length (ascii "hello"))
        sampleFS).1.lstat (ascii "greeting.txt")
      = .ok (.file (ascii "hello") (420 % 512) 1600000000) :=
  ⟨by decide, by decide, by decide, by decide, by decide, by decide, by decide, by decide,
    fun _ _ => rfl, rfl, rfl, rfl,
    single_file_round_trip sampleHash (ascii "greeting.txt") (ascii "hello") 1600000000 420
      ⟨[], []⟩ sampleFS (by decide) (by decide) (by decide) (by decide) (by decide) (by decide)
      (by decide) (by decide) (fun _ _ => rfl)
      (Or.inr ⟨ascii "stale-old", 384, 900, rfl, rfl, rfl⟩)⟩

theorem get_below_file (fs : FS) (p : List Bytes) (c : Bytes) (pm : Nat) (t : Int)
    (h : fs.get p = some (.file c pm t)) (n : Bytes) (q : List Bytes) :
    fs.get (p ++ n :: q) = none := by
  unfold FS.get at h ⊢
  rw [getAt_append, h]
  rfl

theorem get_below_none (fs : FS) (p : List Bytes) (h : fs.get p = none) (x : List Bytes) :
    fs.get (p ++ x) = none := by
  unfold FS.get at h ⊢
  rw [getAt_append, h, getAt_none]

/-- Removing the entry at a path: nothing stands there afterwards, the
directories that lead there still do, and no directory has been made. -/
theorem delete_step (fs : FS) (p : List Bytes) (node : Node) (hp : p ≠ [])
    (hg : fs.get p = some node) :
    (fs.alter (some fs.now) (fun _ => none) p).get p = none ∧
    DirChain p (some (fs.alter (some fs.now) (fun _ => none) p).root) ∧
    (fs.alter (some fs.now) (fun _ => none) p).Keeps fs := by
  have hc : DirChain p (some fs.root) := dirChain_of_getAt p _ node hg
  have h1 := alter_get_self fs (some fs.now) (fun _ => none) p hp hc
  exact ⟨h1, alter_dirChain fs _ _ p hp hc, alter_keeps_back fs _ _ p (dirPerm_of_none h1)⟩

/-- When `decodeFile` returns nil for a name under which a directory stood, a
regular file with the content of the payload and the permission bits of the
mode stands at the path of the directory, and the name leads to it. -/
theorem decodeFile_replaces_dir (hash : Bytes → Nat) (r : Bytes) (fs : FS) (h : FileHeader)
    (content : Bytes) (pm : Nat) (t : Int) (es : List (Bytes × Node))
    (hdec : unmarshalFileHeader r = .ok (h, content))
    (hwas : fs.lstat h.targetBase = .ok (.dir pm t es))
    (hok : (decodeFile hash r fs).2 = .ok) :
    ∃ p time, fs.resolve h.targetBase = .ok p ∧ fs.get p = some (.dir pm t es) ∧
      (decodeFile hash r fs).1.get p = some (.file content (h.mode % 512) time) ∧
      (decodeFile hash r fs).1.lstat h.targetBase
        = .ok (.file content (h.mode % 512) time) := by
  obtain ⟨p, hres, hrf, hget⟩ := lstat_ok_inv hwas
  unfold decodeFile at hok ⊢
  rw [hdec] at hok ⊢
  simp only at hok ⊢
  unfold decodeFileBody at hok ⊢
  by_cases h1 : int64OfBits h.size < 0
  · rw [if_pos h1] at hok; simp at hok
  · rw [if_neg h1] at hok ⊢
    by_cases hg : fs.growLimit < h.size ∧ content.length < h.size
    · rw [if_pos hg] at hok; simp at hok
    · rw [if_neg hg] at hok ⊢
      by_cases h2 : (content.length : Int) < int64OfBits h.size
      · rw [if_pos h2] at hok; simp at hok
      · rw [if_neg h2] at hok ⊢
        by_cases h3 : h.hashSource ≠ sum64 hash content
        · rw [if_pos h3] at hok; simp at hok
        · rw [if_neg h3, hwas] at hok ⊢
          simp only [Node.isRegular, Bool.false_eq_true, if_false] at hok ⊢
          rcases hra : fs.removeAll h.targetBase with ⟨o, fs1⟩
          rw [hra] at hok
          cases o with
          | some e => simp at hok
          | none =>
            simp only at hok ⊢
            obtain ⟨he1, hp⟩ := removeAll_none_inv hres hget hra
            obtain ⟨hg1, hc1, hk1⟩ := delete_step fs p _ hp hget
            rw [← he1] at hg1 hc1 hk1
            obtain ⟨fh, fs2, _, _, _, _, _, ho, _, _, _, _, _⟩ := decodeFileWrite_ok_inv hok
            obtain ⟨hr1, hsl, _⟩ := openFile_ok_inv ho
            have hfh : fh = p := by
              have := resolve_mono hk1 hr1
              rw [hres] at this
              simp only [Except.ok.injEq] at this
              exact this.symm
            subst hfh
            obtain ⟨hfin, hk2⟩ := decodeFileWrite_ok h content fs1 fh hr1 hp hc1
              (dirPerm_of_none hg1) hok
            refine ⟨fh, _, hres, hget, hfin, ?_⟩
            refine lstat_of_get (resolve_mono hk2 hr1) ?_ hfin hsl
            rw [hk2.refuses, ← hk1.refuses]
            exact hrf

/-- When `decodeDirectoryDescend` returns nil for a name under which a regular
file stood, a new directory stands at the path of the file, and it is the
working directory. -/
theorem decodeDirectoryDescend_replaces_file (r : Bytes) (fs : FS) (name r1 : Bytes)
    (mode : Nat) (r2 old : Bytes) (pm : Nat) (t : Int)
    (hname : unmarshalString r = .ok (name, r1))
    (hmode : unmarshalUint32 r1 = .ok (mode, r2))
    (hwas : fs.lstat name = .ok (.file old pm t))
    (hok : (decodeDirectoryDescend r fs).2 = .ok) :
    ∃ p, fs.resolve name = .ok p ∧ fs.get p = some (.file old pm t) ∧
      (decodeDirectoryDescend r fs).1.get p
        = some (.dir (applyUmask fs.umask mode) fs.now []) ∧
      (decodeDirectoryDescend r fs).1.cwd = p := by
  obtain ⟨p, hres, _, hget⟩ := lstat_ok_inv hwas
  unfold decodeDirectoryDescend at hok ⊢
  rw [hname] at hok ⊢
  simp only at hok ⊢
  rw [hmode] at hok ⊢
  simp only at hok ⊢
  rw [hwas] at hok ⊢
  simp only [Node.isDir, Bool.false_eq_true, if_false] at hok ⊢
  rcases hrm : fs.remove name with e | fs1
  · rw [hrm] at hok; simp at hok
  · rw [hrm] at hok
    simp only at hok ⊢
    obtain ⟨p1, hr1, hp, _, he1⟩ := remove_ok_inv hrm
    have hp1 : p1 = p := by
      rw [hres] at hr1
      simp only [Except.ok.injEq] at hr1
      exact hr1.symm
    subst hp1
    obtain ⟨hg1, hc1, hk1⟩ := delete_step fs p1 _ hp hget
    rw [← he1] at hg1 hc1 hk1
    unfold mkdirAndChdir at hok ⊢
    rcases hmk : fs1.mkdir name mode with e | fs2
    · rw [hmk] at hok; simp at hok
    · rw [hmk] at hok
      simp only at hok ⊢
      obtain ⟨p2, hr2, _, he2⟩ := mkdir_ok_inv hmk
      have hp2 : p2 = p1 := by
        have := resolve_mono hk1 hr2
        rw [hres] at this
        simp only [Except.ok.injEq] at this
        exact this.symm
      subst hp2
      obtain ⟨hg2, _, hk2⟩ := alter_file_step fs1 (some fs1.now)
        (fun _ => some (.dir (applyUmask fs1.umask mode) fs1.now [])) p2 hp hc1
        (dirPerm_of_none hg1)
      rw [← he2] at hg2 hk2
      rcases hcd : fs2.chdir name with e | fs3
      · rw [hcd] at hok; simp at hok
      · simp only
        obtain ⟨p3, hr3, he3, _⟩ := chdir_ok_inv hcd
        have hp3 : p3 = p2 := by
          rw [resolve_mono hk2 hr2] at hr3
          simp only [Except.ok.injEq] at hr3
          exact hr3.symm
        subst hp3
        refine ⟨p3, hres, hget, ?_, ?_⟩
        · rw [he3]
          have hu : fs1.umask = fs.umask := by rw [he1, alter_umask]
          have hn : fs1.now = fs.now := by rw [he1, alter_now]
          rw [← hu, ← hn]
          exact hg2
        · rw [he3]

/-- C10. Wrong-type replacement. When `decodeFile` succeeds on a name that
referred to a directory, with any contents, the directory and everything under
it are gone and the name refers to a regular file that holds the content of
the payload. When `decodeDirectoryDescend` succeeds on a name that referred to
a regular file, the file is gone, a directory stands where the name led, and
the working directory is that directory. -/
theorem wrong_type_replacement (hash : Bytes → Nat) (r : Bytes) (fs : FS) (h : FileHeader)
    (content : Bytes) (pm : Nat) (t : Int) (es : List (Bytes × Node))
    (r2 : Bytes) (fs2 : FS) (name r3 : Bytes) (mode : Nat) (r4 old : Bytes) (pm2 : Nat)
    (t2 : Int)
    (hdec : unmarshalFileHeader r = .ok (h, content))
    (hwas : fs.lstat h.targetBase = .ok (.dir pm t es))
    (hok : (decodeFile hash r fs).2 = .ok)
    (hname : unmarshalString r2 = .ok (name, r3))
    (hmode : unmarshalUint32 r3 = .ok (mode, r4))
    (hwas2 : fs2.lstat name = .ok (.file old pm2 t2))
    (hok2 : (decodeDirectoryDescend r2 fs2).2 = .ok) :
    (∃ p time, fs.resolve h.targetBase = .ok p ∧ fs.get p = some (.dir pm t es) ∧
      (decodeFile hash r fs).1.lstat h.targetBase
        = .ok (.file content (h.mode % 512) time) ∧
      (decodeFile hash r fs).1.get p = some (.file content (h.mode % 512) time) ∧
      ∀ n q, (decodeFile hash r fs).1.get (p ++ n :: q) = none) ∧
    (∃ p, fs2.resolve name = .ok p ∧ fs2.get p = some (.file old pm2 t2) ∧
      (decodeDirectoryDescend r2 fs2).1.get p
        = some (.dir (applyUmask fs2.umask mode) fs2.now []) ∧
      (decodeDirectoryDescend r2 fs2).1.cwd = p) := by
  constructor
  · obtain ⟨p, time, h1, h2, h3, h4⟩ :=
      decodeFile_replaces_dir hash r fs h content pm t es hdec hwas hok
    exact ⟨p, time, h1, h2, h4, h3, fun n q => get_below_file _ _ _ _ _ h3 n q⟩
  · exact decodeDirectoryDescend_replaces_file r2 fs2 name r3 mode r4 old pm2 t2 hname hmode
      hwas2 hok2

theorem wrong_type_replacement_witness :
    unmarshalFileHeader dotDocsFilePayload
      = .ok (⟨ascii "./docs", 1600000000, 420, sum64 sampleHash (ascii "hello"), 5⟩,
          ascii "hello") ∧
    sampleFS.lstat (ascii "./docs")
      = .ok (.dir 493 1000 [(ascii "old.txt", .file (ascii "old") 420 900)]) ∧
    (decodeFile sampleHash dotDocsFilePayload sampleFS).2 = .ok ∧
    unmarshalString longGreetingDescendPayload
      = .ok (ascii "docs/../greeting.txt", marshalUint32 sampleDirInfo.mode) ∧
    unmarshalUint32 (marshalUint32 sampleDirInfo.mode) = .ok (sampleDirInfo.mode, []) ∧
    sampleFS.lstat (ascii "docs/../greeting.txt") = .ok (.file (ascii "stale-old") 384 900) ∧
    (decodeDirectoryDescend longGreetingDescendPayload sampleFS).2 = .ok ∧
    ((∃ p time, sampleFS.resolve (ascii "./docs") = .ok p ∧
      sampleFS.get p = some (.dir 493 1000 [(ascii "old.txt", .file (ascii "old") 420 900)]) ∧
      (decodeFile sampleHash dotDocsFilePayload sampleFS).1.lstat (ascii "./docs")
        = .ok (.file (ascii "hello") (420 % 512) time) ∧
      (decodeFile sampleHash dotDocsFilePayload sampleFS).1.get p
        = some (.file (ascii "hello") (420 % 512) time) ∧
      ∀ n q, (decodeFile sampleHash dotDocsFilePayload sampleFS).1.get (p ++ n :: q) = none) ∧
    (∃ p, sampleFS.resolve (ascii "docs/../greeting.txt") = .ok p ∧
      sampleFS.get p = some (.file (ascii "stale-old") 384 900) ∧
      (decodeDirectoryDescend longGreetingDescendPayload sampleFS).1.get p
        = some (.dir (applyUmask sampleFS.umask sampleDirInfo.mode) sampleFS.now []) ∧
      (decodeDirectoryDescend longGreetingDescendPayload sampleFS).1.cwd = p)) :=
  ⟨rfl, rfl, by decide, rfl, rfl, rfl, by decide,
    wrong_type_replacement sampleHash dotDocsFilePayload sampleFS
      ⟨ascii "./docs", 1600000000, 420, sum64 sampleHash (ascii "hello"), 5⟩ (ascii "hello")
      493 1000 [(ascii "old.txt", .file (ascii "old") 420 900)]
      longGreetingDescendPayload sampleFS (ascii "docs/../greeting.txt")
      (marshalUint32 sampleDirInfo.mode) sampleDirInfo.mode [] (ascii "stale-old") 384 900
      rfl rfl (by decide) rfl rfl rfl (by decide)⟩

/-! ## The decoder: the mode of a new directory -/

/-- What `decodeDirectoryDescend` does on a simple base name that is absent
from a working directory that the process may search and write, when the
system refuses no call: it makes the directory with the permission bits of the
decoded mode, under the umask, and moves into it; when those bits do not let
the process search the new directory, `os.Chdir` fails and the process ends. -/
theorem decodeDirectoryDescend_absent (r : Bytes) (fs : FS) (name r1 : Bytes) (mode : Nat)
    (r2 : Bytes) (hname : unmarshalString r = .ok (name, r1))
    (hmode : unmarshalUint32 r1 = .ok (mode, r2)) (hbase : IsBaseName name)
    (hdir : fs.searchAt fs.cwd) (hwr : fs.mayWriteDir fs.cwd = true) (hquiet : fs.Quiet)
    (habs : fs.lstat name = .error .enoent) :
    (decodeDirectoryDescend r fs).1.get (fs.cwd ++ [name])
      = some (.dir (applyUmask fs.umask mode) fs.now []) ∧
    (fs.maySearch (applyUmask fs.umask mode) = true →
      (decodeDirectoryDescend r fs).2 = .ok ∧
      (decodeDirectoryDescend r fs).1.cwd = fs.cwd ++ [name]) ∧
    (fs.maySearch (applyUmask fs.umask mode) = false →
      (decodeDirectoryDescend r fs).2 = .fatal (.sys .eacces)) := by
  obtain ⟨hres, hget⟩ := (lstat_baseName_inv hbase fs hdir hquiet).1 habs
  have hne : fs.cwd ++ [name] ≠ [] := by simp
  have hchain : DirChain (fs.cwd ++ [name]) (some fs.root) := by
    obtain ⟨perm, hp, _⟩ := hdir
    obtain ⟨t2, es, hg⟩ := dirPermOf_eq_some hp
    exact dirChain_snoc fs.cwd name _ perm t2 es hg
  obtain ⟨hg1, _, hk1⟩ := alter_file_step fs (some fs.now)
    (fun _ => some (.dir (applyUmask fs.umask mode) fs.now [])) (fs.cwd ++ [name]) hne hchain
    (dirPerm_of_none hget)
  have hmk : fs.mkdir name mode = .ok (fs.alter (some fs.now)
      (fun _ => some (.dir (applyUmask fs.umask mode) fs.now [])) (fs.cwd ++ [name])) := by
    unfold FS.mkdir
    rw [hres]
    simp only
    rw [hquiet .mkdir _]
    simp only
    rw [hget]
    simp only
    rw [List.dropLast_concat, if_pos hwr]
  have hsu : (fs.alter (some fs.now)
      (fun _ => some (.dir (applyUmask fs.umask mode) fs.now [])) (fs.cwd ++ [name])).maySearch
      (applyUmask fs.umask mode) = fs.maySearch (applyUmask fs.umask mode) := by
    unfold FS.maySearch
    rw [alter_superuser]
  unfold decodeDirectoryDescend
  rw [hname]
  simp only
  rw [hmode]
  simp only
  rw [habs]
  simp only [if_true]
  unfold mkdirAndChdir
  rw [hmk]
  simp only
  unfold FS.chdir
  rw [resolve_mono hk1 hres]
  simp only
  unfold FS.enter
  rw [quiet_of_keeps hk1 hquiet .chdir _, hg1]
  simp only
  rw [hsu]
  by_cases hs : fs.maySearch (applyUmask fs.umask mode) = true
  · rw [if_pos hs]
    simp only
    refine ⟨hg1, fun _ => ⟨trivial, trivial⟩, fun hf => ?_⟩
    rw [hs] at hf
    simp at hf
  · rw [if_neg hs]
    simp only
    refine ⟨hg1, fun ht => absurd ht hs, fun _ => trivial⟩

/-- C11 (the code at the failing input). A directory-descend message that
names `new`, absent from the working directory, with the mode `drwx------`:
the directory is made with the permission bits `0700` of the message, where
`os.ModePerm` would give `0755` under the umask `022` of the process. -/
theorem permissive_mode_failing_input :
    unmarshalString newDescendPayload = .ok (ascii "new", marshalUint32 2147484096) ∧
    unmarshalUint32 (marshalUint32 2147484096) = .ok (2147484096, []) ∧
    sampleFS.lstat (ascii "new") = .error .enoent ∧
    (decodeDirectoryDescend newDescendPayload sampleFS).2 = .ok ∧
    (decodeDirectoryDescend newDescendPayload sampleFS).1.get [ascii "home", ascii "new"]
      = some (.dir 448 2000 []) ∧
    applyUmask sampleFS.umask 2147484096 = 448 ∧
    applyUmask sampleFS.umask 511 = 493 :=
  ⟨rfl, rfl, rfl, by decide, rfl, by decide, by decide⟩

/-! ## The decoder: sockets -/

/-- C12 (as stated, refuted). A domain-socket message that names
`greeting.txt`, a regular file of the working directory: `decodeSocket`
returns the not-implemented error, and the file is gone. And a message that
names `.` gets the error of `os.RemoveAll`, not the not-implemented error. -/
theorem socket_not_attempted_counterexample :
    unmarshalNameTimeMode (socketPayload (ascii "greeting.txt"))
      = .ok (ascii "greeting.txt", 1600000000, 16777709) ∧
    sampleFS.lstat (ascii "greeting.txt") = .ok (.file (ascii "stale-old") 384 900) ∧
    (decodeSocket (socketPayload (ascii "greeting.txt")) sampleFS).2
      = .failed .notImplemented ∧
    (decodeSocket (socketPayload (ascii "greeting.txt")) sampleFS).1.lstat (ascii "greeting.txt")
      = .error .enoent ∧
    unmarshalNameTimeMode (socketPayload (ascii "."))
      = .ok (ascii ".", 1600000000, 16777709) ∧
    (decodeSocket (socketPayload (ascii ".")) sampleFS).2 = .failed (.sys .einval) :=
  ⟨rfl, rfl, by decide, rfl, rfl, by decide⟩

theorem removeTree_some_isDir {su : Bool} {now : Int} {node left : Node}
    (h : removeTree su now node = some left) : left.isDir = true := by
  cases node with
  | dir pm t es =>
    unfold removeTree at h
    split at h
    · simp at h
    · split at h
      · split at h
        · simp at h
        · simp only [Option.some.injEq] at h
          rw [← h]
          rfl
      · simp only [Option.some.injEq] at h
        rw [← h]
        rfl
  | file c pm t => simp [removeTree] at h
  | symlink r => simp [removeTree] at h
  | fifo pm t => simp [removeTree] at h
  | socket pm t => simp [removeTree] at h

theorem emptyTree_isSocket (su : Bool) (now : Int) (node : Node) :
    (emptyTree su now node).isSocket = node.isSocket := by
  cases node with
  | dir pm t es =>
    cases es with
    | nil => rfl
    | cons e rest =>
      simp only [emptyTree]
      split
      · rfl
      · rfl
  | file c pm t => rfl
  | symlink r => rfl
  | fifo pm t => rfl
  | socket pm t => rfl

theorem isSocket_of_isDir {node : Node} (h : node.isDir = true) : node.isSocket = false := by
  cases node with
  | dir pm t es => rfl
  | file c pm t => rfl
  | symlink r => rfl
  | fifo pm t => rfl
  | socket pm t => simp [Node.isDir] at h

/-- What an update at a path leaves under the path, when it leaves an entry. -/
theorem alter_get_some (fs : FS) (touch : Option Int) (f : Option Node → Option Node)
    (p : List Bytes) (hc : DirChain p (some fs.root)) (v : Node) (hv : f (fs.get p) = some v) :
    (fs.alter touch f p).get p = some v := by
  cases p with
  | nil =>
    have h1 : alterAt touch f [] (some fs.root) = some v := hv
    simp [FS.alter, h1, FS.get, getAt]
  | cons a rest =>
    rw [alter_get_self fs touch f _ (by simp) hc]
    exact hv

/-- After `os.RemoveAll` of a name under which an entry stood that was no
socket, no socket stands there. -/
theorem removeAll_no_socket {fs : FS} {path : Bytes} {p : List Bytes} {node : Node}
    (hr : fs.resolve path = .ok p) (hg : fs.get p = some node) (hns : node.isSocket = false) :
    ∀ x, (fs.removeAll path).2.get p = some x → x.isSocket = false := by
  have hc : DirChain p (some fs.root) := dirChain_of_getAt p _ node hg
  have hsame : ∀ x, fs.get p = some x → x.isSocket = false := by
    intro x hx
    rw [hg] at hx
    simp only [Option.some.injEq] at hx
    rw [← hx]
    exact hns
  have hemp : ∀ x, (fs.alter none
      (fun _ => some (emptyTree fs.superuser fs.now node)) p).get p = some x →
      x.isSocket = false := by
    intro x hx
    rw [alter_get_some fs none _ p hc _ rfl] at hx
    simp only [Option.some.injEq] at hx
    rw [← hx, emptyTree_isSocket]
    exact hns
  unfold FS.removeAll
  rw [if_neg (resolve_ne_nil hr)]
  by_cases c1 : lastComponent path = [46]
  · rw [if_pos c1]
    exact hsame
  · rw [if_neg c1, hr]
    simp only
    rcases hf : fs.refuses .removeAll p with _ | e
    · simp only
      rw [hg]
      simp only
      by_cases c2 : p = [] ∨ lastComponent path = [46, 46]
      · rw [if_pos c2]
        exact hemp
      · rw [if_neg c2]
        by_cases c3 : fs.mayWriteDir p.dropLast = false
        · rw [if_pos c3]
          exact hemp
        · rw [if_neg c3]
          have hp : p ≠ [] := fun hp => c2 (Or.inl hp)
          rcases ht : removeTree fs.superuser fs.now node with _ | left
          · simp only
            intro x hx
            rw [alter_get_self fs _ _ p hp hc] at hx
            simp at hx
          · simp only
            intro x hx
            rw [alter_get_self fs _ _ p hp hc] at hx
            simp only [Option.some.injEq] at hx
            rw [← hx]
            exact isSocket_of_isDir (removeTree_some_isDir ht)
    · simp only
      exact hsame

/-- C12 (amended). Unsupported socket: on the Unix platform, for every
domain-socket message whose name, modification time and mode decode,
`decodeSocket` makes no socket and does not return nil. It returns the
not-implemented error, unless `os.Lstat` fails with an error other than
not-exist, or `os.RemoveAll` fails: then it returns that error. When no entry
of the name exists, or the entry is a socket, the file system is left exactly
as it was. When an entry of another type stands under the name, `os.RemoveAll`
is applied to it, and when the not-implemented error is returned that entry is
gone, with all it held. Where the name led, a socket stands afterwards only if
it stood there before. -/
theorem socket_not_attempted (r : Bytes) (fs : FS) (name : Bytes) (mtime : Int) (mode : Nat)
    (hdec : unmarshalNameTimeMode r = .ok (name, mtime, mode)) :
    ((decodeSocket r fs).2 = .failed .notImplemented ∨
      (∃ e, e ≠ .enoent ∧ fs.lstat name = .error e ∧
        decodeSocket r fs = (fs, .failed (.sys e))) ∨
      (∃ e node, fs.lstat name = .ok node ∧ node.isSocket = false ∧
        (fs.removeAll name).1 = some e ∧
        decodeSocket r fs = ((fs.removeAll name).2, .failed (.sys e)))) ∧
    ((fs.lstat name = .error .enoent ∨ ∃ pm t, fs.lstat name = .ok (.socket pm t)) →
      decodeSocket r fs = (fs, .failed .notImplemented)) ∧
    (∀ node p, fs.lstat name = .ok node → node.isSocket = false →
      fs.resolve name = .ok p → (decodeSocket r fs).2 = .failed .notImplemented →
      (decodeSocket r fs).1 = (fs.removeAll name).2 ∧
      ∀ x, (decodeSocket r fs).1.get (p ++ x) = none) ∧
    (∀ p x, fs.resolve name = .ok p → (decodeSocket r fs).1.get p = some x →
      x.isSocket = true → fs.get p = some x) := by
  unfold decodeSocket
  rw [hdec]
  simp only
  rcases hl : fs.lstat name with e | fi
  · simp only
    by_cases he : e = .enoent
    · subst he
      simp only [if_true, makeSocket]
      refine ⟨Or.inl trivial, fun _ => trivial, ?_, fun p x _ hx _ => hx⟩
      intro node p hn
      simp at hn
    · rw [if_neg he]
      refine ⟨Or.inr (Or.inl ⟨e, he, rfl, rfl⟩), ?_, ?_, fun p x _ hx _ => hx⟩
      · intro hc
        rcases hc with hc | ⟨pm, t, hc⟩
        · simp only [Except.error.injEq] at hc
          exact absurd hc he
        · simp at hc
      · intro node p hn
        simp at hn
  · simp only
    by_cases hs : fi.isSocket = true
    · rw [if_pos hs]
      simp only [makeSocket]
      refine ⟨Or.inl trivial, fun _ => trivial, ?_, fun p x _ hx _ => hx⟩
      intro node p hn hns
      simp only [Except.ok.injEq] at hn
      rw [← hn, hs] at hns
      simp at hns
    · rw [if_neg hs]
      have hs2 : fi.isSocket = false := by simpa using hs
      obtain ⟨p0, hr0, _, hg0⟩ := lstat_ok_inv hl
      have hno := removeAll_no_socket hr0 hg0 hs2
      rcases hra : fs.removeAll name with ⟨o, fs1⟩
      rw [hra] at hno
      simp only at hno
      cases o with
      | some e =>
        simp only
        refine ⟨Or.inr (Or.inr ⟨e, fi, rfl, hs2, rfl, rfl⟩), ?_, ?_, ?_⟩
        · intro hc
          rcases hc with hc | ⟨pm, t, hc⟩
          · simp at hc
          · simp only [Except.ok.injEq] at hc
            rw [hc] at hs2
            simp [Node.isSocket] at hs2
        · intro node p _ _ _ hout
          simp at hout
        · intro p x hp hx hxs
          rw [hr0] at hp
          simp only [Except.ok.injEq] at hp
          subst hp
          rw [hno x hx] at hxs
          simp at hxs
      | none =>
        simp only [makeSocket]
        refine ⟨Or.inl trivial, ?_, ?_, ?_⟩
        · intro hc
          rcases hc with hc | ⟨pm, t, hc⟩
          · simp at hc
          · simp only [Except.ok.injEq] at hc
            rw [hc] at hs2
            simp [Node.isSocket] at hs2
        · intro node p _ _ hp _
          refine ⟨trivial, ?_⟩
          rw [hr0] at hp
          simp only [Except.ok.injEq] at hp
          subst hp
          obtain ⟨he1, hp0⟩ := removeAll_none_inv hr0 hg0 hra
          rw [he1]
          exact get_below_none _ _ (delete_step fs p0 _ hp0 hg0).1
        · intro p x hp hx hxs
          rw [hr0] at hp
          simp only [Except.ok.injEq] at hp
          subst hp
          rw [hno x hx] at hxs
          simp at hxs

theorem socket_not_attempted_witness :
    unmarshalNameTimeMode (socketPayload (ascii "ctl.sock"))
      = .ok (ascii "ctl.sock", 1600000000, 16777709) ∧
    (((decodeSocket (socketPayload (ascii "ctl.sock")) sampleFSWithSocket).2
        = .failed .notImplemented ∨
      (∃ e, e ≠ .enoent ∧ sampleFSWithSocket.lstat (ascii "ctl.sock") = .error e ∧
        decodeSocket (socketPayload (ascii "ctl.sock")) sampleFSWithSocket
          = (sampleFSWithSocket, .failed (.sys e))) ∨
      (∃ e node, sampleFSWithSocket.lstat (ascii "ctl.sock") = .ok node ∧
        node.isSocket = false ∧
        (sampleFSWithSocket.removeAll (ascii "ctl.sock")).1 = some e ∧
        decodeSocket (socketPayload (ascii "ctl.sock")) sampleFSWithSocket
          = ((sampleFSWithSocket.removeAll (ascii "ctl.sock")).2, .failed (.sys e)))) ∧
    ((sampleFSWithSocket.lstat (ascii "ctl.sock") = .error .enoent ∨
        ∃ pm t, sampleFSWithSocket.lstat (ascii "ctl.sock") = .ok (.socket pm t)) →
      decodeSocket (socketPayload (ascii "ctl.sock")) sampleFSWithSocket
        = (sampleFSWithSocket, .failed .notImplemented)) ∧
    (∀ node p, sampleFSWithSocket.lstat (ascii "ctl.sock") = .ok node →
      node.isSocket = false → sampleFSWithSocket.resolve (ascii "ctl.sock") = .ok p →
      (decodeSocket (socketPayload (ascii "ctl.sock")) sampleFSWithSocket).2
        = .failed .notImplemented →
      (decodeSocket (socketPayload (ascii "ctl.sock")) sampleFSWithSocket).1
        = (sampleFSWithSocket.removeAll (ascii "ctl.sock")).2 ∧
      ∀ x, (decodeSocket (socketPayload (ascii "ctl.sock")) sampleFSWithSocket).1.get (p ++ x)
        = none) ∧
    (∀ p x, sampleFSWithSocket.resolve (ascii "ctl.sock") = .ok p →
      (decodeSocket (socketPayload (ascii "ctl.sock")) sampleFSWithSocket).1.get p = some x →
      x.isSocket = true → sampleFSWithSocket.get p = some x)) :=
  ⟨rfl, socket_not_attempted (socketPayload (ascii "ctl.sock")) sampleFSWithSocket
    (ascii "ctl.sock") 1600000000 16777709 rfl⟩

/-- The errors that `decodeSocket` returns in place of the not-implemented
error: that of `os.Lstat` for a name with a NUL byte and for a name of 256
bytes, and that of `os.RemoveAll` for a file in a working directory that the
process may not write; the file is still there. -/
theorem decodeSocket_other_errors :
    (decodeSocket (socketPayload [97, 0, 98]) sampleFS).2 = .failed (.sys .einval) ∧
    (decodeSocket (socketPayload (List.replicate 256 97)) sampleFS).2
      = .failed (.sys .enametoolong) ∧
    sampleFSReadOnlyDir.lstat (ascii "greeting.txt")
      = .ok (.file (ascii "stale-old") 384 900) ∧
    (decodeSocket (socketPayload (ascii "greeting.txt")) sampleFSReadOnlyDir).2
      = .failed (.sys .eacces) ∧
    (decodeSocket (socketPayload (ascii "greeting.txt")) sampleFSReadOnlyDir).1.lstat
        (ascii "greeting.txt")
      = .ok (.file (ascii "stale-old") 384 900) :=
  ⟨by decide, by decide, rfl, by decide, rfl⟩

/-! ## The decoder: descend, then ascend -/

/-- After a directory-descend message with a simple base name that did not end
the process, the working directory is the child of that name. -/
theorem decodeDirectoryDescend_cwd (r : Bytes) (fs : FS) (name r1 : Bytes) (mode : Nat)
    (r2 : Bytes) (hname : unmarshalString r = .ok (name, r1))
    (hmode : unmarshalUint32 r1 = .ok (mode, r2)) (hbase : IsBaseName name)
    (hok : (decodeDirectoryDescend r fs).2.isFatal = false) :
    (decodeDirectoryDescend r fs).1.cwd = fs.cwd ++ [name] := by
  unfold decodeDirectoryDescend at hok ⊢
  rw [hname] at hok ⊢
  simp only at hok ⊢
  rw [hmode] at hok ⊢
  simp only at hok ⊢
  rcases hl : fs.lstat name with e | fi
  · rw [hl] at hok
    simp only at hok ⊢
    by_cases he : e = .enoent
    · rw [if_pos he] at hok ⊢
      exact mkdirAndChdir_cwd hbase hok
    · rw [if_neg he] at hok
      simp [Outcome.isFatal] at hok
  · rw [hl] at hok
    simp only at hok ⊢
    by_cases hd : fi.isDir = true
    · rw [if_pos hd] at hok ⊢
      rcases hc : fs.chdir name with e | fs1
      · rw [hc] at hok; simp [Outcome.isFatal] at hok
      · simp only
        exact chdir_baseName hbase hc
    · rw [if_neg hd] at hok ⊢
      rcases hrm : fs.remove name with e | fs1
      · rw [hrm] at hok; simp [Outcome.isFatal] at hok
      · rw [hrm] at hok
        simp only at hok ⊢
        rw [mkdirAndChdir_cwd hbase hok, remove_cwd hrm]

theorem getwd_ok {fs : FS} {wd : List Bytes} (h : fs.getwd = .ok wd) : wd = fs.cwd := by
  unfold FS.getwd at h
  split at h
  · simp at h
  · split at h
    · simp only [Except.ok.injEq] at h
      exact h.symm
    · simp at h

theorem chtimesAbs_cwd {fs fs1 : FS} {p : List Bytes} {t : Int}
    (h : fs.chtimesAbs p t = .ok fs1) : fs1.cwd = fs.cwd := by
  unfold FS.chtimesAbs at h
  split at h
  · simp at h
  · rw [setTimes_ok_inv h, alter_cwd]

theorem chdirAbs_cwd {fs fs1 : FS} {p : List Bytes} (h : fs.chdirAbs p = .ok fs1) :
    fs1.cwd = p := by
  unfold FS.chdirAbs at h
  split at h
  · simp at h
  · rw [(enter_ok_inv h).1]

/-- After a directory-ascend message that is applied without error, the
working directory is the parent of the one before. -/
theorem decodeDirectoryAscend_cwd (r : Bytes) (fs : FS)
    (hok : (decodeDirectoryAscend r fs).2 = .ok) :
    (decodeDirectoryAscend r fs).1.cwd = fs.cwd.dropLast := by
  unfold decodeDirectoryAscend at hok ⊢
  rcases hm : unmarshalInt64 r with e | ⟨mtime, rest⟩
  · rw [hm] at hok; simp at hok
  · rw [hm] at hok
    simp only at hok ⊢
    rcases hw : fs.getwd with e | wd
    · rw [hw] at hok; simp at hok
    · rw [hw] at hok
      simp only at hok ⊢
      rcases ht : fs.chtimesAbs wd mtime with e | fs1
      · rw [ht] at hok; simp at hok
      · rw [ht] at hok
        simp only at hok ⊢
        rcases hc : fs1.chdirAbs wd.dropLast with e | fs2
        · rw [hc] at hok; simp at hok
        · simp only
          rw [chdirAbs_cwd hc, getwd_ok hw]

theorem handle_descend (hash : Bytes → Nat) (f : Frame) (fs : FS)
    (h : f.messageType = v1DirectoryDescend) :
    handle hash f fs = decodeDirectoryDescend f.payload fs := by
  simp [handle, h, v1DirectoryDescend, v1RegularFile, v1DirectoryAscend]

theorem handle_ascend (hash : Bytes → Nat) (f : Frame) (fs : FS)
    (h : f.messageType = v1DirectoryAscend) :
    handle hash f fs = decodeDirectoryAscend f.payload fs := by
  simp [handle, h, v1RegularFile, v1DirectoryAscend]

theorem applyFrames_cons_some {hash : Bytes → Nat} {f : Frame} {rest : List Frame}
    {fs fs2 : FS} (h : applyFrames hash (f :: rest) fs = some fs2) :
    (handle hash f fs).2 = .ok ∧ applyFrames hash rest (handle hash f fs).1 = some fs2 := by
  unfold applyFrames at h
  rcases hh : handle hash f fs with ⟨fs1, o⟩
  rw [hh] at h
  cases o with
  | ok => exact ⟨rfl, h⟩
  | failed e => simp at h
  | fatal e => simp at h

theorem applyFrames_append (hash : Bytes → Nat) (l1 l2 : List Frame) (fs : FS) :
    applyFrames hash (l1 ++ l2) fs = (applyFrames hash l1 fs).bind (applyFrames hash l2) := by
  induction l1 generalizing fs with
  | nil => rfl
  | cons f rest ih =>
    simp only [List.cons_append, applyFrames]
    rcases hh : handle hash f fs with ⟨fs1, o⟩
    cases o with
    | ok => exact ih fs1
    | failed e => rfl
    | fatal e => rfl

/-- When every handler of a stream returned nil, so did `extract`, and it
leaves the same file system. -/
theorem extract_of_applyFrames (hash : Bytes → Nat) (l : List Frame) (fs fs2 : FS)
    (h : applyFrames hash l fs = some fs2) : extract hash l fs = (fs2, .ok) := by
  unfold extract
  induction l generalizing fs with
  | nil =>
    simp only [applyFrames, Option.some.injEq] at h
    simp [extractLoop, Outcome.ofError, h]
  | cons f rest ih =>
    obtain ⟨h1, h2⟩ := applyFrames_cons_some h
    rcases hh : handle hash f fs with ⟨fs1, o⟩
    rw [hh] at h1 h2
    simp only at h1 h2
    subst h1
    simp only [extractLoop, hh]
    exact ih fs1 h2

/-- A well-nested stream of descend and ascend messages whose handlers all
returned nil leaves the working directory where it was. -/
theorem nestedStream_cwd (hash : Bytes → Nat) (l : List Frame) (hn : NestedStream l) :
    ∀ fs fs2 : FS, applyFrames hash l fs = some fs2 → fs2.cwd = fs.cwd := by
  induction hn with
  | nil =>
    intro fs fs2 h
    simp only [applyFrames, Option.some.injEq] at h
    rw [h]
  | wrap d a inner hd ha _ ih =>
    intro fs fs2 h
    obtain ⟨hdt, name, r1, mode, r2, hname, hmode, hbase⟩ := hd
    obtain ⟨h1, h2⟩ := applyFrames_cons_some h
    rw [handle_descend hash d fs hdt] at h1 h2
    have hcwd1 := decodeDirectoryDescend_cwd d.payload fs name r1 mode r2 hname hmode hbase
      (by rw [h1]; rfl)
    replace h2 : applyFrames hash (inner ++ [a]) (decodeDirectoryDescend d.payload fs).1
        = some fs2 := h2
    rw [applyFrames_append] at h2
    rcases hin : applyFrames hash inner (decodeDirectoryDescend d.payload fs).1 with _ | fs1
    · rw [hin] at h2; simp at h2
    · rw [hin] at h2
      simp only [Option.bind] at h2
      obtain ⟨h3, h4⟩ := applyFrames_cons_some h2
      rw [handle_ascend hash a fs1 ha] at h3 h4
      simp only [applyFrames, Option.some.injEq] at h4
      rw [← h4, decodeDirectoryAscend_cwd a.payload fs1 h3, ih _ _ hin, hcwd1]
      simp
  | append l1 l2 _ _ ih1 ih2 =>
    intro fs fs2 h
    rw [applyFrames_append] at h
    rcases h1 : applyFrames hash l1 fs with _ | fs1
    · rw [h1] at h; simp at h
    · rw [h1] at h
      simp only [Option.bind] at h
      rw [ih2 fs1 fs2 h, ih1 fs fs1 h1]

/-- C13. Descend then ascend restores the working directory: for every starting
working directory and every simple base name `n`, applying
`decodeDirectoryDescend` for `n` and then `decodeDirectoryAscend`, both
returning nil, leaves the working directory equal to the starting one; hence
every well-nested sequence of such descend and ascend messages, each applied
with success, ends in the directory it started in. -/
theorem descend_ascend_restores (hash : Bytes → Nat) (r : Bytes) (fs : FS) (n r1 : Bytes)
    (mode : Nat) (r2 ra : Bytes) (l : List Frame) (fs2 fs3 : FS)
    (hname : unmarshalString r = .ok (n, r1))
    (hmode : unmarshalUint32 r1 = .ok (mode, r2))
    (hbase : IsBaseName n)
    (hdescend : (decodeDirectoryDescend r fs).2 = .ok)
    (hascend : (decodeDirectoryAscend ra (decodeDirectoryDescend r fs).1).2 = .ok)
    (hnested : NestedStream l)
    (hall : applyFrames hash l fs2 = some fs3) :
    (decodeDirectoryAscend ra (decodeDirectoryDescend r fs).1).1.cwd = fs.cwd ∧
    fs3.cwd = fs2.cwd ∧
    (extract hash l fs2).1.cwd = fs2.cwd := by
  refine ⟨?_, nestedStream_cwd hash l hnested fs2 fs3 hall, ?_⟩
  · rw [decodeDirectoryAscend_cwd ra _ hascend,
      decodeDirectoryDescend_cwd r fs n r1 mode r2 hname hmode hbase (by rw [hdescend]; rfl)]
    simp
  · rw [extract_of_applyFrames hash l fs2 fs3 hall]
    exact nestedStream_cwd hash l hnested fs2 fs3 hall

theorem descend_ascend_restores_witness :
    unmarshalString docsDescendPayload = .ok (ascii "docs", marshalUint32 sampleDirInfo.mode) ∧
    unmarshalUint32 (marshalUint32 sampleDirInfo.mode) = .ok (sampleDirInfo.mode, []) ∧
    IsBaseName (ascii "docs") ∧
    (decodeDirectoryDescend docsDescendPayload sampleFS).2 = .ok ∧
    (decodeDirectoryAscend (ascendPayload sampleDirInfo)
      (decodeDirectoryDescend docsDescendPayload sampleFS).1).2 = .ok ∧
    NestedStream nestedStream ∧
    applyFrames sampleHash nestedStream sampleFS
      = some (extract sampleHash nestedStream sampleFS).1 ∧
    (decodeDirectoryAscend (ascendPayload sampleDirInfo)
      (decodeDirectoryDescend docsDescendPayload sampleFS).1).1.cwd = sampleFS.cwd ∧
    (extract sampleHash nestedStream sampleFS).1.cwd = sampleFS.cwd ∧
    (extract sampleHash nestedStream sampleFS).1.cwd = sampleFS.cwd :=
  have hnew : IsDescendFrame newDescendFrame :=
    ⟨rfl, ascii "new", marshalUint32 2147484096, 2147484096, [], rfl, rfl, by decide⟩
  have hdocs : IsDescendFrame docsDescendFrame :=
    ⟨rfl, ascii "docs", marshalUint32 sampleDirInfo.mode, sampleDirInfo.mode, [], rfl, rfl,
      by decide⟩
  have hinner : NestedStream [newDescendFrame, sampleAscendFrame] :=
    NestedStream.wrap newDescendFrame sampleAscendFrame [] hnew rfl NestedStream.nil
  have hnested : NestedStream nestedStream :=
    NestedStream.append [docsDescendFrame, newDescendFrame, sampleAscendFrame, sampleAscendFrame]
      [newDescendFrame, sampleAscendFrame]
      (NestedStream.wrap docsDescendFrame sampleAscendFrame
        [newDescendFrame, sampleAscendFrame] hdocs rfl hinner)
      hinner
  ⟨rfl, rfl, by decide, by decide, by decide, hnested, rfl,
    descend_ascend_restores sampleHash docsDescendPayload sampleFS (ascii "docs")
      (marshalUint32 sampleDirInfo.mode) sampleDirInfo.mode [] (ascendPayload sampleDirInfo)
      nestedStream sampleFS (extract sampleHash nestedStream sampleFS).1
      rfl rfl (by decide) (by decide) (by decide) hnested rfl⟩

/-! ## `parentAndBaseFromPathname` -/

/-- C14. `parentAndBaseFromPathname`: for every path name other than `.` and
`..` it returns `filepath.Dir` and `filepath.Base` of the path name with no
error, whatever `os.Getwd` answers (`../tsync/testdata` gives `../tsync` and
`testdata`, `testdata` gives `.` and `testdata`, `./testdata` gives `.` and
`testdata`); for `.` it returns the `Dir` and the `Base` of the working
directory, and for `..` the `Dir` and the `Base` of the parent of the working
directory, which is its `Dir`. -/
theorem parent_and_base (getwd getwd2 : Except Err Bytes) (pathname wd : Bytes)
    (hdot : pathname ≠ ascii ".") (hdotdot : pathname ≠ ascii "..") :
    parentAndBaseFromPathname getwd pathname
      = .ok (filepathDir pathname, filepathBase pathname) ∧
    parentAndBaseFromPathname getwd pathname = parentAndBaseFromPathname getwd2 pathname ∧
    parentAndBaseFromPathname getwd (ascii "../tsync/testdata")
      = .ok (ascii "../tsync", ascii "testdata") ∧
    parentAndBaseFromPathname getwd (ascii "testdata") = .ok (ascii ".", ascii "testdata") ∧
    parentAndBaseFromPathname getwd (ascii "./testdata") = .ok (ascii ".", ascii "testdata") ∧
    parentAndBaseFromPathname (.ok wd) (ascii ".") = .ok (filepathDir wd, filepathBase wd) ∧
    parentAndBaseFromPathname (.ok wd) (ascii "..")
      = .ok (filepathDir (filepathDir wd), filepathBase (filepathDir wd)) := by
  have h1 : ascii "." = [46] := rfl
  have h2 : ascii ".." = [46, 46] := rfl
  rw [h1] at hdot ⊢
  rw [h2] at hdotdot ⊢
  have hgen : ∀ g : Except Err Bytes, parentAndBaseFromPathname g pathname
      = .ok (filepathDir pathname, filepathBase pathname) := by
    intro g
    unfold parentAndBaseFromPathname
    rw [if_pos ⟨hdot, hdotdot⟩]
  refine ⟨hgen getwd, by rw [hgen getwd, hgen getwd2], ?_, ?_, ?_, ?_, ?_⟩
  · unfold parentAndBaseFromPathname
    rw [if_pos (by decide)]
    rfl
  · unfold parentAndBaseFromPathname
    rw [if_pos (by decide)]
    rfl
  · unfold parentAndBaseFromPathname
    rw [if_pos (by decide)]
    rfl
  · unfold parentAndBaseFromPathname
    rw [if_neg (by decide)]
    simp
  · unfold parentAndBaseFromPathname
    rw [if_neg (by decide)]
    simp

theorem parent_and_base_witness :
    ascii "/usr/lib" ≠ ascii "." ∧ ascii "/usr/lib" ≠ ascii ".." ∧
    (parentAndBaseFromPathname (.error (.sys .enoent)) (ascii "/usr/lib")
      = .ok (filepathDir (ascii "/usr/lib"), filepathBase (ascii "/usr/lib")) ∧
    parentAndBaseFromPathname (.error (.sys .enoent)) (ascii "/usr/lib")
      = parentAndBaseFromPathname (.ok (ascii "/tmp")) (ascii "/usr/lib") ∧
    parentAndBaseFromPathname (.error (.sys .enoent)) (ascii "../tsync/testdata")
      = .ok (ascii "../tsync", ascii "testdata") ∧
    parentAndBaseFromPathname (.error (.sys .enoent)) (ascii "testdata")
      = .ok (ascii ".", ascii "testdata") ∧
    parentAndBaseFromPathname (.error (.sys .enoent)) (ascii "./testdata")
      = .ok (ascii ".", ascii "testdata") ∧
    parentAndBaseFromPathname (.ok (ascii "/home/user/tsync")) (ascii ".")
      = .ok (filepathDir (ascii "/home/user/tsync"), filepathBase (ascii "/home/user/tsync")) ∧
    parentAndBaseFromPathname (.ok (ascii "/home/user/tsync")) (ascii "..")
      = .ok (filepathDir (filepathDir (ascii "/home/user/tsync")),
          filepathBase (filepathDir (ascii "/home/user/tsync")))) :=
  ⟨by decide, by decide,
    parent_and_base (.error (.sys .enoent)) (.ok (ascii "/tmp")) (ascii "/usr/lib")
      (ascii "/home/user/tsync") (by decide) (by decide)⟩

end Tsync
